import Mathlib

/-!
Verification of the tinychain transactional B-tree / table core.

This file embeds, shallowly, the parts of the source needed to settle the
frozen claims:

* `src/prototype/collection/btree/file.rs` — `BTreeFile` and its node
  algorithms (`_slice`, `_slice_reverse`, `_insert`, `split_child`,
  `_delete`, `_update`, `insert`, `len`, `create`'s order derivation).
* `src/prototype/collection/btree/bounds.rs` — `BTreeRange`.
* `src/prototype/collection/table/index.rs` — `Index` / `TableIndex` row
  operations.
* `src/host/transact/src/fs/file.rs` — `File::create_block`.

Block storage is embedded by direct containment: a node's `children` list
holds the child nodes themselves rather than block ids, so a `BTreeFile`'s
block file plus root id becomes a single inductive tree.  Per-transaction
locking always succeeds in this embedding (a single transaction's view),
so the `Conflict`/`Internal` I/O error paths of the source collapse away;
the value-level control flow of each routine is translated branch by
branch.  Keys hold integer column values: every claim's concrete scenario
uses integer columns, and the collator (whose source `collator.rs` is not
in the tree) is modelled from the spec over per-column numeric order.
-/

/-! ### Values, keys and ranges -/

/-- A column value.  The claims under verification only exercise numeric
columns, so a column value is embedded as an integer. -/
abbrev Value := Int

/-- `Key` from `btree/mod.rs`: a tuple of column values. -/
abbrev Key := List Value

/-- `Bound` from the scalar module: one endpoint of a per-column range. -/
inductive Bound where
  | unbounded : Bound
  | include_ (v : Value) : Bound
  | exclude (v : Value) : Bound
deriving DecidableEq, Repr

/-- `BTreeRange` from `btree/bounds.rs`: a pair of bound tuples.
`fst` is the start (`range.start()`), `snd` the end (`range.end()`). -/
structure BTreeRange where
  start : List Bound
  stop : List Bound
deriving DecidableEq, Repr

/-- `BTreeRange::default()`: the unbounded range `(vec![], vec![])`. -/
def BTreeRange.dflt : BTreeRange := ⟨[], []⟩

/-- `impl From<Key> for BTreeRange`: both bound tuples are the key's
values, inclusive. -/
def BTreeRange.ofKey (k : Key) : BTreeRange :=
  ⟨k.map Bound.include_, k.map Bound.include_⟩

/-! ### The collator, modelled from the spec

`collator.rs` is not under `src/`; only its callers are.  The definitions
below are modelled from the spec. -/

/-- Modelled from the spec: §4.E Collator, "Compares values column-by-column
using per-type total orderings (… numeric for numbers …)".  The missing
source is `src/prototype/collection/btree/collator.rs` (`Collator::compare`).
Keys are compared column by column; comparison stops at the width of the
shorter key. -/
def cmpKey : Key → Key → Ordering
  | a :: as_, b :: bs =>
    match compare a b with
    | Ordering.eq => cmpKey as_ bs
    | o => o
  | _, _ => Ordering.eq

/-- Modelled from the spec: §4.E, "A bound per column is one of `Unbounded`,
`Inclusive(v)`, `Exclusive(v)`.  Range comparisons treat missing trailing
bounds as `Unbounded`."  The missing source is `collator.rs`.
`belowStart bs k` holds when key `k` lies strictly before the lower bounds
`bs` in the collator's total order. -/
def belowStart : List Bound → Key → Bool
  | [], _ => false
  | _, [] => false
  | Bound.unbounded :: _, _ :: _ => false
  | Bound.include_ v :: bs, x :: xs =>
    match compare x v with
    | Ordering.lt => true
    | Ordering.gt => false
    | Ordering.eq => belowStart bs xs
  | Bound.exclude v :: _, x :: _ =>
    match compare x v with
    | Ordering.lt => true
    | Ordering.gt => false
    | Ordering.eq => true

/-- Modelled from the spec: §4.E (see `belowStart`).  `aboveEnd bs k` holds
when key `k` lies strictly after the upper bounds `bs`. -/
def aboveEnd : List Bound → Key → Bool
  | [], _ => false
  | _, [] => false
  | Bound.unbounded :: _, _ :: _ => false
  | Bound.include_ v :: bs, x :: xs =>
    match compare x v with
    | Ordering.gt => true
    | Ordering.lt => false
    | Ordering.eq => aboveEnd bs xs
  | Bound.exclude v :: _, x :: _ =>
    match compare x v with
    | Ordering.gt => true
    | Ordering.lt => false
    | Ordering.eq => true

/-- Modelled from the spec: `Collator::contains(start, end, key)` as used by
`BTreeFile::_slice` — the key lies within both bound tuples. -/
def containsKey (rg : BTreeRange) (k : Key) : Bool :=
  !belowStart rg.start k && !aboveEnd rg.stop k

/-- Modelled from the spec: §4.E `bisect_left_range(keys, lower_bounds)` —
on a sorted key list, the first index whose key is not below the lower
bounds. -/
def bisect_left_range (bs : List Bound) (keys : List Key) : Nat :=
  (keys.takeWhile fun k => belowStart bs k).length

/-- Modelled from the spec: §4.E `bisect_right_range(keys, upper_bounds)` —
on a sorted key list, the first index whose key is above the upper
bounds. -/
def bisect_right_range (bs : List Bound) (keys : List Key) : Nat :=
  (keys.takeWhile fun k => !aboveEnd bs k).length

/-- Modelled from the spec: §4.E `bisect_left(keys, key)` — on a sorted key
list, the first index whose key is not less than `key`. -/
def bisect_left (keys : List Key) (k : Key) : Nat :=
  (keys.takeWhile fun j => cmpKey j k == Ordering.lt).length

/-! ### B-tree nodes -/

/-- `NodeKey` from `btree/file.rs`: a key tuple plus its tombstone flag. -/
structure NodeKey where
  value : Key
  deleted : Bool
deriving DecidableEq, Repr

/-- `impl From<Vec<Value>> for NodeKey`: fresh keys are live. -/
def NodeKey.ofKey (k : Key) : NodeKey := ⟨k, false⟩

/-- `Node` from `btree/file.rs`.  A node's `children` hold the child nodes
directly (the source holds their block ids and reads them from the
transactional file); the `parent` back-pointer of the source is redundant
in this representation and dropped.  `rebalance` is kept as in the
source. -/
inductive BNode where
  | mk (leaf : Bool) (keys : List NodeKey) (children : List BNode) (rebalance : Bool)

/-- `Node::new(leaf, parent)`: no keys, no children, rebalance unset. -/
def BNode.new (leaf : Bool) : BNode := .mk leaf [] [] false

def BNode.leaf : BNode → Bool
  | .mk lf _ _ _ => lf

def BNode.keys : BNode → List NodeKey
  | .mk _ ks _ _ => ks

def BNode.children : BNode → List BNode
  | .mk _ _ cs _ => cs

def BNode.rebalance : BNode → Bool
  | .mk _ _ _ rb => rb

/-- `bisect` from `btree/file.rs`: the `(l, r)` window of a node's keys for
a range. -/
def bisect (rg : BTreeRange) (keys : List NodeKey) : Nat × Nat :=
  (bisect_left_range rg.start (keys.map NodeKey.value),
   bisect_right_range rg.stop (keys.map NodeKey.value))

/-- The key the forward slice yields at position `i` of a node: the key's
values if it is live, nothing if it is tombstoned
(`if !node.keys[i].deleted { … }` in `_slice`/`_slice_reverse`). -/
def keyYield (ks : List NodeKey) (i : Nat) : List Key :=
  match ks.getD i (NodeKey.ofKey []) with
  | ⟨v, false⟩ => [v]
  | ⟨_, true⟩ => []

mutual

/-- `BTreeFile::_slice`: the forward stream of live keys of a subtree
within a range, as the finite list of keys it yields. -/
def sliceF (rg : BTreeRange) : BNode → List Key
  | .mk lf ks cs _ =>
    let l := bisect_left_range rg.start (ks.map NodeKey.value)
    let r := bisect_right_range rg.stop (ks.map NodeKey.value)
    if lf then
      if l = r ∧ l < ks.length then
        match ks.getD l (NodeKey.ofKey []) with
        | ⟨v, d⟩ => if !d && containsKey rg v then [v] else []
      else
        ((ks.drop l).take (r - l) |>.filter (fun nk => !nk.deleted)).map NodeKey.value
    else
      let subs := sliceAllF rg cs
      ((List.range' l (r - l)).flatMap fun i => subs.getD i [] ++ keyYield ks i)
        ++ subs.getD r []

/-- The forward slices of a list of child nodes (the source fetches each
child block on demand; the embedding slices them all and selects by
index). -/
def sliceAllF (rg : BTreeRange) : List BNode → List (List Key)
  | [] => []
  | c :: cs => sliceF rg c :: sliceAllF rg cs

end

mutual

/-- `BTreeFile::_slice_reverse`: the reverse stream of live keys of a
subtree within a range. -/
def sliceR (rg : BTreeRange) : BNode → List Key
  | .mk lf ks cs _ =>
    let l := bisect_left_range rg.start (ks.map NodeKey.value)
    let r := bisect_right_range rg.stop (ks.map NodeKey.value)
    if lf then
      (((ks.drop l).take (r - l) |>.filter (fun nk => !nk.deleted)).reverse).map
        NodeKey.value
    else
      let subs := sliceAllR rg cs
      subs.getD r []
        ++ ((List.range' l (r - l)).reverse.flatMap fun i =>
              keyYield ks i ++ subs.getD i [])

/-- The reverse slices of a list of child nodes. -/
def sliceAllR (rg : BTreeRange) : List BNode → List (List Key)
  | [] => []
  | c :: cs => sliceR rg c :: sliceAllR rg cs

end

/-- `BTreeInstance::stream` for `BTreeFile`: forward or reverse slice from
the root. -/
def streamBT (t : BNode) (rg : BTreeRange) (reverse : Bool) : List Key :=
  if reverse then sliceR rg t else sliceF rg t

/-- `BTreeInstance::len` for `BTreeFile`: the number of keys the forward
stream yields. -/
def lenBT (t : BNode) (rg : BTreeRange) : Nat :=
  (streamBT t rg false).length

/-! ### Delete, update, inorder traversal -/

mutual

/-- `BTreeFile::_delete`: tombstone every key of the subtree within the
range.  In a leaf the window `[l, r)` of keys is marked deleted; in an
inner node additionally children `l..=r` are visited (`l..r` plus the last
child `r`); when the window is empty only child `r` is visited. -/
def delA (rg : BTreeRange) : BNode → BNode
  | .mk lf ks cs rb =>
    let l := bisect_left_range rg.start (ks.map NodeKey.value)
    let r := bisect_right_range rg.stop (ks.map NodeKey.value)
    if lf then
      if l = r then .mk lf ks cs rb
      else
        .mk lf
          (ks.mapIdx fun i nk => if l ≤ i ∧ i < r then ⟨nk.value, true⟩ else nk)
          cs true
    else if r > l then
      .mk lf
        (ks.mapIdx fun i nk => if l ≤ i ∧ i < r then ⟨nk.value, true⟩ else nk)
        (delKids rg l r 0 cs) true
    else
      .mk lf ks (delKids rg r r 0 cs) rb

/-- Visit children with indices in `[lo, hi]` recursively, as `_delete`
does via `try_join_all`. -/
def delKids (rg : BTreeRange) (lo hi : Nat) : Nat → List BNode → List BNode
  | _, [] => []
  | j, c :: rest =>
    (if lo ≤ j ∧ j ≤ hi then delA rg c else c) :: delKids rg lo hi (j + 1) rest

end

mutual

/-- `BTreeFile::_update`: overwrite every key of the subtree within the
range with the given values (the fresh `NodeKey` is live).  In an inner
node with a non-empty window, keys `[l, r)` are overwritten and children
`l..=r` visited; with an empty window only child `r` is visited. -/
def updA (rg : BTreeRange) (v : Key) : BNode → BNode
  | .mk lf ks cs rb =>
    let l := bisect_left_range rg.start (ks.map NodeKey.value)
    let r := bisect_right_range rg.stop (ks.map NodeKey.value)
    if lf then
      if l = r then .mk lf ks cs rb
      else
        .mk lf (ks.mapIdx fun i nk => if l ≤ i ∧ i < r then NodeKey.ofKey v else nk)
          cs rb
    else if r > l then
      .mk lf (ks.mapIdx fun i nk => if l ≤ i ∧ i < r then NodeKey.ofKey v else nk)
        (updKids rg v l r 0 cs) rb
    else
      .mk lf ks (updKids rg v r r 0 cs) rb

/-- Visit children with indices in `[lo, hi]` recursively, as `_update`
does. -/
def updKids (rg : BTreeRange) (v : Key) (lo hi : Nat) : Nat → List BNode → List BNode
  | _, [] => []
  | j, c :: rest =>
    (if lo ≤ j ∧ j ≤ hi then updA rg v c else c) :: updKids rg v lo hi (j + 1) rest

end

mutual

/-- The in-order sequence of `NodeKey` slots of a subtree: child 0, key 0,
child 1, key 1, …, last child.  This is the specification-side view of a
node file's contents, used to state what the operations do. -/
def inorder : BNode → List NodeKey
  | .mk lf ks cs _ => if lf then ks else inorderKids ks cs

/-- In-order interleaving of separator keys and children. -/
def inorderKids : List NodeKey → List BNode → List NodeKey
  | ks, [] => ks
  | [], c :: cs => inorder c ++ inorderKids [] cs
  | k :: ks, c :: cs => inorder c ++ k :: inorderKids ks cs

end

/-! ### Split and insert -/

/-- `BTreeFile::split_child`: split the full child `i` of a node.  The
median key (index `order - 1`) moves up into the parent at position `i`;
the child keeps keys `[0, order-1)`; a new sibling at child position
`i + 1` receives keys `[order, 2·order-1)` and, for a non-leaf child,
children `[order, 2·order)`. -/
def splitChild (order : Nat) (parent : BNode) (i : Nat) : BNode :=
  match parent with
  | .mk lf ks cs rb =>
    match cs.getD i (BNode.new true) with
    | .mk clf cks ccs crb =>
      let median := cks.getD (order - 1) (NodeKey.ofKey [])
      let left := BNode.mk clf (cks.take (order - 1))
        (if clf then ccs else ccs.take order) crb
      let sib := BNode.mk clf (cks.drop order)
        (if clf then [] else ccs.drop order) false
      .mk lf (ks.insertIdx i median) ((cs.set i left).insertIdx (i + 1) sib) rb

mutual

/-- Height of a subtree (used only to justify the recursion of
`insertLoop`, which descends into the children produced by
`splitChild`). -/
def heightB : BNode → Nat
  | .mk _ _ cs _ => 1 + maxH cs

/-- Maximum height over a list of nodes. -/
def maxH : List BNode → Nat
  | [] => 0
  | c :: cs => max (heightB c) (maxH cs)

end

/-- Clear the tombstone on the key at position `i`
(`node.keys[i].deleted = false` in `_insert`). -/
def unTomb (ks : List NodeKey) (i : Nat) : List NodeKey :=
  ks.mapIdx fun j nk => if j = i then ⟨nk.value, false⟩ else nk

/-- `BTreeFile::_insert`.  At a node: find the insertion point by
`bisect_left`; a hit clears its tombstone; in a leaf the key is inserted;
in an inner node the target child is split first when full, the key is
compared against the promoted median to choose the half (an equal median
is un-tombstoned instead), and insertion recurses.

The source recurses through blocks freshly written by `split_child`; this
embedding passes an explicit recursion budget (any bound on the subtree
height, see `insertBT`), which keeps the definition structurally recursive
and hence computable by the kernel.  The `fuel = 0` case is never reached
when the budget is at least `heightB t`. -/
def insertLoop (order : Nat) (k : Key) : Nat → BNode → BNode
  | 0, t => t
  | fuel + 1, .mk lf ks cs rb =>
    let i := bisect_left (ks.map NodeKey.value) k
    if i < ks.length ∧ cmpKey (ks.getD i (NodeKey.ofKey [])).value k = Ordering.eq then
      .mk lf (unTomb ks i) cs rb
    else if lf then
      .mk lf (ks.insertIdx i (NodeKey.ofKey k)) cs rb
    else if i < cs.length then
      if (cs.getD i (BNode.new true)).keys.length = 2 * order - 1 then
        let t' := splitChild order (.mk lf ks cs rb) i
        match cmpKey k ((t'.keys.getD i (NodeKey.ofKey [])).value) with
        | Ordering.lt =>
            .mk t'.leaf t'.keys
              (t'.children.set i
                (insertLoop order k fuel (t'.children.getD i (BNode.new true))))
              t'.rebalance
        | Ordering.eq => .mk t'.leaf (unTomb t'.keys i) t'.children t'.rebalance
        | Ordering.gt =>
            .mk t'.leaf t'.keys
              (t'.children.set (i + 1)
                (insertLoop order k fuel (t'.children.getD (i + 1) (BNode.new true))))
              t'.rebalance
      else
        .mk lf ks (cs.set i (insertLoop order k fuel (cs.getD i (BNode.new true)))) rb
    else .mk lf ks cs rb

/-- `BTreeInstance::insert` for `BTreeFile`: when the root is full
(`2·order − 1` keys) a fresh root is allocated with the old root as child
0 and split before descending. -/
def insertBT (order : Nat) (t : BNode) (k : Key) : BNode :=
  if t.keys.length = 2 * order - 1 then
    let newRoot := splitChild order (BNode.mk false [] [t] false) 0
    insertLoop order k (heightB newRoot) newRoot
  else
    insertLoop order k (heightB t) t

/-- `BTreeInstance::delete` for `BTreeFile` (range validation aside, the
call is `_delete` from the root). -/
def deleteBT (t : BNode) (rg : BTreeRange) : BNode := delA rg t

/-- `BTreeFile::update` (range validation aside, the call is `_update`
from the root). -/
def updateBT (t : BNode) (rg : BTreeRange) (v : Key) : BNode := updA rg v t

/-! ### Errors and `insert_from` -/

/-- The error taxonomy of `error.rs` (the variants the embedded operations
can produce). -/
inductive TCError where
  | badRequest
  | notFound
  | conflict
  | internal
deriving DecidableEq, Repr

/-- `validate_key` as used by `BTreeInstance::insert_from`: the key must
have exactly the schema's width (and each value its column's type, which
holds trivially for the integer columns embedded here).  Modelled from the
spec ("inserts one validated key", "`BadRequest` (… invalid key width)");
the btree module's own `validate_key` is not under `src/`, and the sibling
`IndexSchema::validate_key` in `src/src/collection/schema.rs` checks
exactly width plus per-column type. -/
def validate_key (w : Nat) (k : Key) : Except TCError Key :=
  if k.length = w then Except.ok k else Except.error TCError.badRequest

/-- One step of `insert_from`: validate the key, then insert it; a key
that fails validation is not inserted and the step's result is the
error. -/
def insert_from_step (order w : Nat) :
    BNode × Except TCError Unit → Key → BNode × Except TCError Unit
  | (t, _), k =>
    match validate_key w k with
    | Except.ok k => (insertBT order t k, Except.ok ())
    | Except.error e => (t, Except.error e)

/-- `BTreeInstance::insert_from` for `BTreeFile`: validate and insert each
key of the source stream; the fold's result is the last step's result (the
source folds `|_, r| r` over the buffered stream).  The source's bounded
buffering (`2·order`) reorders concurrent inserts; the embedding performs
them in stream order. -/
def insert_from (order w : Nat) (t : BNode) (ks : List Key) :
    BNode × Except TCError Unit :=
  ks.foldl (insert_from_step order w) (t, Except.ok ())

/-! ### Claim C2: the reverse stream is the reverse of the forward stream -/

theorem BNode.strongInd (P : BNode → Prop)
    (h : ∀ lf ks cs rb, (∀ c ∈ cs, P c) → P (.mk lf ks cs rb)) : ∀ t, P t := by
  have key : ∀ n (t : BNode), sizeOf t ≤ n → P t := by
    intro n
    induction n with
    | zero =>
      intro t ht
      cases t with
      | mk lf ks cs rb => simp only [BNode.mk.sizeOf_spec] at ht; omega
    | succ n ih =>
      intro t ht
      cases t with
      | mk lf ks cs rb =>
        apply h
        intro c hc
        apply ih
        have h1 := List.sizeOf_lt_of_mem hc
        simp only [BNode.mk.sizeOf_spec] at ht
        omega
  intro t
  exact key (sizeOf t) t le_rfl

theorem sliceAllF_eq_map (rg : BTreeRange) (cs : List BNode) :
    sliceAllF rg cs = cs.map (sliceF rg) := by
  induction cs with
  | nil => rfl
  | cons c cs ih => simp [sliceAllF, ih]

theorem sliceAllR_eq_map (rg : BTreeRange) (cs : List BNode) :
    sliceAllR rg cs = cs.map (sliceR rg) := by
  induction cs with
  | nil => rfl
  | cons c cs ih => simp [sliceAllR, ih]

theorem keyYield_reverse (ks : List NodeKey) (i : Nat) :
    (keyYield ks i).reverse = keyYield ks i := by
  unfold keyYield
  rcases ks.getD i (NodeKey.ofKey []) with ⟨v, d⟩
  cases d <;> simp

theorem takeWhile_boundary {α : Type} (p : α → Bool) (l : List α) (d : α)
    (h : (l.takeWhile p).length < l.length) :
    p (l.getD (l.takeWhile p).length d) = false := by
  induction l with
  | nil => simp at h
  | cons c rest ih =>
    by_cases hc : p c
    · rw [List.takeWhile_cons_of_pos hc] at h ⊢
      simpa using ih (by simpa using h)
    · rw [List.takeWhile_cons_of_neg hc] at h ⊢
      simpa using hc

theorem getD_map_nil (f : BNode → List Key) (cs : List BNode) (i : Nat) :
    (cs.map f).getD i [] =
      if i < cs.length then f (cs.getD i (BNode.new true)) else [] := by
  by_cases h : i < cs.length
  · rw [if_pos h, List.getD_eq_getElem _ _ (by simpa using h),
      List.getD_eq_getElem _ _ h]
    simp
  · rw [if_neg h, List.getD_eq_default _ _ (by simpa using Nat.le_of_not_lt h)]

theorem sliceR_eq_reverse (rg : BTreeRange) (t : BNode) :
    sliceR rg t = (sliceF rg t).reverse := by
  induction t using BNode.strongInd with
  | _ lf ks cs rb ih =>
    cases lf with
    | true =>
      simp only [sliceF, sliceR, if_true]
      by_cases hb : bisect_left_range rg.start (ks.map NodeKey.value) =
          bisect_right_range rg.stop (ks.map NodeKey.value) ∧
          bisect_left_range rg.start (ks.map NodeKey.value) < ks.length
      · rw [if_pos hb]
        obtain ⟨heq, hlt⟩ := hb
        have hr0 : bisect_right_range rg.stop (ks.map NodeKey.value) -
            bisect_left_range rg.start (ks.map NodeKey.value) = 0 := by omega
        rw [hr0]
        simp only [List.take_zero, List.filter_nil, List.reverse_nil, List.map_nil]
        have hblt : bisect_right_range rg.stop (ks.map NodeKey.value) <
            (ks.map NodeKey.value).length := by
          rw [← heq]; simpa using hlt
        have hbd : (!aboveEnd rg.stop
            ((ks.map NodeKey.value).getD
              (bisect_right_range rg.stop (ks.map NodeKey.value)) [])) = false := by
          simpa [bisect_right_range] using
            takeWhile_boundary (fun k => !aboveEnd rg.stop k) (ks.map NodeKey.value) []
              (by simpa [bisect_right_range] using hblt)
        have hv : (ks.map NodeKey.value).getD
            (bisect_right_range rg.stop (ks.map NodeKey.value)) [] =
            (ks.getD (bisect_left_range rg.start (ks.map NodeKey.value))
              (NodeKey.ofKey [])).value := by
          rw [← heq]
          simpa [NodeKey.ofKey] using
            List.getD_map ks (NodeKey.ofKey [])
              (n := bisect_left_range rg.start (ks.map NodeKey.value)) NodeKey.value
        rw [hv] at hbd
        have habove : aboveEnd rg.stop
            ((ks.getD (bisect_left_range rg.start (ks.map NodeKey.value))
              (NodeKey.ofKey []))).value = true := by
          revert hbd
          cases aboveEnd rg.stop
            ((ks.getD (bisect_left_range rg.start (ks.map NodeKey.value))
              (NodeKey.ofKey []))).value <;> simp
        have hcont : containsKey rg
            ((ks.getD (bisect_left_range rg.start (ks.map NodeKey.value))
              (NodeKey.ofKey []))).value = false := by
          simp only [containsKey, habove, Bool.not_true, Bool.and_false]
        rw [hcont]
        simp
      · rw [if_neg hb]
        rw [← List.map_reverse]
    | false =>
      simp only [sliceF, sliceR, Bool.false_eq_true, if_false]
      rw [sliceAllF_eq_map, sliceAllR_eq_map]
      have hgR : ∀ i, (cs.map (sliceR rg)).getD i [] =
          ((cs.map (sliceF rg)).getD i []).reverse := by
        intro i
        rw [getD_map_nil, getD_map_nil]
        by_cases h : i < cs.length
        · rw [if_pos h, if_pos h]
          rw [ih _ (by rw [List.getD_eq_getElem _ _ h]; exact List.getElem_mem h)]
        · rw [if_neg h, if_neg h, List.reverse_nil]
      rw [List.reverse_append, List.reverse_flatMap]
      congr 1
      · exact hgR _
      · have hfun : (fun i => keyYield ks i ++ (cs.map (sliceR rg)).getD i []) =
            (List.reverse ∘ fun i => (cs.map (sliceF rg)).getD i [] ++ keyYield ks i) := by
          funext i
          simp only [Function.comp, List.reverse_append, keyYield_reverse, hgR i]
        rw [hfun]

/-- C2: for every B-tree state (in particular every state reachable by
inserts and deletes), every range and every transaction, the reverse
stream is exactly the reverse sequence of the forward stream, and hence
both yield the same multiset of keys. -/
theorem claim_C2 (t : BNode) (rg : BTreeRange) :
    streamBT t rg true = (streamBT t rg false).reverse ∧
    Multiset.ofList (streamBT t rg true) = Multiset.ofList (streamBT t rg false) := by
  refine ⟨by simp [streamBT, sliceR_eq_reverse], ?_⟩
  simp [streamBT, sliceR_eq_reverse]

/-! ### Claim C5: `split_child` -/

/-- C5: splitting the full child `i` (holding `2m − 1` keys) of a parent at
order `m`: the parent gains the child's key at original position `m − 1`
at key position `i` and the new sibling's node at child position `i + 1`;
the child retains keys at original positions `[0, m−1)`; the sibling
receives the keys at original positions `[m, 2m−1)` and, for a non-leaf
child, the child nodes at original positions `[m, 2m)`. -/
theorem claim_C5 (m : Nat) (lf clf : Bool) (ks cks : List NodeKey)
    (cs ccs : List BNode) (rb crb : Bool) (i : Nat)
    (hi : i < cs.length)
    (hchild : cs.getD i (BNode.new true) = .mk clf cks ccs crb)
    (_hfull : cks.length = 2 * m - 1) (_hm : 2 ≤ m) :
    (splitChild m (.mk lf ks cs rb) i).keys =
      ks.insertIdx i (cks.getD (m - 1) (NodeKey.ofKey [])) ∧
    (splitChild m (.mk lf ks cs rb) i).children.getD i (BNode.new true) =
      .mk clf (cks.take (m - 1)) (if clf then ccs else ccs.take m) crb ∧
    (splitChild m (.mk lf ks cs rb) i).children.getD (i + 1) (BNode.new true) =
      .mk clf (cks.drop m) (if clf then [] else ccs.drop m) false ∧
    (splitChild m (.mk lf ks cs rb) i).children.length = cs.length + 1 := by
  have hset : i + 1 ≤ (cs.set i (BNode.mk clf (cks.take (m - 1))
      (if clf then ccs else ccs.take m) crb)).length := by
    rw [List.length_set]; omega
  simp only [splitChild, hchild, BNode.keys, BNode.children]
  refine ⟨trivial, ?_, ?_, ?_⟩
  · rw [List.getD_eq_getElem _ _ (by
      rw [List.length_insertIdx _ _ hset, List.length_set]; omega)]
    rw [List.getElem_insertIdx_of_lt _ _ _ _ (Nat.lt_succ_self i)
      (by rw [List.length_set]; omega)]
    rw [List.getElem_set_self]
  · rw [List.getD_eq_getElem _ _ (by
      rw [List.length_insertIdx _ _ hset, List.length_set]; omega)]
    rw [List.getElem_insertIdx_self _ _ _ hset]
  · rw [List.length_insertIdx _ _ hset, List.length_set]

theorem claim_C5_witness :
    (splitChild 2 (BNode.mk false [⟨[10], false⟩]
        [BNode.mk true [⟨[1], false⟩, ⟨[2], false⟩, ⟨[3], false⟩] [] false,
         BNode.new true] false) 0).keys = [⟨[2], false⟩, ⟨[10], false⟩] ∧
    (splitChild 2 (BNode.mk false [⟨[10], false⟩]
        [BNode.mk true [⟨[1], false⟩, ⟨[2], false⟩, ⟨[3], false⟩] [] false,
         BNode.new true] false) 0).children.getD 0 (BNode.new true) =
      BNode.mk true [⟨[1], false⟩] [] false ∧
    (splitChild 2 (BNode.mk false [⟨[10], false⟩]
        [BNode.mk true [⟨[1], false⟩, ⟨[2], false⟩, ⟨[3], false⟩] [] false,
         BNode.new true] false) 0).children.getD 1 (BNode.new true) =
      BNode.mk true [⟨[3], false⟩] [] false ∧
    (splitChild 2 (BNode.mk false [⟨[10], false⟩]
        [BNode.mk true [⟨[1], false⟩, ⟨[2], false⟩, ⟨[3], false⟩] [] false,
         BNode.new true] false) 0).children.length = 3 :=
  claim_C5 2 false true [⟨[10], false⟩]
    [⟨[1], false⟩, ⟨[2], false⟩, ⟨[3], false⟩]
    [BNode.mk true [⟨[1], false⟩, ⟨[2], false⟩, ⟨[3], false⟩] [] false,
     BNode.new true] [] false false 0 (by decide) rfl rfl (by decide)

/-! ### Claim C1: the order derivation of `BTreeFile::create` -/

/-- `Column` from `src/src/collection/schema.rs`, reduced to the two fields
`BTreeFile::create` reads: `col.dtype().size()` and `col.max_len()`.  (The
prototype's per-type `size()` impls are not under `src/`; per the spec §6,
fixed-size value types report their byte size, e.g. 8 for a 64-bit
integer.) -/
structure Column where
  dtypeSize : Option Nat
  maxLen : Option Nat
deriving DecidableEq, Repr

/-- `DEFAULT_BLOCK_SIZE` from `btree/file.rs`. -/
def DEFAULT_BLOCK_SIZE : Nat := 4000

/-- `BLOCK_ID_SIZE` from `btree/file.rs` (the source sets it to `128`,
commented "UUIDs are 128-bit"). -/
def BLOCK_ID_SIZE : Nat := 128

/-- The per-column contribution to `key_size` in `BTreeFile::create`: a
scalar type contributes its size (and may not also declare a maximum
length); a sizeless type contributes `max_len + 8` ("8 bytes for bincode
to encode the length"); a sizeless type without `max_len` is a schema
error. -/
def colKeySize (c : Column) : Except TCError Nat :=
  match c.dtypeSize with
  | some size => if c.maxLen.isSome then Except.error TCError.badRequest else Except.ok size
  | none =>
    match c.maxLen with
    | some size => Except.ok (size + 8)
    | none => Except.error TCError.badRequest

/-- `key_size` as computed by `BTreeFile::create`: the column
contributions plus 2 ("the leaf and deleted booleans each add one byte to
a key as-stored"). -/
def keySizeOf (schema : List Column) : Except TCError Nat :=
  (schema.foldl
    (fun acc c => acc.bind fun n => (colKeySize c).map fun s => n + s)
    (Except.ok 0)).map
    fun n => n + 2

/-- The order computed by `BTreeFile::create` from `key_size`. -/
def deriveOrder (key_size : Nat) : Nat :=
  if DEFAULT_BLOCK_SIZE > key_size * 2 + BLOCK_ID_SIZE * 3 then
    (DEFAULT_BLOCK_SIZE - BLOCK_ID_SIZE) / (key_size + BLOCK_ID_SIZE)
  else 2

/-- `BTreeFile::create`, reduced to its schema validation and order
derivation (block allocation and locking aside). -/
def createOrder (schema : List Column) : Except TCError Nat :=
  (keySizeOf schema).map deriveOrder

/-- C1 counterexample: for the single-column schema of a 64-bit unsigned
integer (`size() = 8`), `BTreeFile::create` derives order 28 — the source
uses `BLOCK_ID_SIZE = 128` — whereas the claim's formula
`max(2, ⌊(4000 − 16) / (key_size + 16)⌋)` with `key_size = 8 + 2` gives
153. -/
theorem claim_C1_counterexample :
    createOrder [⟨some 8, none⟩] = Except.ok 28 ∧
    max 2 ((4000 - 16) / ((8 + 2) + 16)) = 153 ∧ (28 : Nat) ≠ 153 := by
  refine ⟨rfl, by norm_num, by decide⟩

/-- C1 (amended): for every schema accepted by `BTreeFile::create`, the
derived order is `max(2, ⌊(4000 − 128) / (key_size + 128)⌋)` — the
block-id size constant in the derivation is 128, not 16 — where
`key_size` adds, per column, the column type's fixed size, or `max_len`
plus 8 length-header bytes, plus 2 for the leaf/deleted flags. -/
theorem claim_C1_amended (schema : List Column) (k : Nat)
    (h : keySizeOf schema = Except.ok k) :
    createOrder schema = Except.ok (max 2 ((4000 - 128) / (k + 128))) := by
  have horder : deriveOrder k = max 2 ((4000 - 128) / (k + 128)) := by
    unfold deriveOrder DEFAULT_BLOCK_SIZE BLOCK_ID_SIZE
    by_cases hk : 4000 > k * 2 + 128 * 3
    · rw [if_pos hk]
      have h2 : 2 ≤ (4000 - 128) / (k + 128) := by
        rw [Nat.le_div_iff_mul_le (by omega)]
        omega
      omega
    · rw [if_neg hk]
      have h2 : (4000 - 128) / (k + 128) < 3 := by
        rw [Nat.div_lt_iff_lt_mul (by omega)]
        omega
      omega
  unfold createOrder
  rw [h]
  simp [Except.map, horder]

/-- Witness for the amended C1 at the 64-bit-integer schema. -/
theorem claim_C1_amended_witness :
    createOrder [⟨some 8, none⟩] = Except.ok (max 2 ((4000 - 128) / (10 + 128))) :=
  claim_C1_amended [⟨some 8, none⟩] 10 rfl

/-! ### Claim C6: `File::create_block` -/

/-- `TXN_CACHE` from `src/host/transact/src/fs/file.rs`: the reserved
block identifier. -/
def TXN_CACHE : String := ".pending"

/-- The transaction-visible state of a `File<T>` that `create_block`
touches: the block listing visible at the transaction (`listing@txid`) and
the cache slots (block id paired with the slot's value at the
transaction).  The sets of the source are embedded as lists with
membership. -/
structure FileState (D : Type) where
  listing : List String
  cache : List (String × D)
deriving DecidableEq, Repr

/-- `File::create_block` from `src/host/transact/src/fs/file.rs`: reject
the reserved id `".pending"`; reject an id already in the visible listing;
otherwise add the id to the listing, insert a cache slot initialized with
the data, and return a read guard over that data.  Error cases leave the
state unchanged. -/
def create_block {D : Type} (s : FileState D) (id : String) (d : D) :
    FileState D × Except TCError D :=
  if id = TXN_CACHE then (s, Except.error TCError.badRequest)
  else if id ∈ s.listing then (s, Except.error TCError.badRequest)
  else (FileState.mk (id :: s.listing) ((id, d) :: s.cache), Except.ok d)

/-- C6: `create_block` fails with `BadRequest`, leaving the listing
unchanged, exactly when the id is the reserved `".pending"` or already
listed; otherwise it lists the id, inserts a cache slot with the data and
returns a read guard over it. -/
theorem claim_C6 {D : Type} (s : FileState D) (id : String) (d : D) :
    (id = TXN_CACHE ∨ id ∈ s.listing →
      create_block s id d = (s, Except.error TCError.badRequest)) ∧
    (id ≠ TXN_CACHE → id ∉ s.listing →
      create_block s id d =
        (FileState.mk (id :: s.listing) ((id, d) :: s.cache),
          Except.ok d)) := by
  constructor
  · rintro (h | h)
    · simp [create_block, h]
    · by_cases hp : id = TXN_CACHE
      · simp [create_block, hp]
      · simp [create_block, hp, h]
  · intro h1 h2
    simp [create_block, h1, h2]

/-- Witness for C6: creating block `"b"` in a file listing only `"a"`. -/
theorem claim_C6_witness :
    create_block (D := Nat) ⟨["a"], []⟩ "b" 7 =
      (⟨["b", "a"], [("b", 7)]⟩, Except.ok 7) :=
  (claim_C6 ⟨["a"], []⟩ "b" 7).2 (by decide) (by decide)

/-! ### Comparison lemmas for the collator order -/

theorem cmpKey_self (a : Key) : cmpKey a a = Ordering.eq := by
  induction a with
  | nil => rfl
  | cons x xs ih =>
    have h : compare x x = Ordering.eq := compare_eq_iff_eq.mpr rfl
    simp [cmpKey, h, ih]

theorem cmpKey_eq_of_eq {a b : Key} (hlen : a.length = b.length)
    (h : cmpKey a b = Ordering.eq) : a = b := by
  induction a generalizing b with
  | nil => cases b with
    | nil => rfl
    | cons y ys => simp at hlen
  | cons x xs ih =>
    cases b with
    | nil => simp at hlen
    | cons y ys =>
      simp only [cmpKey] at h
      rcases hxy : compare x y with _ | _ | _ <;> rw [hxy] at h
      · simp at h
      · have : x = y := compare_eq_iff_eq.mp hxy
        subst this
        simp only [List.length_cons, Nat.add_right_cancel_iff] at hlen
        rw [ih hlen h]
      · simp at h

theorem cmpKey_swap (a b : Key) : (cmpKey a b).swap = cmpKey b a := by
  induction a generalizing b with
  | nil => cases b <;> rfl
  | cons x xs ih =>
    cases b with
    | nil => rfl
    | cons y ys =>
      simp only [cmpKey]
      rcases hxy : compare x y with _ | _ | _
      · have : compare y x = Ordering.gt := compare_gt_iff_gt.mpr (compare_lt_iff_lt.mp hxy)
        simp [this, Ordering.swap]
      · have : compare y x = Ordering.eq :=
          compare_eq_iff_eq.mpr (compare_eq_iff_eq.mp hxy).symm
        simp [this, ih]
      · have : compare y x = Ordering.lt := compare_lt_iff_lt.mpr (compare_gt_iff_gt.mp hxy)
        simp [this, Ordering.swap]

theorem cmpKey_gt_iff_lt (a b : Key) :
    cmpKey a b = Ordering.gt ↔ cmpKey b a = Ordering.lt := by
  rw [← cmpKey_swap b a]
  cases cmpKey b a <;> simp [Ordering.swap]

theorem cmpKey_lt_trans {a b c : Key} (h1 : cmpKey a b = Ordering.lt)
    (h2 : cmpKey b c = Ordering.lt) : cmpKey a c = Ordering.lt := by
  induction a generalizing b c with
  | nil => cases b <;> simp [cmpKey] at h1
  | cons x xs ih =>
    cases b with
    | nil => simp [cmpKey] at h1
    | cons y ys =>
      cases c with
      | nil => simp [cmpKey] at h2
      | cons z zs =>
        simp only [cmpKey] at h1 h2 ⊢
        rcases hxy : compare x y with _ | _ | _ <;> rw [hxy] at h1 <;>
          rcases hyz : compare y z with _ | _ | _ <;> rw [hyz] at h2 <;>
          try simp at h1 h2
        · have : x < z := lt_trans (compare_lt_iff_lt.mp hxy) (compare_lt_iff_lt.mp hyz)
          simp [compare_lt_iff_lt.mpr this]
        · have : x < z := by
            have h := compare_eq_iff_eq.mp hyz
            exact h ▸ compare_lt_iff_lt.mp hxy
          simp [compare_lt_iff_lt.mpr this]
        · have : x < z := by
            have h := compare_eq_iff_eq.mp hxy
            exact h.symm ▸ compare_lt_iff_lt.mp hyz
          simp [compare_lt_iff_lt.mpr this]
        · have h := compare_eq_iff_eq.mp hxy
          have h' := compare_eq_iff_eq.mp hyz
          rw [compare_eq_iff_eq.mpr (h.trans h')]
          exact ih h1 h2

theorem cmpKey_cons {x y : Value} (xs ys : List Value) :
    cmpKey (x :: xs) (y :: ys) =
      match compare x y with
      | Ordering.eq => cmpKey xs ys
      | o => o := rfl

theorem belowStart_mono {a b : Key} (bs : List Bound) (hlen : a.length = b.length)
    (hab : cmpKey a b ≠ Ordering.gt) (hb : belowStart bs b = true) :
    belowStart bs a = true := by
  induction bs generalizing a b with
  | nil => simp [belowStart] at hb
  | cons u bs ih =>
    cases b with
    | nil => simp [belowStart] at hb
    | cons y ys =>
      cases a with
      | nil => simp at hlen
      | cons x xs =>
        have hxy : compare x y ≠ Ordering.gt := by
          intro hg
          rw [cmpKey_cons, hg] at hab
          exact hab rfl
        cases u with
        | unbounded => simp [belowStart] at hb
        | include_ v =>
          simp only [belowStart] at hb ⊢
          rcases hyv : compare y v with _ | _ | _ <;> rw [hyv] at hb
          · have hx : x < v := by
              rcases hxy' : compare x y with _ | _ | _
              · exact lt_trans (compare_lt_iff_lt.mp hxy') (compare_lt_iff_lt.mp hyv)
              · exact (compare_eq_iff_eq.mp hxy') ▸ compare_lt_iff_lt.mp hyv
              · exact absurd hxy' hxy
            rw [compare_lt_iff_lt.mpr hx]
          · rcases hxy' : compare x y with _ | _ | _
            · have hx : x < v := (compare_eq_iff_eq.mp hyv) ▸ compare_lt_iff_lt.mp hxy'
              rw [compare_lt_iff_lt.mpr hx]
            · have hx : x = v := (compare_eq_iff_eq.mp hxy').trans (compare_eq_iff_eq.mp hyv)
              rw [compare_eq_iff_eq.mpr hx]
              have htl : cmpKey xs ys ≠ Ordering.gt := by
                intro hg
                rw [cmpKey_cons, hxy', hg] at hab
                exact hab rfl
              exact ih (by simpa using hlen) htl hb
            · exact absurd hxy' hxy
          · simp at hb
        | exclude v =>
          simp only [belowStart] at hb ⊢
          rcases hyv : compare y v with _ | _ | _ <;> rw [hyv] at hb
          · have hx : x < v := by
              rcases hxy' : compare x y with _ | _ | _
              · exact lt_trans (compare_lt_iff_lt.mp hxy') (compare_lt_iff_lt.mp hyv)
              · exact (compare_eq_iff_eq.mp hxy') ▸ compare_lt_iff_lt.mp hyv
              · exact absurd hxy' hxy
            rw [compare_lt_iff_lt.mpr hx]
          · have hyv' : y = v := compare_eq_iff_eq.mp hyv
            rcases hxy' : compare x y with _ | _ | _
            · rw [compare_lt_iff_lt.mpr (hyv' ▸ compare_lt_iff_lt.mp hxy')]
            · rw [compare_eq_iff_eq.mpr ((compare_eq_iff_eq.mp hxy').trans hyv')]
            · exact absurd hxy' hxy
          · simp at hb

theorem aboveEnd_mono {a b : Key} (bs : List Bound) (hlen : a.length = b.length)
    (hab : cmpKey a b ≠ Ordering.gt) (ha : aboveEnd bs a = true) :
    aboveEnd bs b = true := by
  induction bs generalizing a b with
  | nil => simp [aboveEnd] at ha
  | cons u bs ih =>
    cases a with
    | nil => simp [aboveEnd] at ha
    | cons x xs =>
      cases b with
      | nil => simp at hlen
      | cons y ys =>
        have hxy : compare x y ≠ Ordering.gt := by
          intro hg
          rw [cmpKey_cons, hg] at hab
          exact hab rfl
        cases u with
        | unbounded => simp [aboveEnd] at ha
        | include_ v =>
          simp only [aboveEnd] at ha ⊢
          rcases hxv : compare x v with _ | _ | _ <;> rw [hxv] at ha
          · simp at ha
          · rcases hxy' : compare x y with _ | _ | _
            · have hy : v < y := (compare_eq_iff_eq.mp hxv) ▸ compare_lt_iff_lt.mp hxy'
              rw [compare_gt_iff_gt.mpr hy]
            · have hy : y = v := (compare_eq_iff_eq.mp hxy').symm.trans (compare_eq_iff_eq.mp hxv)
              rw [compare_eq_iff_eq.mpr hy]
              have htl : cmpKey xs ys ≠ Ordering.gt := by
                intro hg
                rw [cmpKey_cons, hxy', hg] at hab
                exact hab rfl
              exact ih (by simpa using hlen) htl ha
            · exact absurd hxy' hxy
          · have hy : v < y := by
              rcases hxy' : compare x y with _ | _ | _
              · exact lt_trans (compare_gt_iff_gt.mp hxv) (compare_lt_iff_lt.mp hxy')
              · exact (compare_eq_iff_eq.mp hxy') ▸ compare_gt_iff_gt.mp hxv
              · exact absurd hxy' hxy
            rw [compare_gt_iff_gt.mpr hy]
        | exclude v =>
          simp only [aboveEnd] at ha ⊢
          rcases hxv : compare x v with _ | _ | _ <;> rw [hxv] at ha
          · simp at ha
          · have hxv' : x = v := compare_eq_iff_eq.mp hxv
            rcases hxy' : compare x y with _ | _ | _
            · rw [compare_gt_iff_gt.mpr (hxv' ▸ compare_lt_iff_lt.mp hxy')]
            · rw [compare_eq_iff_eq.mpr ((compare_eq_iff_eq.mp hxy').symm.trans hxv')]
            · exact absurd hxy' hxy
          · have hy : v < y := by
              rcases hxy' : compare x y with _ | _ | _
              · exact lt_trans (compare_gt_iff_gt.mp hxv) (compare_lt_iff_lt.mp hxy')
              · exact (compare_eq_iff_eq.mp hxy') ▸ compare_gt_iff_gt.mp hxv
              · exact absurd hxy' hxy
            rw [compare_gt_iff_gt.mpr hy]

/-! ### The search-tree invariant

`BTreeFile::assert_valid` checks (debug builds) that every node's keys are
sorted and that child keys separate strictly around the parent keys.  The
invariant below is the content of those checks used by the proofs: strict
per-node sortedness, the child-count relation `len(children) =
len(keys) + 1`, uniform key width, and strict separation of each child's
subtree between the neighbouring parent keys. -/

/-- Strict sortedness of a key list under the collator. -/
def sortedKeys : List Key → Bool
  | [] => true
  | [_] => true
  | a :: b :: rest => (cmpKey a b == Ordering.lt) && sortedKeys (b :: rest)

/-- `k` lies strictly above the optional lower separator. -/
def loLt (lo : Option Key) (k : Key) : Prop :=
  ∀ x ∈ lo, cmpKey x k = Ordering.lt

/-- `k` lies strictly below the optional upper separator. -/
def hiGt (hi : Option Key) (k : Key) : Prop :=
  ∀ y ∈ hi, cmpKey k y = Ordering.lt

/-- Boolean form of `loLt ∧ hiGt`. -/
def betwB (lo hi : Option Key) (k : Key) : Bool :=
  (match lo with
   | none => true
   | some x => cmpKey x k == Ordering.lt) &&
  (match hi with
   | none => true
   | some y => cmpKey k y == Ordering.lt)

theorem ordBeq_true (o o' : Ordering) : (o == o') = true ↔ o = o' := by
  cases o <;> cases o' <;> decide

theorem betwB_iff (lo hi : Option Key) (k : Key) :
    betwB lo hi k = true ↔ loLt lo k ∧ hiGt hi k := by
  cases lo <;> cases hi <;>
    simp [betwB, loLt, hiGt, ordBeq_true]

mutual

/-- The search-tree invariant of a subtree whose keys must lie strictly
between the optional separators `lo` and `hi` and all have width `w`. -/
def wfB (w : Nat) (lo hi : Option Key) : BNode → Bool
  | .mk lf ks cs _ =>
    sortedKeys (ks.map NodeKey.value) &&
    (ks.all fun nk => (nk.value.length == w) && betwB lo hi nk.value) &&
    (if lf then cs.isEmpty else (cs.length == ks.length + 1) && wfKids w lo hi ks cs)

/-- The invariant walk over a node's children: child `j` lies strictly
between separators `j − 1` and `j`. -/
def wfKids (w : Nat) (lo hi : Option Key) : List NodeKey → List BNode → Bool
  | _, [] => true
  | [], c :: cs => wfB w lo hi c && wfKids w lo hi [] cs
  | k :: ks, c :: cs => wfB w lo (some k.value) c && wfKids w (some k.value) hi ks cs

end

/-- The invariant of a whole tree. -/
def wfT (w : Nat) (t : BNode) : Bool := wfB w none none t

theorem sortedKeys_cons {x : Key} {rest : List Key}
    (h : sortedKeys (x :: rest) = true) :
    sortedKeys rest = true ∧ ∀ y ∈ rest, cmpKey x y = Ordering.lt := by
  induction rest generalizing x with
  | nil => exact ⟨rfl, by simp⟩
  | cons b rest ih =>
    simp only [sortedKeys, Bool.and_eq_true, ordBeq_true] at h
    obtain ⟨hxb, hrest⟩ := h
    obtain ⟨h1, h2⟩ := ih hrest
    refine ⟨hrest, ?_⟩
    intro y hy
    rcases List.mem_cons.mp hy with rfl | hy
    · exact hxb
    · exact cmpKey_lt_trans hxb (h2 y hy)

theorem sortedKeys_get {l : List Key} (h : sortedKeys l = true) {i j : Nat}
    (hij : i < j) (hj : j < l.length) :
    cmpKey (l.getD i []) (l.getD j []) = Ordering.lt := by
  induction l generalizing i j with
  | nil => simp at hj
  | cons x rest ih =>
    obtain ⟨hrest, hall⟩ := sortedKeys_cons h
    cases i with
    | zero =>
      cases j with
      | zero => omega
      | succ j' =>
        simp only [List.getD_cons_zero, List.getD_cons_succ]
        apply hall
        rw [List.getD_eq_getElem _ _ (by simpa using hj)]
        exact List.getElem_mem _
    | succ i' =>
      cases j with
      | zero => omega
      | succ j' =>
        simp only [List.getD_cons_succ]
        exact ih hrest (by omega) (by simpa using hj)

theorem takeWhile_prefix_prop {α : Type} (p : α → Bool) (l : List α) (d : α)
    {i : Nat} (h : i < (l.takeWhile p).length) : p (l.getD i d) = true := by
  induction l generalizing i with
  | nil => simp at h
  | cons c rest ih =>
    by_cases hc : p c
    · rw [List.takeWhile_cons_of_pos hc] at h
      cases i with
      | zero => simpa using hc
      | succ i' => simpa using ih (by simpa using h)
    · rw [List.takeWhile_cons_of_neg hc] at h
      simp at h

theorem takeWhile_len_le {α : Type} (p : α → Bool) (l : List α) :
    (l.takeWhile p).length ≤ l.length := by
  induction l with
  | nil => simp
  | cons c rest ih =>
    by_cases hc : p c
    · rw [List.takeWhile_cons_of_pos hc]
      simpa using ih
    · rw [List.takeWhile_cons_of_neg hc]
      simp

theorem bisect_left_le (bs : List Bound) (vals : List Key) :
    bisect_left_range bs vals ≤ vals.length :=
  takeWhile_len_le _ vals

theorem bisect_right_le (bs : List Bound) (vals : List Key) :
    bisect_right_range bs vals ≤ vals.length :=
  takeWhile_len_le _ vals

theorem window_below {bs : List Bound} {vals : List Key} {i : Nat}
    (h : i < bisect_left_range bs vals) :
    belowStart bs (vals.getD i []) = true :=
  takeWhile_prefix_prop _ vals [] h

theorem window_not_above {bs : List Bound} {vals : List Key} {i : Nat}
    (h : i < bisect_right_range bs vals) :
    aboveEnd bs (vals.getD i []) = false := by
  have := takeWhile_prefix_prop (fun k => !aboveEnd bs k) vals [] h
  simpa using this

theorem window_not_below {w : Nat} {bs : List Bound} {vals : List Key}
    (hsort : sortedKeys vals = true) (hw : ∀ v ∈ vals, v.length = w) {i : Nat}
    (hl : bisect_left_range bs vals ≤ i) (hi : i < vals.length) :
    belowStart bs (vals.getD i []) = false := by
  have hlb : bisect_left_range bs vals < vals.length := lt_of_le_of_lt hl hi
  have hbd : belowStart bs (vals.getD (bisect_left_range bs vals) []) = false :=
    takeWhile_boundary _ vals [] hlb
  rcases Nat.eq_or_lt_of_le hl with heq | hlt
  · rw [← heq]; exact hbd
  · by_contra hcon
    rw [Bool.not_eq_false] at hcon
    have hmem : ∀ j, j < vals.length → (vals.getD j []).length = w := by
      intro j hj
      apply hw
      rw [List.getD_eq_getElem _ _ hj]
      exact List.getElem_mem _
    have h1 := belowStart_mono bs
      ((hmem _ hlb).trans (hmem _ hi).symm)
      (by rw [sortedKeys_get hsort hlt hi]; simp) hcon
    rw [hbd] at h1
    exact absurd h1 (by simp)

theorem window_above {w : Nat} {bs : List Bound} {vals : List Key}
    (hsort : sortedKeys vals = true) (hw : ∀ v ∈ vals, v.length = w) {i : Nat}
    (hr : bisect_right_range bs vals ≤ i) (hi : i < vals.length) :
    aboveEnd bs (vals.getD i []) = true := by
  have hrb : bisect_right_range bs vals < vals.length := lt_of_le_of_lt hr hi
  have hbd : aboveEnd bs (vals.getD (bisect_right_range bs vals) []) = true := by
    have := takeWhile_boundary (fun k => !aboveEnd bs k) vals [] hrb
    simpa using this
  rcases Nat.eq_or_lt_of_le hr with heq | hlt
  · rw [← heq]; exact hbd
  · have hmem : ∀ j, j < vals.length → (vals.getD j []).length = w := by
      intro j hj
      apply hw
      rw [List.getD_eq_getElem _ _ hj]
      exact List.getElem_mem _
    exact aboveEnd_mono bs
      ((hmem _ hrb).trans (hmem _ hi).symm)
      (by rw [sortedKeys_get hsort hlt hi]; simp) hbd

theorem wfKids_inorder_betw {w : Nat} {hi : Option Key} (lo : Option Key) :
    ∀ (cs : List BNode) (ks : List NodeKey) (lo' : Option Key),
    (∀ c ∈ cs, ∀ lo₁ hi₁, wfB w lo₁ hi₁ c = true →
      ∀ nk ∈ inorder c, nk.value.length = w ∧ loLt lo₁ nk.value ∧ hiGt hi₁ nk.value) →
    wfKids w lo' hi ks cs = true →
    (∀ k ∈ ks, k.value.length = w ∧ loLt lo k.value ∧ hiGt hi k.value) →
    (lo' = lo ∨ ∃ s, lo' = some s ∧ loLt lo s) →
    ∀ nk ∈ inorderKids ks cs,
      nk.value.length = w ∧ loLt lo nk.value ∧ hiGt hi nk.value := by
  intro cs
  induction cs with
  | nil =>
    intro ks lo' _ _ hks _ nk hnk
    rw [inorderKids] at hnk
    exact hks nk hnk
  | cons c cs ih =>
    intro ks lo' hsub hwalk hks hlo nk hnk
    have hlift : ∀ lo₁ hi₁, wfB w lo₁ hi₁ c = true →
        (lo₁ = lo ∨ ∃ s, lo₁ = some s ∧ loLt lo s) →
        (hi₁ = hi ∨ ∃ s, hi₁ = some s ∧ hiGt hi s) →
        ∀ x ∈ inorder c, x.value.length = w ∧ loLt lo x.value ∧ hiGt hi x.value := by
      intro lo₁ hi₁ hwf hlo₁ hhi₁ x hx
      obtain ⟨hwid, hl, hh⟩ := hsub c (List.mem_cons_self _ _) lo₁ hi₁ hwf x hx
      refine ⟨hwid, ?_, ?_⟩
      · rcases hlo₁ with rfl | ⟨s, rfl, hs⟩
        · exact hl
        · intro y hy
          exact cmpKey_lt_trans (hs y hy) (hl s rfl)
      · rcases hhi₁ with rfl | ⟨s, rfl, hs⟩
        · exact hh
        · intro y hy
          exact cmpKey_lt_trans (hh s rfl) (hs y hy)
    cases ks with
    | nil =>
      rw [inorderKids] at hnk
      rw [wfKids, Bool.and_eq_true] at hwalk
      rcases List.mem_append.mp hnk with hx | hx
      · exact hlift lo' hi hwalk.1 hlo (Or.inl rfl) nk hx
      · exact ih [] lo' (fun c' hc' => hsub c' (List.mem_cons_of_mem _ hc'))
          hwalk.2 (by simp) hlo nk hx
    | cons k ks =>
      rw [inorderKids] at hnk
      rw [wfKids, Bool.and_eq_true] at hwalk
      have hk := hks k (List.mem_cons_self _ _)
      rcases List.mem_append.mp hnk with hx | hx
      · exact hlift lo' (some k.value) hwalk.1 hlo
          (Or.inr ⟨k.value, rfl, hk.2.2⟩) nk hx
      · rcases List.mem_cons.mp hx with rfl | hx
        · exact hk
        · exact ih ks (some k.value) (fun c' hc' => hsub c' (List.mem_cons_of_mem _ hc'))
            hwalk.2 (fun k' hk' => hks k' (List.mem_cons_of_mem _ hk'))
            (Or.inr ⟨k.value, rfl, hk.2.1⟩) nk hx

theorem wf_inorder_betw {w : Nat} (t : BNode) :
    ∀ lo hi, wfB w lo hi t = true →
    ∀ nk ∈ inorder t, nk.value.length = w ∧ loLt lo nk.value ∧ hiGt hi nk.value := by
  induction t using BNode.strongInd with
  | _ lf ks cs rb ih =>
    intro lo hi hwf nk hnk
    rw [wfB, Bool.and_eq_true, Bool.and_eq_true] at hwf
    obtain ⟨⟨hsort, hall⟩, hsh⟩ := hwf
    have hks : ∀ k ∈ ks, k.value.length = w ∧ loLt lo k.value ∧ hiGt hi k.value := by
      intro k hk
      have := (List.all_eq_true.mp hall) k hk
      rw [Bool.and_eq_true, beq_iff_eq] at this
      exact ⟨this.1, (betwB_iff lo hi k.value).mp this.2⟩
    rw [inorder] at hnk
    cases lf with
    | true =>
      simp only [if_true] at hnk
      exact hks nk hnk
    | false =>
      simp only [Bool.false_eq_true, if_false] at hnk
      rw [if_neg (by simp), Bool.and_eq_true] at hsh
      exact wfKids_inorder_betw lo cs ks lo
        (fun c hc lo₁ hi₁ hwf₁ => ih c hc lo₁ hi₁ hwf₁)
        hsh.2 hks (Or.inl rfl) nk hnk

/-! ### Positional facts about the child walks -/

theorem delKids_length (rg : BTreeRange) (a b : Nat) :
    ∀ (j0 : Nat) (cs : List BNode), (delKids rg a b j0 cs).length = cs.length := by
  intro j0 cs
  induction cs generalizing j0 with
  | nil => rfl
  | cons c rest ih => simp [delKids, ih]

theorem delKids_getElem (rg : BTreeRange) (a b : Nat) :
    ∀ (j0 : Nat) (cs : List BNode) (i : Nat) (h : i < cs.length),
    (delKids rg a b j0 cs).getD i (BNode.new true) =
      if a ≤ j0 + i ∧ j0 + i ≤ b then delA rg (cs.getD i (BNode.new true))
      else cs.getD i (BNode.new true) := by
  intro j0 cs
  induction cs generalizing j0 with
  | nil => intro i h; simp at h
  | cons c rest ih =>
    intro i h
    cases i with
    | zero => simp [delKids]
    | succ i' =>
      rw [delKids]
      simp only [List.getD_cons_succ]
      rw [ih (j0 + 1) i' (by simpa using h)]
      have : j0 + 1 + i' = j0 + (i' + 1) := by omega
      rw [this]

theorem updKids_length (rg : BTreeRange) (v : Key) (a b : Nat) :
    ∀ (j0 : Nat) (cs : List BNode), (updKids rg v a b j0 cs).length = cs.length := by
  intro j0 cs
  induction cs generalizing j0 with
  | nil => rfl
  | cons c rest ih => simp [updKids, ih]

theorem updKids_getElem (rg : BTreeRange) (v : Key) (a b : Nat) :
    ∀ (j0 : Nat) (cs : List BNode) (i : Nat) (h : i < cs.length),
    (updKids rg v a b j0 cs).getD i (BNode.new true) =
      if a ≤ j0 + i ∧ j0 + i ≤ b then updA rg v (cs.getD i (BNode.new true))
      else cs.getD i (BNode.new true) := by
  intro j0 cs
  induction cs generalizing j0 with
  | nil => intro i h; simp at h
  | cons c rest ih =>
    intro i h
    cases i with
    | zero => simp [updKids]
    | succ i' =>
      rw [updKids]
      simp only [List.getD_cons_succ]
      rw [ih (j0 + 1) i' (by simpa using h)]
      have : j0 + 1 + i' = j0 + (i' + 1) := by omega
      rw [this]

/-- Congruence for the in-order walk: transforming each key slot with `f`
and each child's in-order content with `map f` transforms the whole
in-order content with `map f`. -/
theorem inorderKids_map (f : NodeKey → NodeKey) :
    ∀ (ks ks' : List NodeKey) (cs cs' : List BNode),
    ks' = ks.map f →
    cs'.length = cs.length →
    (∀ i, i < cs.length →
      inorder (cs'.getD i (BNode.new true)) =
        (inorder (cs.getD i (BNode.new true))).map f) →
    inorderKids ks' cs' = (inorderKids ks cs).map f := by
  intro ks ks' cs cs'
  induction cs generalizing ks ks' cs' with
  | nil =>
    intro hks hlen _
    have : cs' = [] := List.length_eq_zero.mp hlen
    subst this
    subst hks
    cases ks <;> rfl
  | cons c rest ih =>
    intro hks hlen hkid
    cases cs' with
    | nil => simp at hlen
    | cons c' rest' =>
      have hc' : inorder c' = (inorder c).map f := by
        have := hkid 0 (by simp)
        simpa using this
      have hrest : ∀ i, i < rest.length →
          inorder (rest'.getD i (BNode.new true)) =
            (inorder (rest.getD i (BNode.new true))).map f := by
        intro i hi
        have := hkid (i + 1) (by simpa using hi)
        simpa using this
      cases ks with
      | nil =>
        subst hks
        simp only [List.map_nil]
        rw [inorderKids, inorderKids, hc',
          ih [] [] rest' rfl (by simpa using hlen) hrest, List.map_append]
      | cons k ks =>
        subst hks
        simp only [List.map_cons]
        rw [inorderKids, inorderKids, hc',
          ih ks (ks.map f) rest' rfl (by simpa using hlen) hrest]
        simp [List.map_append]

theorem wfKids_get {w : Nat} {hi : Option Key} :
    ∀ (cs : List BNode) (ks : List NodeKey) (lo' : Option Key),
    wfKids w lo' hi ks cs = true →
    cs.length = ks.length + 1 →
    ∀ j, j < cs.length →
    wfB w (if j = 0 then lo' else some ((ks.getD (j - 1) (NodeKey.ofKey [])).value))
      (if j < ks.length then some ((ks.getD j (NodeKey.ofKey [])).value) else hi)
      (cs.getD j (BNode.new true)) = true := by
  intro cs
  induction cs with
  | nil => intro ks lo' _ _ j hj; simp at hj
  | cons c rest ih =>
    intro ks lo' hwalk hlen j hj
    cases ks with
    | nil =>
      have hr : rest = [] := by
        apply List.length_eq_zero.mp
        simp only [List.length_cons, List.length_nil] at hlen
        omega
      subst hr
      have hj0 : j = 0 := by
        simp only [List.length_cons, List.length_nil] at hj
        omega
      subst hj0
      rw [wfKids, Bool.and_eq_true] at hwalk
      simpa using hwalk.1
    | cons k ks' =>
      rw [wfKids, Bool.and_eq_true] at hwalk
      cases j with
      | zero =>
        simp only [if_pos rfl, List.getD_cons_zero]
        have : (0 : Nat) < (k :: ks').length := by simp
        rw [if_pos this]
        simpa using hwalk.1
      | succ j' =>
        have hres := ih ks' (some k.value) hwalk.2 (by simpa using hlen) j'
          (by simpa using hj)
        have e1 : (if j' = 0 then some k.value
            else some ((ks'.getD (j' - 1) (NodeKey.ofKey [])).value)) =
            some (((k :: ks').getD j' (NodeKey.ofKey [])).value) := by
          cases j' with
          | zero => simp
          | succ j'' => simp
        have e2 : (if j' < ks'.length then some ((ks'.getD j' (NodeKey.ofKey [])).value)
            else hi) =
            (if j' + 1 < (k :: ks').length
            then some (((k :: ks').getD (j' + 1) (NodeKey.ofKey [])).value) else hi) := by
          by_cases h : j' < ks'.length
          · rw [if_pos h, if_pos (by simpa using h)]
            simp
          · rw [if_neg h, if_neg (by simpa using h)]
        rw [e1, e2] at hres
        simp only [List.getD_cons_succ] at hres
        simp only [List.getD_cons_succ, Nat.add_sub_cancel,
          if_neg (show ¬(j' + 1 = 0) by omega)]
        exact hres

theorem containsKey_false_below {rg : BTreeRange} {v : Key}
    (h : belowStart rg.start v = true) : containsKey rg v = false := by
  simp [containsKey, h]

theorem containsKey_false_above {rg : BTreeRange} {v : Key}
    (h : aboveEnd rg.stop v = true) : containsKey rg v = false := by
  simp [containsKey, h]

theorem containsKey_true_iff (rg : BTreeRange) (v : Key) :
    containsKey rg v = true ↔
      belowStart rg.start v = false ∧ aboveEnd rg.stop v = false := by
  simp [containsKey]

theorem map_id_of {α : Type} (f : α → α) (l : List α) (h : ∀ x ∈ l, f x = x) :
    l.map f = l := by
  induction l with
  | nil => rfl
  | cons x rest ih =>
    rw [List.map_cons, h x (List.mem_cons_self _ _),
      ih fun y hy => h y (List.mem_cons_of_mem _ hy)]

theorem getD_mem {α : Type} {l : List α} {i : Nat} (d : α) (h : i < l.length) :
    l.getD i d ∈ l := by
  rw [List.getD_eq_getElem _ _ h]
  exact List.getElem_mem _

theorem vals_getD (ks : List NodeKey) (i : Nat) :
    (ks.map NodeKey.value).getD i [] = (ks.getD i (NodeKey.ofKey [])).value := by
  have := List.getD_map ks (NodeKey.ofKey []) (n := i) NodeKey.value
  simpa [NodeKey.ofKey] using this

theorem inorder_out_below {w : Nat} (rg : BTreeRange) {c : BNode} {lo : Option Key}
    {s : Key} (hwf : wfB w lo (some s) c = true) (hsw : s.length = w)
    (hs : belowStart rg.start s = true) :
    ∀ nk ∈ inorder c, containsKey rg nk.value = false := by
  intro nk hnk
  obtain ⟨hwid, _, hhi⟩ := wf_inorder_betw c lo (some s) hwf nk hnk
  have hlt := hhi s rfl
  apply containsKey_false_below
  exact belowStart_mono _ (hwid.trans hsw.symm) (by rw [hlt]; simp) hs

theorem inorder_out_above {w : Nat} (rg : BTreeRange) {c : BNode} {hi : Option Key}
    {s : Key} (hwf : wfB w (some s) hi c = true) (hsw : s.length = w)
    (hs : aboveEnd rg.stop s = true) :
    ∀ nk ∈ inorder c, containsKey rg nk.value = false := by
  intro nk hnk
  obtain ⟨hwid, hlo, _⟩ := wf_inorder_betw c (some s) hi hwf nk hnk
  have hlt := hlo s rfl
  apply containsKey_false_above
  exact aboveEnd_mono _ (hsw.trans hwid.symm) (by rw [hlt]; simp) hs

/-- The per-node window classification: under the invariant, a key slot's
index lies in the bisect window exactly when its key is inside the
range. -/
theorem window_iff_contains {w : Nat} {rg : BTreeRange} {ks : List NodeKey}
    (hsort : sortedKeys (ks.map NodeKey.value) = true)
    (hwids : ∀ k ∈ ks, k.value.length = w) {i : Nat} (hi : i < ks.length) :
    ((bisect_left_range rg.start (ks.map NodeKey.value) ≤ i ∧
      i < bisect_right_range rg.stop (ks.map NodeKey.value)) ↔
      containsKey rg (ks.getD i (NodeKey.ofKey [])).value = true) := by
  have hvw : ∀ v ∈ ks.map NodeKey.value, v.length = w := by
    intro v hv
    obtain ⟨k, hk, rfl⟩ := List.mem_map.mp hv
    exact hwids k hk
  have hlen : i < (ks.map NodeKey.value).length := by simpa using hi
  constructor
  · rintro ⟨h1, h2⟩
    rw [containsKey_true_iff]
    constructor
    · have := window_not_below (w := w) hsort hvw h1 hlen
      rwa [vals_getD] at this
    · have := window_not_above h2
      rwa [vals_getD] at this
  · intro hc
    rw [containsKey_true_iff] at hc
    constructor
    · by_contra hlt
      have := window_below (Nat.lt_of_not_le hlt)
      rw [vals_getD] at this
      rw [hc.1] at this
      exact absurd this (by simp)
    · by_contra hge
      have := window_above (w := w) hsort hvw (Nat.le_of_not_lt hge) hlen
      rw [vals_getD] at this
      rw [hc.2] at this
      exact absurd this (by simp)

/-- `_delete` tombstones exactly the keys inside the range, everywhere in
a well-formed subtree: the in-order content is mapped slotwise. -/
theorem del_content {w : Nat} (rg : BTreeRange) (t : BNode) :
    ∀ lo hi, wfB w lo hi t = true →
    inorder (delA rg t) =
      (inorder t).map fun nk =>
        if containsKey rg nk.value then ⟨nk.value, true⟩ else nk := by
  induction t using BNode.strongInd with
  | _ lf ks cs rb ih =>
    intro lo hi hwf
    rw [wfB, Bool.and_eq_true, Bool.and_eq_true] at hwf
    obtain ⟨⟨hsort, hall⟩, hsh⟩ := hwf
    have hwids : ∀ k ∈ ks, k.value.length = w := by
      intro k hk
      have := List.all_eq_true.mp hall k hk
      rw [Bool.and_eq_true, beq_iff_eq] at this
      exact this.1
    have hkeymark : ∀ (i : Nat), i < ks.length →
        (if bisect_left_range rg.start (ks.map NodeKey.value) ≤ i ∧
            i < bisect_right_range rg.stop (ks.map NodeKey.value) then
          (⟨(ks.getD i (NodeKey.ofKey [])).value, true⟩ : NodeKey)
        else ks.getD i (NodeKey.ofKey [])) =
        (if containsKey rg (ks.getD i (NodeKey.ofKey [])).value then
          (⟨(ks.getD i (NodeKey.ofKey [])).value, true⟩ : NodeKey)
        else ks.getD i (NodeKey.ofKey [])) := by
      intro i hi
      by_cases hwin : bisect_left_range rg.start (ks.map NodeKey.value) ≤ i ∧
          i < bisect_right_range rg.stop (ks.map NodeKey.value)
      · rw [if_pos hwin, if_pos ((window_iff_contains hsort hwids hi).mp hwin)]
      · rw [if_neg hwin, if_neg (by
          intro hc
          exact hwin ((window_iff_contains hsort hwids hi).mpr hc))]
    have hmarked : (ks.mapIdx fun i nk =>
        if bisect_left_range rg.start (ks.map NodeKey.value) ≤ i ∧
            i < bisect_right_range rg.stop (ks.map NodeKey.value) then
          (⟨nk.value, true⟩ : NodeKey)
        else nk) =
        ks.map fun nk =>
          if containsKey rg nk.value then ⟨nk.value, true⟩ else nk := by
      apply List.ext_getElem
      · simp
      · intro n h1 h2
        rw [List.getElem_mapIdx, List.getElem_map]
        have hn : n < ks.length := by simpa using h2
        have := hkeymark n hn
        rwa [List.getD_eq_getElem _ _ hn] at this
    have hvw : ∀ v ∈ ks.map NodeKey.value, v.length = w := by
      intro v hv
      obtain ⟨k, hk, rfl⟩ := List.mem_map.mp hv
      exact hwids k hk
    have hnowin : ∀ (i : Nat), i < ks.length →
        ¬(bisect_left_range rg.start (ks.map NodeKey.value) ≤ i ∧
          i < bisect_right_range rg.stop (ks.map NodeKey.value)) →
        containsKey rg (ks.getD i (NodeKey.ofKey [])).value = false := by
      intro i hi hwin
      rw [Bool.eq_false_iff]
      intro hc
      exact hwin ((window_iff_contains hsort hwids hi).mpr hc)
    cases lf with
    | true =>
      rw [if_pos rfl] at hsh
      have hcs : cs = [] := by simpa using hsh
      subst hcs
      by_cases hlr : bisect_left_range rg.start (ks.map NodeKey.value) =
          bisect_right_range rg.stop (ks.map NodeKey.value)
      · rw [delA]
        simp only [if_pos rfl, if_pos hlr]
        simp only [inorder, if_pos rfl, if_true]
        symm
        apply map_id_of
        intro x hx
        obtain ⟨i, hi, hxi⟩ := List.getElem_of_mem hx
        have := hnowin i hi (by omega)
        rw [List.getD_eq_getElem _ _ hi, hxi] at this
        simp [this]
      · rw [delA]
        simp only [if_pos rfl, if_neg hlr]
        simp only [inorder, if_pos rfl, if_true]
        exact hmarked
    | false =>
      rw [if_neg (by simp), Bool.and_eq_true] at hsh
      obtain ⟨hclen', hwalk⟩ := hsh
      have hclen : cs.length = ks.length + 1 := by simpa using hclen'
      have hkid : ∀ (a b : Nat),
          (∀ j, j < cs.length → ¬(a ≤ j ∧ j ≤ b) →
            j < bisect_left_range rg.start (ks.map NodeKey.value) ∨
            bisect_right_range rg.stop (ks.map NodeKey.value) < j) →
          ∀ j, j < cs.length →
          inorder ((delKids rg a b 0 cs).getD j (BNode.new true)) =
            (inorder (cs.getD j (BNode.new true))).map
              (fun nk => if containsKey rg nk.value then ⟨nk.value, true⟩ else nk) := by
        intro a b hcase j hj
        rw [delKids_getElem rg a b 0 cs j hj]
        simp only [Nat.zero_add]
        by_cases hproc : a ≤ j ∧ j ≤ b
        · rw [if_pos hproc]
          exact ih _ (getD_mem _ hj) _ _ (wfKids_get cs ks lo hwalk hclen j hj)
        · rw [if_neg hproc]
          symm
          apply map_id_of
          intro x hx
          have hwfj := wfKids_get cs ks lo hwalk hclen j hj
          rcases hcase j hj hproc with hjl | hjr
          · have hjk : j < ks.length :=
              lt_of_lt_of_le hjl (by simpa using bisect_left_le rg.start (ks.map NodeKey.value))
            rw [if_pos hjk] at hwfj
            have hbel : belowStart rg.start ((ks.getD j (NodeKey.ofKey [])).value) = true := by
              have := window_below hjl
              rwa [vals_getD] at this
            have hcf := inorder_out_below rg hwfj (hwids _ (getD_mem _ hjk)) hbel x hx
            simp [hcf]
          · have hj0 : j ≠ 0 := by omega
            have hjk : j - 1 < ks.length := by omega
            rw [if_neg hj0] at hwfj
            have habv : aboveEnd rg.stop ((ks.getD (j - 1) (NodeKey.ofKey [])).value) = true := by
              have := window_above (w := w) hsort hvw
                (show bisect_right_range rg.stop (ks.map NodeKey.value) ≤ j - 1 by omega)
                (by simpa using hjk)
              rwa [vals_getD] at this
            have hcf := inorder_out_above rg hwfj (hwids _ (getD_mem _ hjk)) habv x hx
            simp [hcf]
      by_cases hrl : bisect_right_range rg.stop (ks.map NodeKey.value) >
          bisect_left_range rg.start (ks.map NodeKey.value)
      · rw [delA]
        simp only [if_neg (by simp : ¬(false = true)), if_pos hrl]
        simp only [inorder, if_neg (show ¬(false = true) by simp)]
        exact inorderKids_map _ ks _ cs _ hmarked
          (by rw [delKids_length])
          (hkid _ _ (by intro j hj hn; omega))
      · rw [delA]
        simp only [if_neg (by simp : ¬(false = true)), if_neg hrl]
        simp only [inorder, if_neg (show ¬(false = true) by simp)]
        refine inorderKids_map _ ks _ cs _ ?_ (by rw [delKids_length])
          (hkid _ _ (by intro j hj hn; omega))
        symm
        apply map_id_of
        intro x hx
        obtain ⟨i, hi, hxi⟩ := List.getElem_of_mem hx
        have := hnowin i hi (by omega)
        rw [List.getD_eq_getElem _ _ hi, hxi] at this
        simp [this]

theorem wfKids_congr {w : Nat} {hi : Option Key} :
    ∀ (cs cs' : List BNode) (ks ks' : List NodeKey) (lo' : Option Key),
    ks.map NodeKey.value = ks'.map NodeKey.value →
    cs.length = cs'.length →
    (∀ j, j < cs.length → ∀ lo₁ hi₁,
      wfB w lo₁ hi₁ (cs.getD j (BNode.new true)) = true →
      wfB w lo₁ hi₁ (cs'.getD j (BNode.new true)) = true) →
    wfKids w lo' hi ks cs = true → wfKids w lo' hi ks' cs' = true := by
  intro cs
  induction cs with
  | nil =>
    intro cs' ks ks' lo' hkv hlen _ hwalk
    have : cs' = [] := List.length_eq_zero.mp hlen.symm
    subst this
    cases ks' <;> simp [wfKids]
  | cons c rest ih =>
    intro cs' ks ks' lo' hkv hlen hpt hwalk
    cases cs' with
    | nil => simp at hlen
    | cons c' rest' =>
      have hc' : ∀ lo₁ hi₁, wfB w lo₁ hi₁ c = true → wfB w lo₁ hi₁ c' = true := by
        intro lo₁ hi₁ h
        have := hpt 0 (by simp) lo₁ hi₁
        simpa using this h
      have hrest : ∀ j, j < rest.length → ∀ lo₁ hi₁,
          wfB w lo₁ hi₁ (rest.getD j (BNode.new true)) = true →
          wfB w lo₁ hi₁ (rest'.getD j (BNode.new true)) = true := by
        intro j hj lo₁ hi₁ h
        have := hpt (j + 1) (by simpa using hj) lo₁ hi₁
        simpa using this h
      cases ks with
      | nil =>
        cases ks' with
        | nil =>
          rw [wfKids, Bool.and_eq_true] at hwalk ⊢
          exact ⟨hc' _ _ hwalk.1,
            ih rest' [] [] lo' rfl (by simpa using hlen) hrest hwalk.2⟩
        | cons k' ks'' => simp at hkv
      | cons k ks2 =>
        cases ks' with
        | nil => simp at hkv
        | cons k' ks'' =>
          simp only [List.map_cons, List.cons_eq_cons] at hkv
          rw [wfKids, Bool.and_eq_true] at hwalk ⊢
          rw [← hkv.1]
          exact ⟨hc' _ _ hwalk.1,
            ih rest' ks2 ks'' (some k.value) hkv.2 (by simpa using hlen) hrest hwalk.2⟩

/-- Node-level invariant congruence: a node whose keys carry the same
values (flags may differ) and whose children are pointwise invariant
preserving stays invariant. -/
theorem wfB_congr {w : Nat} {lo hi : Option Key} {lf : Bool}
    {ks ks' : List NodeKey} {cs cs' : List BNode} {rb rb' : Bool}
    (hkv : ks.map NodeKey.value = ks'.map NodeKey.value)
    (hlen : cs.length = cs'.length)
    (hpt : ∀ j, j < cs.length → ∀ lo₁ hi₁,
      wfB w lo₁ hi₁ (cs.getD j (BNode.new true)) = true →
      wfB w lo₁ hi₁ (cs'.getD j (BNode.new true)) = true)
    (hwf : wfB w lo hi (.mk lf ks cs rb) = true) :
    wfB w lo hi (.mk lf ks' cs' rb') = true := by
  rw [wfB, Bool.and_eq_true, Bool.and_eq_true] at hwf ⊢
  obtain ⟨⟨hsort, hall⟩, hsh⟩ := hwf
  have hklen : ks.length = ks'.length := by
    have := congrArg List.length hkv
    simpa using this
  refine ⟨⟨by rw [← hkv]; exact hsort, ?_⟩, ?_⟩
  · rw [List.all_eq_true] at hall ⊢
    intro nk hnk
    obtain ⟨i, hi, hxi⟩ := List.getElem_of_mem hnk
    have hv : (ks'.getD i (NodeKey.ofKey [])).value =
        (ks.getD i (NodeKey.ofKey [])).value := by
      rw [← vals_getD, ← vals_getD, hkv]
    have hmem : ks.getD i (NodeKey.ofKey []) ∈ ks := getD_mem _ (by omega)
    have := hall _ hmem
    rw [Bool.and_eq_true] at this ⊢
    rw [← hxi, ← List.getD_eq_getElem _ (NodeKey.ofKey []) hi, hv]
    exact this
  · cases lf with
    | true =>
      rw [if_pos rfl] at hsh ⊢
      rw [List.isEmpty_iff] at hsh ⊢
      apply List.length_eq_zero.mp
      rw [← hlen]
      exact hsh ▸ rfl
    | false =>
      rw [if_neg (by simp), Bool.and_eq_true] at hsh ⊢
      obtain ⟨hclen, hwalk⟩ := hsh
      refine ⟨by simp only [beq_iff_eq] at hclen ⊢; omega, ?_⟩
      exact wfKids_congr cs cs' ks ks' lo hkv hlen hpt hwalk

/-- `_delete` preserves the search-tree invariant (it only toggles
tombstone flags). -/
theorem del_wf {w : Nat} (rg : BTreeRange) (t : BNode) :
    ∀ lo hi, wfB w lo hi t = true → wfB w lo hi (delA rg t) = true := by
  induction t using BNode.strongInd with
  | _ lf ks cs rb ih =>
    intro lo hi hwf
    have hmarkv : ∀ (a b : Nat), (ks.mapIdx fun i nk =>
        if a ≤ i ∧ i < b then (⟨nk.value, true⟩ : NodeKey) else nk).map NodeKey.value =
        ks.map NodeKey.value := by
      intro a b
      apply List.ext_getElem
      · simp
      · intro n h1 h2
        rw [List.getElem_map, List.getElem_map, List.getElem_mapIdx]
        by_cases hw : a ≤ n ∧ n < b
        · rw [if_pos hw]
        · rw [if_neg hw]
    have hkidpt : ∀ (a b : Nat) (j : Nat), j < cs.length → ∀ lo₁ hi₁,
        wfB w lo₁ hi₁ (cs.getD j (BNode.new true)) = true →
        wfB w lo₁ hi₁ ((delKids rg a b 0 cs).getD j (BNode.new true)) = true := by
      intro a b j hj lo₁ hi₁ h
      rw [delKids_getElem rg a b 0 cs j hj]
      simp only [Nat.zero_add]
      by_cases hproc : a ≤ j ∧ j ≤ b
      · rw [if_pos hproc]
        exact ih _ (getD_mem _ hj) _ _ h
      · rw [if_neg hproc]
        exact h
    cases lf with
    | true =>
      by_cases hlr : bisect_left_range rg.start (ks.map NodeKey.value) =
          bisect_right_range rg.stop (ks.map NodeKey.value)
      · rw [delA]
        simp only [if_pos rfl, if_pos hlr]
        exact hwf
      · rw [delA]
        simp only [if_pos rfl, if_neg hlr]
        exact wfB_congr (hmarkv _ _).symm rfl (fun j hj lo₁ hi₁ h => h) hwf
    | false =>
      by_cases hrl : bisect_right_range rg.stop (ks.map NodeKey.value) >
          bisect_left_range rg.start (ks.map NodeKey.value)
      · rw [delA]
        simp only [if_neg (show ¬(false = true) by simp), if_pos hrl]
        exact wfB_congr (hmarkv _ _).symm (by rw [delKids_length]) (hkidpt _ _) hwf
      · rw [delA]
        simp only [if_neg (show ¬(false = true) by simp), if_neg hrl]
        exact wfB_congr rfl (by rw [delKids_length]) (hkidpt _ _) hwf

/-- `_update` overwrites exactly the key slots inside the range with the
given values (clearing their tombstones), everywhere in a well-formed
subtree: the in-order content is mapped slotwise. -/
theorem upd_content {w : Nat} (rg : BTreeRange) (v : Key) (t : BNode) :
    ∀ lo hi, wfB w lo hi t = true →
    inorder (updA rg v t) =
      (inorder t).map fun nk =>
        if containsKey rg nk.value then NodeKey.ofKey v else nk := by
  induction t using BNode.strongInd with
  | _ lf ks cs rb ih =>
    intro lo hi hwf
    rw [wfB, Bool.and_eq_true, Bool.and_eq_true] at hwf
    obtain ⟨⟨hsort, hall⟩, hsh⟩ := hwf
    have hwids : ∀ k ∈ ks, k.value.length = w := by
      intro k hk
      have := List.all_eq_true.mp hall k hk
      rw [Bool.and_eq_true, beq_iff_eq] at this
      exact this.1
    have hkeymark : ∀ (i : Nat), i < ks.length →
        (if bisect_left_range rg.start (ks.map NodeKey.value) ≤ i ∧
            i < bisect_right_range rg.stop (ks.map NodeKey.value) then
          NodeKey.ofKey v
        else ks.getD i (NodeKey.ofKey [])) =
        (if containsKey rg (ks.getD i (NodeKey.ofKey [])).value then
          NodeKey.ofKey v
        else ks.getD i (NodeKey.ofKey [])) := by
      intro i hi
      by_cases hwin : bisect_left_range rg.start (ks.map NodeKey.value) ≤ i ∧
          i < bisect_right_range rg.stop (ks.map NodeKey.value)
      · rw [if_pos hwin, if_pos ((window_iff_contains hsort hwids hi).mp hwin)]
      · rw [if_neg hwin, if_neg (by
          intro hc
          exact hwin ((window_iff_contains hsort hwids hi).mpr hc))]
    have hmarked : (ks.mapIdx fun i nk =>
        if bisect_left_range rg.start (ks.map NodeKey.value) ≤ i ∧
            i < bisect_right_range rg.stop (ks.map NodeKey.value) then
          NodeKey.ofKey v
        else nk) =
        ks.map fun nk =>
          if containsKey rg nk.value then NodeKey.ofKey v else nk := by
      apply List.ext_getElem
      · simp
      · intro n h1 h2
        rw [List.getElem_mapIdx, List.getElem_map]
        have hn : n < ks.length := by simpa using h2
        have := hkeymark n hn
        rwa [List.getD_eq_getElem _ _ hn] at this
    have hvw : ∀ v ∈ ks.map NodeKey.value, v.length = w := by
      intro v hv
      obtain ⟨k, hk, rfl⟩ := List.mem_map.mp hv
      exact hwids k hk
    have hnowin : ∀ (i : Nat), i < ks.length →
        ¬(bisect_left_range rg.start (ks.map NodeKey.value) ≤ i ∧
          i < bisect_right_range rg.stop (ks.map NodeKey.value)) →
        containsKey rg (ks.getD i (NodeKey.ofKey [])).value = false := by
      intro i hi hwin
      rw [Bool.eq_false_iff]
      intro hc
      exact hwin ((window_iff_contains hsort hwids hi).mpr hc)
    cases lf with
    | true =>
      rw [if_pos rfl] at hsh
      have hcs : cs = [] := by simpa using hsh
      subst hcs
      by_cases hlr : bisect_left_range rg.start (ks.map NodeKey.value) =
          bisect_right_range rg.stop (ks.map NodeKey.value)
      · rw [updA]
        simp only [if_pos rfl, if_pos hlr]
        simp only [inorder, if_pos rfl, if_true]
        symm
        apply map_id_of
        intro x hx
        obtain ⟨i, hi, hxi⟩ := List.getElem_of_mem hx
        have := hnowin i hi (by omega)
        rw [List.getD_eq_getElem _ _ hi, hxi] at this
        simp [this]
      · rw [updA]
        simp only [if_pos rfl, if_neg hlr]
        simp only [inorder, if_pos rfl, if_true]
        exact hmarked
    | false =>
      rw [if_neg (by simp), Bool.and_eq_true] at hsh
      obtain ⟨hclen', hwalk⟩ := hsh
      have hclen : cs.length = ks.length + 1 := by simpa using hclen'
      have hkid : ∀ (a b : Nat),
          (∀ j, j < cs.length → ¬(a ≤ j ∧ j ≤ b) →
            j < bisect_left_range rg.start (ks.map NodeKey.value) ∨
            bisect_right_range rg.stop (ks.map NodeKey.value) < j) →
          ∀ j, j < cs.length →
          inorder ((updKids rg v a b 0 cs).getD j (BNode.new true)) =
            (inorder (cs.getD j (BNode.new true))).map
              (fun nk => if containsKey rg nk.value then NodeKey.ofKey v else nk) := by
        intro a b hcase j hj
        rw [updKids_getElem rg v a b 0 cs j hj]
        simp only [Nat.zero_add]
        by_cases hproc : a ≤ j ∧ j ≤ b
        · rw [if_pos hproc]
          exact ih _ (getD_mem _ hj) _ _ (wfKids_get cs ks lo hwalk hclen j hj)
        · rw [if_neg hproc]
          symm
          apply map_id_of
          intro x hx
          have hwfj := wfKids_get cs ks lo hwalk hclen j hj
          rcases hcase j hj hproc with hjl | hjr
          · have hjk : j < ks.length :=
              lt_of_lt_of_le hjl (by simpa using bisect_left_le rg.start (ks.map NodeKey.value))
            rw [if_pos hjk] at hwfj
            have hbel : belowStart rg.start ((ks.getD j (NodeKey.ofKey [])).value) = true := by
              have := window_below hjl
              rwa [vals_getD] at this
            have hcf := inorder_out_below rg hwfj (hwids _ (getD_mem _ hjk)) hbel x hx
            simp [hcf]
          · have hj0 : j ≠ 0 := by omega
            have hjk : j - 1 < ks.length := by omega
            rw [if_neg hj0] at hwfj
            have habv : aboveEnd rg.stop ((ks.getD (j - 1) (NodeKey.ofKey [])).value) = true := by
              have := window_above (w := w) hsort hvw
                (show bisect_right_range rg.stop (ks.map NodeKey.value) ≤ j - 1 by omega)
                (by simpa using hjk)
              rwa [vals_getD] at this
            have hcf := inorder_out_above rg hwfj (hwids _ (getD_mem _ hjk)) habv x hx
            simp [hcf]
      by_cases hrl : bisect_right_range rg.stop (ks.map NodeKey.value) >
          bisect_left_range rg.start (ks.map NodeKey.value)
      · rw [updA]
        simp only [if_neg (by simp : ¬(false = true)), if_pos hrl]
        simp only [inorder, if_neg (show ¬(false = true) by simp)]
        exact inorderKids_map _ ks _ cs _ hmarked
          (by rw [updKids_length])
          (hkid _ _ (by intro j hj hn; omega))
      · rw [updA]
        simp only [if_neg (by simp : ¬(false = true)), if_neg hrl]
        simp only [inorder, if_neg (show ¬(false = true) by simp)]
        refine inorderKids_map _ ks _ cs _ ?_ (by rw [updKids_length])
          (hkid _ _ (by intro j hj hn; omega))
        symm
        apply map_id_of
        intro x hx
        obtain ⟨i, hi, hxi⟩ := List.getElem_of_mem hx
        have := hnowin i hi (by omega)
        rw [List.getD_eq_getElem _ _ hi, hxi] at this
        simp [this]


/-! ### Claim C10: `update` overwrites every slot in range -/

/-- C10: when `update` succeeds on a well-formed tree, every key slot —
in internal nodes as well as leaves — whose old key lay in the range is
overwritten with exactly the given values with its `deleted` flag cleared
(so tombstoned keys in range are resurrected, and several identical keys
can result), while slots outside the range are unchanged. -/
theorem claim_C10 (w : Nat) (rg : BTreeRange) (v : Key) (t : BNode)
    (h : wfT w t = true) :
    inorder (updateBT t rg v) =
      (inorder t).map fun nk =>
        if containsKey rg nk.value then NodeKey.ofKey v else nk :=
  upd_content rg v t none none h

/-- Witness for C10: updating `[2, 3]` to `[7]` in a tree holding a live
`[1]`, a live `[2]` and a tombstoned `[3]` rewrites the two in-range
slots (resurrecting the tombstone, duplicating `[7]`). -/
theorem claim_C10_witness :
    inorder (updateBT (BNode.mk false [⟨[2], false⟩]
        [BNode.mk true [⟨[1], false⟩] [] false,
         BNode.mk true [⟨[3], true⟩] [] false] false)
      ⟨[Bound.include_ 2], [Bound.include_ 3]⟩ [7]) =
      [⟨[1], false⟩, ⟨[7], false⟩, ⟨[7], false⟩] := by
  rw [claim_C10 1 ⟨[Bound.include_ 2], [Bound.include_ 3]⟩ [7] _ (by decide)]
  decide

/-! ### Height bookkeeping and split lemmas for insertion -/

theorem heightB_pos (t : BNode) : 1 ≤ heightB t := by
  cases t with
  | mk lf ks cs rb => rw [heightB]; omega

theorem heightB_le_maxH {c : BNode} {l : List BNode} (h : c ∈ l) :
    heightB c ≤ maxH l := by
  induction l with
  | nil => simp at h
  | cons x rest ih =>
    rw [maxH]
    rcases List.mem_cons.mp h with rfl | h
    · exact le_max_left _ _
    · exact le_trans (ih h) (le_max_right _ _)

theorem maxH_le {l : List BNode} {n : Nat} (h : ∀ c ∈ l, heightB c ≤ n) :
    maxH l ≤ n := by
  induction l with
  | nil => rw [maxH]; omega
  | cons x rest ih =>
    rw [maxH]
    exact max_le (h x (List.mem_cons_self _ _))
      (ih fun c hc => h c (List.mem_cons_of_mem _ hc))

theorem insertIdx_decomp {α : Type} (i : Nat) (x : α) (l : List α) (h : i ≤ l.length) :
    l.insertIdx i x = l.take i ++ x :: l.drop i := by
  induction i generalizing l with
  | zero => simp
  | succ i' ih =>
    cases l with
    | nil => simp at h
    | cons y rest =>
      rw [List.insertIdx_succ_cons, ih rest (by simpa using h)]
      simp

/-- Every child of a `splitChild` result is an original child or one of
the two halves of the split child, so subtree heights do not grow. -/
theorem splitChild_children_height {m : Nat} {lf : Bool} {ks : List NodeKey}
    {cs : List BNode} {rb : Bool} {i : Nat} (hi : i < cs.length) :
    ∀ c ∈ (splitChild m (.mk lf ks cs rb) i).children, heightB c ≤ maxH cs := by
  intro c hc
  rcases hch : cs.getD i (BNode.new true) with ⟨clf, cks, ccs, crb⟩
  rw [splitChild] at hc
  simp only [hch, BNode.children] at hc
  have hchild : heightB (BNode.mk clf cks ccs crb) ≤ maxH cs := by
    rw [← hch]
    exact heightB_le_maxH (getD_mem _ hi)
  have hle : i + 1 ≤ (cs.set i (BNode.mk clf (List.take (m - 1) cks)
      (if clf = true then ccs else List.take m ccs) crb)).length := by
    rw [List.length_set]
    omega
  have hmem := (List.mem_insertIdx hle).mp hc
  rcases hmem with rfl | hmem
  · -- the new sibling
    rw [heightB]
    rw [heightB] at hchild
    have : maxH (if clf then [] else ccs.drop m) ≤ maxH ccs := by
      by_cases h : clf
      · rw [if_pos h, maxH]; omega
      · rw [if_neg h]
        exact maxH_le fun c' hc' =>
          heightB_le_maxH ((List.drop_sublist _ _).mem hc')
    omega
  · rcases List.mem_or_eq_of_mem_set hmem with hmem | rfl
    · exact heightB_le_maxH hmem
    · -- the left half
      rw [heightB]
      rw [heightB] at hchild
      have : maxH (if clf then ccs else ccs.take m) ≤ maxH ccs := by
        by_cases h : clf
        · rw [if_pos h]
        · rw [if_neg h]
          exact maxH_le fun c' hc' =>
            heightB_le_maxH ((List.take_sublist _ _).mem hc')
      omega

theorem ordBeq_false (o o' : Ordering) : (o == o') = false ↔ ¬(o = o') := by
  cases o <;> cases o' <;> decide

theorem sortedKeys_iff_pairwise (l : List Key) :
    sortedKeys l = true ↔ List.Pairwise (fun a b => cmpKey a b = Ordering.lt) l := by
  constructor
  · intro h
    induction l with
    | nil => exact List.Pairwise.nil
    | cons x rest ih =>
      obtain ⟨hrest, hall⟩ := sortedKeys_cons h
      exact List.Pairwise.cons hall (ih hrest)
  · intro h
    induction l with
    | nil => rfl
    | cons x rest ih =>
      rcases h with _ | ⟨hall, hrest⟩
      cases rest with
      | nil => rfl
      | cons y rest' =>
        rw [sortedKeys, Bool.and_eq_true, ordBeq_true]
        exact ⟨hall y (List.mem_cons_self _ _), ih hrest⟩

/-- The slot-wise effect of a hit in `_insert`: the slot holding `k` is
made live, all other slots are unchanged. -/
def markLive (k : Key) (l : List NodeKey) : List NodeKey :=
  l.map fun nk => if nk.value = k then ⟨k, false⟩ else nk

/-- The slot-wise effect of a miss in `_insert`: a live slot for `k` is
placed at its collator position. -/
def insKeyIn (k : Key) : List NodeKey → List NodeKey
  | [] => [⟨k, false⟩]
  | nk :: rest =>
    if cmpKey nk.value k = Ordering.lt then nk :: insKeyIn k rest
    else ⟨k, false⟩ :: nk :: rest

theorem insKeyIn_eq_insertIdx (k : Key) (l : List NodeKey) :
    insKeyIn k l = l.insertIdx (bisect_left (l.map NodeKey.value) k) ⟨k, false⟩ := by
  induction l with
  | nil => rfl
  | cons nk rest ih =>
    rw [insKeyIn]
    by_cases h : cmpKey nk.value k = Ordering.lt
    · rw [if_pos h]
      have : bisect_left ((nk :: rest).map NodeKey.value) k =
          bisect_left (rest.map NodeKey.value) k + 1 := by
        simp only [bisect_left, List.map_cons]
        rw [List.takeWhile_cons_of_pos (p := fun j => cmpKey j k == Ordering.lt)
          (show (cmpKey nk.value k == Ordering.lt) = true by
            rw [ordBeq_true]; exact h)]
        simp
      rw [this, List.insertIdx_succ_cons, ih]
    · rw [if_neg h]
      have : bisect_left ((nk :: rest).map NodeKey.value) k = 0 := by
        simp only [bisect_left, List.map_cons]
        rw [List.takeWhile_cons_of_neg (p := fun j => cmpKey j k == Ordering.lt)
          (show ¬(cmpKey nk.value k == Ordering.lt) = true by
            rw [ordBeq_true]; exact h)]
        rfl
      rw [this, List.insertIdx_zero]

theorem bisect_left_lt {vals : List Key} {k : Key} {j : Nat}
    (h : j < bisect_left vals k) : cmpKey (vals.getD j []) k = Ordering.lt := by
  have := takeWhile_prefix_prop (fun j => cmpKey j k == Ordering.lt) vals [] h
  simpa [ordBeq_true] using this

theorem bisect_left_boundary {vals : List Key} {k : Key}
    (h : bisect_left vals k < vals.length) :
    ¬cmpKey (vals.getD (bisect_left vals k) []) k = Ordering.lt := by
  simp only [bisect_left] at h
  have := takeWhile_boundary (fun j => cmpKey j k == Ordering.lt) vals [] h
  simp only [bisect_left]
  rw [ordBeq_false] at this
  exact this

theorem bisect_left_len_le (vals : List Key) (k : Key) :
    bisect_left vals k ≤ vals.length :=
  takeWhile_len_le _ vals

theorem wfB_shape {w : Nat} {lo hi : Option Key} {clf : Bool} {cks : List NodeKey}
    {ccs : List BNode} {crb : Bool}
    (h : wfB w lo hi (.mk clf cks ccs crb) = true) :
    if clf then ccs = [] else ccs.length = cks.length + 1 := by
  rw [wfB, Bool.and_eq_true] at h
  obtain ⟨_, hsh⟩ := h
  cases clf with
  | true =>
    rw [if_pos rfl] at hsh ⊢
    simpa using hsh
  | false =>
    rw [if_neg (by simp)] at hsh ⊢
    rw [Bool.and_eq_true] at hsh
    simpa using hsh.1

theorem wfB_sorted {w : Nat} {lo hi : Option Key} {lf : Bool} {ks : List NodeKey}
    {cs : List BNode} {rb : Bool}
    (h : wfB w lo hi (.mk lf ks cs rb) = true) :
    sortedKeys (ks.map NodeKey.value) = true := by
  rw [wfB, Bool.and_eq_true, Bool.and_eq_true] at h
  exact h.1.1

theorem wfB_all {w : Nat} {lo hi : Option Key} {lf : Bool} {ks : List NodeKey}
    {cs : List BNode} {rb : Bool}
    (h : wfB w lo hi (.mk lf ks cs rb) = true) :
    ∀ k ∈ ks, k.value.length = w ∧ loLt lo k.value ∧ hiGt hi k.value := by
  rw [wfB, Bool.and_eq_true, Bool.and_eq_true] at h
  intro k hk
  have := List.all_eq_true.mp h.1.2 k hk
  rw [Bool.and_eq_true, beq_iff_eq] at this
  exact ⟨this.1, (betwB_iff _ _ _).mp this.2⟩

theorem wfB_walk {w : Nat} {lo hi : Option Key} {ks : List NodeKey}
    {cs : List BNode} {rb : Bool}
    (h : wfB w lo hi (.mk false ks cs rb) = true) :
    cs.length = ks.length + 1 ∧ wfKids w lo hi ks cs = true := by
  rw [wfB, Bool.and_eq_true, Bool.and_eq_true] at h
  obtain ⟨_, hsh⟩ := h
  rw [if_neg (by simp), Bool.and_eq_true] at hsh
  exact ⟨by simpa using hsh.1, hsh.2⟩

theorem inorderKids_split {j : Nat} :
    ∀ (ks : List NodeKey) (cs : List BNode),
    cs.length = ks.length + 1 → j < ks.length →
    inorderKids ks cs =
      inorderKids (ks.take j) (cs.take (j + 1)) ++
        (ks.getD j (NodeKey.ofKey [])) ::
          inorderKids (ks.drop (j + 1)) (cs.drop (j + 1)) := by
  induction j with
  | zero =>
    intro ks cs hlen hj
    cases ks with
    | nil => simp at hj
    | cons k ks' =>
      cases cs with
      | nil => simp at hlen
      | cons c cs' =>
        simp only [List.take_zero, List.take_succ_cons, List.take_zero,
          List.drop_succ_cons, List.drop_zero, List.getD_cons_zero]
        rw [inorderKids, inorderKids, inorderKids]
        simp
  | succ j' ih =>
    intro ks cs hlen hj
    cases ks with
    | nil => simp at hj
    | cons k ks' =>
      cases cs with
      | nil => simp at hlen
      | cons c cs' =>
        simp only [List.take_succ_cons, List.drop_succ_cons, List.getD_cons_succ]
        rw [inorderKids, inorderKids,
          ih ks' cs' (by simpa using hlen) (by simpa using hj)]
        simp

theorem splitChild_child_decomp {m : Nat} (hm : 2 ≤ m) {clf : Bool}
    {cks : List NodeKey} {ccs : List BNode} {crb : Bool}
    (hfull : cks.length = 2 * m - 1)
    (hshape : if clf then ccs = [] else ccs.length = cks.length + 1) :
    inorder (BNode.mk clf (cks.take (m - 1)) (if clf then ccs else ccs.take m) crb) ++
      (cks.getD (m - 1) (NodeKey.ofKey [])) ::
        inorder (BNode.mk clf (cks.drop m) (if clf then [] else ccs.drop m) false) =
      inorder (BNode.mk clf cks ccs crb) := by
  have hmlt : m - 1 < cks.length := by omega
  cases clf with
  | true =>
    simp only [if_pos rfl] at hshape ⊢
    subst hshape
    simp only [inorder, if_pos rfl, if_true]
    have hdrop : (cks.getD (m - 1) (NodeKey.ofKey [])) :: cks.drop m =
        cks.drop (m - 1) := by
      rw [List.getD_eq_getElem _ _ hmlt]
      have h2 : List.drop m cks = List.drop ((m - 1) + 1) cks := by
        congr 1
        omega
      rw [h2, List.getElem_cons_drop]
    rw [hdrop, List.take_append_drop]
  | false =>
    simp only [if_neg (show ¬(false = true) by simp)] at hshape
    simp only [inorder, if_neg (show ¬(false = true) by simp)]
    rw [inorderKids_split (j := m - 1) cks ccs hshape hmlt]
    have h1 : m - 1 + 1 = m := by omega
    rw [h1]

theorem inorderKids_set_insert {med : NodeKey} {left sib : BNode} :
    ∀ (i : Nat) (ks : List NodeKey) (cs : List BNode),
    i < cs.length → i ≤ ks.length →
    inorder left ++ med :: inorder sib = inorder (cs.getD i (BNode.new true)) →
    inorderKids (ks.insertIdx i med) ((cs.set i left).insertIdx (i + 1) sib) =
      inorderKids ks cs := by
  intro i
  induction i with
  | zero =>
    intro ks cs hic _ hchild
    cases cs with
    | nil => simp at hic
    | cons c cs' =>
      simp only [List.getD_cons_zero] at hchild
      cases ks with
      | nil =>
        simp only [List.insertIdx_zero, List.set_cons_zero]
        rw [show List.insertIdx 1 sib (left :: cs') = left :: sib :: cs' from rfl]
        rw [inorderKids, inorderKids, inorderKids]
        rw [← hchild]
        simp
      | cons k ks' =>
        simp only [List.insertIdx_zero, List.set_cons_zero]
        rw [show List.insertIdx 1 sib (left :: cs') = left :: sib :: cs' from rfl]
        rw [inorderKids, inorderKids, inorderKids]
        rw [← hchild]
        simp
  | succ i' ih =>
    intro ks cs hic hik hchild
    cases cs with
    | nil => simp at hic
    | cons c cs' =>
      cases ks with
      | nil => simp at hik
      | cons k ks' =>
        simp only [List.getD_cons_succ] at hchild
        rw [List.insertIdx_succ_cons, List.set_cons_succ,
          List.insertIdx_succ_cons]
        rw [inorderKids, inorderKids,
          ih ks' cs' (by simpa using hic) (by simpa using hik) hchild]

/-- `split_child` leaves the in-order content of the parent's subtree
unchanged. -/
theorem inorder_splitChild {w m : Nat} {lo hi : Option Key} (hm : 2 ≤ m)
    {ks : List NodeKey} {cs : List BNode} {rb : Bool} {i : Nat}
    (hwf : wfB w lo hi (.mk false ks cs rb) = true)
    (hi' : i < cs.length)
    (hfull : (cs.getD i (BNode.new true)).keys.length = 2 * m - 1) :
    inorder (splitChild m (.mk false ks cs rb) i) =
      inorder (.mk false ks cs rb) := by
  obtain ⟨hclen, hwalk⟩ := wfB_walk hwf
  rcases hch : cs.getD i (BNode.new true) with ⟨clf, cks, ccs, crb⟩
  have hchwf := wfKids_get cs ks lo hwalk hclen i hi'
  rw [hch] at hchwf
  have hshape := wfB_shape hchwf
  rw [hch, BNode.keys] at hfull
  rw [splitChild]
  simp only [hch]
  have hdec := @splitChild_child_decomp m hm clf cks ccs crb hfull hshape
  rw [inorder, inorder, if_neg (show ¬(false = true) by simp),
    if_neg (show ¬(false = true) by simp)]
  exact inorderKids_set_insert i ks cs hi' (by omega)
    (by rw [hch]; exact hdec)

theorem mem_take_idx {α : Type} {l : List α} {n : Nat} {x : α} (d : α)
    (h : x ∈ l.take n) : ∃ j, j < n ∧ j < l.length ∧ l.getD j d = x := by
  obtain ⟨j, hj, hxj⟩ := List.getElem_of_mem h
  have hjn : j < n := lt_of_lt_of_le hj (by simp [List.length_take])
  have hjl : j < l.length := by
    have := List.length_take_le n l
    have h2 : j < min n l.length := by simpa [List.length_take] using hj
    omega
  refine ⟨j, hjn, hjl, ?_⟩
  rw [List.getD_eq_getElem _ _ hjl]
  rw [List.getElem_take] at hxj
  exact hxj

theorem mem_drop_idx {α : Type} {l : List α} {n : Nat} {x : α} (d : α)
    (h : x ∈ l.drop n) : ∃ j, n ≤ j ∧ j < l.length ∧ l.getD j d = x := by
  obtain ⟨j, hj, hxj⟩ := List.getElem_of_mem h
  have hjl : n + j < l.length := by
    have := hj
    simp only [List.length_drop] at this
    omega
  refine ⟨n + j, by omega, hjl, ?_⟩
  rw [List.getD_eq_getElem _ _ hjl]
  rw [List.getElem_drop] at hxj
  exact hxj

theorem sortedKeys_sublist {l1 l2 : List Key} (hs : l1.Sublist l2)
    (h : sortedKeys l2 = true) : sortedKeys l1 = true := by
  rw [sortedKeys_iff_pairwise] at h ⊢
  exact h.sublist hs

theorem map_insertIdx_comm {α β : Type} (f : α → β) (l : List α) (x : α) (i : Nat)
    (h : i ≤ l.length) :
    (l.insertIdx i x).map f = (l.map f).insertIdx i (f x) := by
  rw [insertIdx_decomp i x l h, insertIdx_decomp i (f x) (l.map f) (by simpa using h)]
  simp [List.map_take, List.map_drop]

theorem sortedKeys_insertIdx {vals : List Key} {mv : Key} {i : Nat}
    (hs : sortedKeys vals = true) (hi : i ≤ vals.length)
    (hlo : ∀ j, j < i → cmpKey (vals.getD j []) mv = Ordering.lt)
    (hhi : ∀ j, i ≤ j → j < vals.length → cmpKey mv (vals.getD j []) = Ordering.lt) :
    sortedKeys (vals.insertIdx i mv) = true := by
  rw [insertIdx_decomp i mv vals hi, sortedKeys_iff_pairwise, List.pairwise_append]
  rw [sortedKeys_iff_pairwise] at hs
  have hcat : List.Pairwise (fun a b => cmpKey a b = Ordering.lt)
      (vals.take i ++ vals.drop i) := by
    rw [List.take_append_drop]; exact hs
  rw [List.pairwise_append] at hcat
  have hsplit := hcat
  refine ⟨hsplit.1, ?_, ?_⟩
  · rw [List.pairwise_cons]
    refine ⟨?_, hsplit.2.1⟩
    intro y hy
    obtain ⟨j, hj1, hj2, hj3⟩ := mem_drop_idx [] hy
    rw [← hj3]
    exact hhi j hj1 hj2
  · intro x hx y hy
    obtain ⟨j, hj1, hj2, hj3⟩ := mem_take_idx [] hx
    rcases List.mem_cons.mp hy with rfl | hy
    · rw [← hj3]
      exact hlo j hj1
    · exact hsplit.2.2 x hx y hy

theorem wfKids_nil_children (w : Nat) (lo hi : Option Key) (ks : List NodeKey) :
    wfKids w lo hi ks [] = true := by
  cases ks <;> rfl

theorem wfKids_take {w : Nat} {hi : Option Key} :
    ∀ (j : Nat) (ks : List NodeKey) (cs : List BNode) (lo : Option Key),
    wfKids w lo hi ks cs = true → j < ks.length →
    wfKids w lo (some ((ks.getD j (NodeKey.ofKey [])).value))
      (ks.take j) (cs.take (j + 1)) = true := by
  intro j
  induction j with
  | zero =>
    intro ks cs lo hwalk hj
    cases ks with
    | nil => simp at hj
    | cons k ks' =>
      cases cs with
      | nil => rfl
      | cons c cs' =>
        rw [wfKids, Bool.and_eq_true] at hwalk
        simp only [List.take_zero, List.take_succ_cons, List.getD_cons_zero]
        rw [wfKids, Bool.and_eq_true]
        exact ⟨hwalk.1, rfl⟩
  | succ j' ih =>
    intro ks cs lo hwalk hj
    cases ks with
    | nil => simp at hj
    | cons k ks' =>
      cases cs with
      | nil => exact wfKids_nil_children _ _ _ _
      | cons c cs' =>
        rw [wfKids, Bool.and_eq_true] at hwalk
        simp only [List.take_succ_cons, List.getD_cons_succ]
        rw [wfKids, Bool.and_eq_true]
        exact ⟨hwalk.1, ih ks' cs' _ hwalk.2 (by simpa using hj)⟩

theorem wfKids_drop {w : Nat} {hi : Option Key} :
    ∀ (j : Nat) (ks : List NodeKey) (cs : List BNode) (lo : Option Key),
    wfKids w lo hi ks cs = true → j < ks.length →
    wfKids w (some ((ks.getD j (NodeKey.ofKey [])).value)) hi
      (ks.drop (j + 1)) (cs.drop (j + 1)) = true := by
  intro j
  induction j with
  | zero =>
    intro ks cs lo hwalk hj
    cases ks with
    | nil => simp at hj
    | cons k ks' =>
      cases cs with
      | nil => exact wfKids_nil_children _ _ _ _
      | cons c cs' =>
        rw [wfKids, Bool.and_eq_true] at hwalk
        simpa using hwalk.2
  | succ j' ih =>
    intro ks cs lo hwalk hj
    cases ks with
    | nil => simp at hj
    | cons k ks' =>
      cases cs with
      | nil => exact wfKids_nil_children _ _ _ _
      | cons c cs' =>
        rw [wfKids, Bool.and_eq_true] at hwalk
        simp only [List.drop_succ_cons, List.getD_cons_succ]
        exact ih ks' cs' _ hwalk.2 (by simpa using hj)

theorem wfKids_split_insert {w : Nat} {hi : Option Key} {med : NodeKey}
    {left sib : BNode} :
    ∀ (i : Nat) (ks : List NodeKey) (cs : List BNode) (lo : Option Key),
    cs.length = ks.length + 1 → i < cs.length →
    wfKids w lo hi ks cs = true →
    wfB w (if i = 0 then lo else some ((ks.getD (i - 1) (NodeKey.ofKey [])).value))
      (some med.value) left = true →
    wfB w (some med.value)
      (if i < ks.length then some ((ks.getD i (NodeKey.ofKey [])).value) else hi)
      sib = true →
    wfKids w lo hi (ks.insertIdx i med) ((cs.set i left).insertIdx (i + 1) sib) =
      true := by
  intro i
  induction i with
  | zero =>
    intro ks cs lo hlen hic hwalk hleft hsib
    cases cs with
    | nil => simp at hic
    | cons c cs' =>
      simp only [List.insertIdx_zero, List.set_cons_zero]
      rw [show List.insertIdx 1 sib (left :: cs') = left :: sib :: cs' from rfl]
      simp only [if_pos rfl] at hleft
      cases ks with
      | nil =>
        have : cs' = [] := by
          apply List.length_eq_zero.mp
          simp only [List.length_cons, List.length_nil] at hlen
          omega
        subst this
        rw [wfKids, Bool.and_eq_true]
        refine ⟨hleft, ?_⟩
        rw [wfKids, Bool.and_eq_true]
        simp only [List.length_nil, Nat.lt_irrefl, if_neg (by omega : ¬(0 < 0))] at hsib
        exact ⟨hsib, rfl⟩
      | cons k ks' =>
        rw [wfKids, Bool.and_eq_true] at hwalk
        rw [wfKids, Bool.and_eq_true]
        refine ⟨hleft, ?_⟩
        rw [wfKids, Bool.and_eq_true]
        simp only [List.length_cons, List.getD_cons_zero,
          if_pos (by omega : 0 < ks'.length + 1)] at hsib
        exact ⟨hsib, hwalk.2⟩
  | succ i' ih =>
    intro ks cs lo hlen hic hwalk hleft hsib
    cases cs with
    | nil => simp at hic
    | cons c cs' =>
      cases ks with
      | nil =>
        simp only [List.length_cons, List.length_nil] at hlen
        have : cs' = [] := List.length_eq_zero.mp (by omega)
        subst this
        simp at hic
      | cons k ks' =>
        rw [List.insertIdx_succ_cons, List.set_cons_succ, List.insertIdx_succ_cons]
        rw [wfKids, Bool.and_eq_true] at hwalk
        rw [wfKids, Bool.and_eq_true]
        refine ⟨hwalk.1, ?_⟩
        have e1 : (if i' + 1 = 0 then lo
            else some (((k :: ks').getD (i' + 1 - 1) (NodeKey.ofKey [])).value)) =
            (if i' = 0 then some k.value
            else some ((ks'.getD (i' - 1) (NodeKey.ofKey [])).value)) := by
          cases i' with
          | zero => simp
          | succ i'' => simp
        have e2 : (if i' + 1 < (k :: ks').length
            then some (((k :: ks').getD (i' + 1) (NodeKey.ofKey [])).value) else hi) =
            (if i' < ks'.length then some ((ks'.getD i' (NodeKey.ofKey [])).value)
            else hi) := by
          by_cases h : i' < ks'.length
          · rw [if_pos h, if_pos (by simpa using h)]
            simp
          · rw [if_neg h, if_neg (by simpa using h)]
        rw [e1] at hleft
        rw [e2] at hsib
        exact ih ks' cs' (some k.value) (by simpa using hlen)
          (by simpa using hic) hwalk.2 hleft hsib

/-- `split_child` preserves the search-tree invariant. -/
theorem wf_splitChild {w m : Nat} {lo hi : Option Key} (hm : 2 ≤ m)
    {ks : List NodeKey} {cs : List BNode} {rb : Bool} {i : Nat}
    (hwf : wfB w lo hi (.mk false ks cs rb) = true)
    (hi' : i < cs.length)
    (hfull : (cs.getD i (BNode.new true)).keys.length = 2 * m - 1) :
    wfB w lo hi (splitChild m (.mk false ks cs rb) i) = true := by
  obtain ⟨hclen, hwalk⟩ := wfB_walk hwf
  have hsort := wfB_sorted hwf
  have hall := wfB_all hwf
  rcases hch : cs.getD i (BNode.new true) with ⟨clf, cks, ccs, crb⟩
  have hchwf := wfKids_get cs ks lo hwalk hclen i hi'
  rw [hch] at hchwf
  have hshape := wfB_shape hchwf
  rw [hch, BNode.keys] at hfull
  have hcsort := wfB_sorted hchwf
  have hcall := wfB_all hchwf
  have hik : i ≤ ks.length := by omega
  have hmlt : m - 1 < cks.length := by omega
  have hmed := hcall (cks.getD (m - 1) (NodeKey.ofKey [])) (getD_mem _ hmlt)
  have hcw : ∀ x ∈ cks, x.value.length = w := fun x hx => (hcall x hx).1
  -- positional order inside the child's keys
  have hcpos : ∀ {a b : Nat}, a < b → b < cks.length →
      cmpKey (cks.getD a (NodeKey.ofKey [])).value
        (cks.getD b (NodeKey.ofKey [])).value = Ordering.lt := by
    intro a b hab hb
    have := sortedKeys_get hcsort (l := cks.map NodeKey.value) hab (by simpa using hb)
    rwa [vals_getD, vals_getD] at this
  -- the left half of the child is well-formed below the median
  have hleft : wfB w
      (if i = 0 then lo else some ((ks.getD (i - 1) (NodeKey.ofKey [])).value))
      (some (cks.getD (m - 1) (NodeKey.ofKey [])).value)
      (BNode.mk clf (cks.take (m - 1))
        (if clf then ccs else ccs.take m) crb) = true := by
    rw [wfB, Bool.and_eq_true, Bool.and_eq_true]
    refine ⟨⟨?_, ?_⟩, ?_⟩
    · rw [List.map_take]
      exact sortedKeys_sublist (List.take_sublist _ _) hcsort
    · rw [List.all_eq_true]
      intro x hx
      obtain ⟨j, hj1, hj2, hj3⟩ := mem_take_idx (NodeKey.ofKey []) hx
      have hxm := hcall x (by rw [← hj3]; exact getD_mem _ hj2)
      rw [Bool.and_eq_true, beq_iff_eq, betwB_iff]
      refine ⟨hxm.1, hxm.2.1, ?_⟩
      intro y hy
      rw [Option.mem_some_iff] at hy
      subst hy
      rw [← hj3]
      exact hcpos (by omega) hmlt
    · cases clf with
      | true =>
        rw [if_pos rfl]
        have : ccs = [] := by simpa using hshape
        subst this
        simp
      | false =>
        rw [if_neg (by simp)]
        have hccl : ccs.length = cks.length + 1 := by simpa using hshape
        obtain ⟨_, hcwalk⟩ := wfB_walk hchwf
        rw [Bool.and_eq_true]
        constructor
        · simp only [if_neg (show ¬(false = true) by simp), List.length_take]
          rw [beq_iff_eq]
          omega
        · simp only [if_neg (show ¬(false = true) by simp)]
          have := wfKids_take (m - 1) cks ccs _ hcwalk hmlt
          rwa [show m - 1 + 1 = m by omega] at this
  -- the sibling is well-formed above the median
  have hsib : wfB w (some (cks.getD (m - 1) (NodeKey.ofKey [])).value)
      (if i < ks.length then some ((ks.getD i (NodeKey.ofKey [])).value) else hi)
      (BNode.mk clf (cks.drop m) (if clf then [] else ccs.drop m) false) = true := by
    rw [wfB, Bool.and_eq_true, Bool.and_eq_true]
    refine ⟨⟨?_, ?_⟩, ?_⟩
    · rw [List.map_drop]
      exact sortedKeys_sublist (List.drop_sublist _ _) hcsort
    · rw [List.all_eq_true]
      intro x hx
      obtain ⟨j, hj1, hj2, hj3⟩ := mem_drop_idx (NodeKey.ofKey []) hx
      have hxm := hcall x (by rw [← hj3]; exact getD_mem _ hj2)
      rw [Bool.and_eq_true, beq_iff_eq, betwB_iff]
      refine ⟨hxm.1, ?_, hxm.2.2⟩
      intro y hy
      rw [Option.mem_some_iff] at hy
      subst hy
      rw [← hj3]
      exact hcpos (by omega) hj2
    · cases clf with
      | true =>
        rw [if_pos rfl]
        simp
      | false =>
        rw [if_neg (by simp)]
        have hccl : ccs.length = cks.length + 1 := by simpa using hshape
        obtain ⟨_, hcwalk⟩ := wfB_walk hchwf
        rw [Bool.and_eq_true]
        constructor
        · simp only [if_neg (show ¬(false = true) by simp), List.length_drop]
          rw [beq_iff_eq]
          omega
        · simp only [if_neg (show ¬(false = true) by simp)]
          have := wfKids_drop (m - 1) cks ccs _ hcwalk hmlt
          rwa [show m - 1 + 1 = m by omega] at this
  rw [splitChild]
  simp only [hch]
  rw [wfB, Bool.and_eq_true, Bool.and_eq_true]
  refine ⟨⟨?_, ?_⟩, ?_⟩
  · -- the parent's keys stay sorted with the median inserted at `i`
    rw [map_insertIdx_comm _ _ _ _ hik]
    apply sortedKeys_insertIdx hsort (by simpa using hik)
    · intro j hj
      rw [vals_getD]
      have hjk : j < ks.length := by omega
      have hi0 : i ≠ 0 := by omega
      have hmlo := hmed.2.1
      rw [if_neg hi0] at hmlo
      have hstep := hmlo _ rfl
      rcases Nat.eq_or_lt_of_le (show j ≤ i - 1 by omega) with heq | hlt
      · rw [heq]
        exact hstep
      · have h1 := sortedKeys_get hsort (l := ks.map NodeKey.value)
          (show j < i - 1 from hlt) (by simpa using (show i - 1 < ks.length by omega))
        rw [vals_getD, vals_getD] at h1
        exact cmpKey_lt_trans h1 hstep
    · intro j hij hjl
      rw [vals_getD]
      have hjk : j < ks.length := by simpa using hjl
      have hik' : i < ks.length := by omega
      have hmhi := hmed.2.2
      rw [if_pos hik'] at hmhi
      have hstep := hmhi _ rfl
      rcases Nat.eq_or_lt_of_le hij with heq | hlt
      · rw [← heq]
        exact hstep
      · have h1 := sortedKeys_get hsort (l := ks.map NodeKey.value) hlt
          (by simpa using hjk)
        rw [vals_getD, vals_getD] at h1
        exact cmpKey_lt_trans hstep h1
  · -- every key of the new parent is between the outer bounds
    rw [List.all_eq_true]
    intro x hx
    have hmem := (List.mem_insertIdx (by simpa using hik)).mp hx
    rw [Bool.and_eq_true, beq_iff_eq, betwB_iff]
    rcases hmem with rfl | hxk
    · refine ⟨hmed.1, ?_, ?_⟩
      · intro y hy
        by_cases hi0 : i = 0
        · have hmlo := hmed.2.1
          rw [if_pos hi0] at hmlo
          exact hmlo y hy
        · have hmlo := hmed.2.1
          rw [if_neg hi0] at hmlo
          have hsep := hall (ks.getD (i - 1) (NodeKey.ofKey []))
            (getD_mem _ (by omega))
          exact cmpKey_lt_trans (hsep.2.1 y hy) (hmlo _ rfl)
      · intro y hy
        by_cases hik' : i < ks.length
        · have hmhi := hmed.2.2
          rw [if_pos hik'] at hmhi
          have hsep := hall (ks.getD i (NodeKey.ofKey [])) (getD_mem _ hik')
          exact cmpKey_lt_trans (hmhi _ rfl) (hsep.2.2 y hy)
        · have hmhi := hmed.2.2
          rw [if_neg hik'] at hmhi
          exact hmhi y hy
    · have := hall x hxk
      exact ⟨this.1, this.2.1, this.2.2⟩
  · rw [if_neg (by simp), Bool.and_eq_true]
    constructor
    · rw [beq_iff_eq, List.length_insertIdx _ _
        (by rw [List.length_set]; omega),
        List.length_insertIdx _ _ hik, List.length_set]
      omega
    · exact wfKids_split_insert i ks cs lo hclen hi' hwalk hleft hsib

theorem sep_mem_inorderKids {k : NodeKey} :
    ∀ (ks : List NodeKey) (cs : List BNode),
    cs.length = ks.length + 1 → k ∈ ks → k ∈ inorderKids ks cs := by
  intro ks
  induction ks with
  | nil => intro cs _ hk; simp at hk
  | cons k0 ks' ih =>
    intro cs hlen hk
    cases cs with
    | nil => simp at hlen
    | cons c cs' =>
      rw [inorderKids]
      rcases List.mem_cons.mp hk with rfl | hk
      · simp
      · simp only [List.mem_append, List.mem_cons]
        right; right
        exact ih cs' (by simpa using hlen) hk

theorem take_set_eq {α : Type} :
    ∀ (l : List α) (i : Nat) (x : α), (l.set i x).take i = l.take i := by
  intro l
  induction l with
  | nil => intro i x; simp
  | cons a l' ih =>
    intro i x
    cases i with
    | zero => simp
    | succ i' =>
      rw [List.set_cons_succ, List.take_succ_cons, List.take_succ_cons, ih]

theorem drop_set_eq {α : Type} (l : List α) (i : Nat) (x : α) :
    (l.set i x).drop (i + 1) = l.drop (i + 1) := by
  rw [List.drop_set]
  rw [if_pos (by omega)]

/-- Decompose the in-order walk around child `i`. -/
theorem inorderKids_at_child :
    ∀ (i : Nat) (ks : List NodeKey) (cs : List BNode),
    cs.length = ks.length + 1 → i < cs.length →
    inorderKids ks cs =
      inorderKids (ks.take i) (cs.take i) ++ inorder (cs.getD i (BNode.new true)) ++
        (if i < ks.length then
          (ks.getD i (NodeKey.ofKey [])) ::
            inorderKids (ks.drop (i + 1)) (cs.drop (i + 1))
        else []) := by
  intro i
  induction i with
  | zero =>
    intro ks cs hlen hic
    cases cs with
    | nil => simp at hic
    | cons c cs' =>
      cases ks with
      | nil =>
        have : cs' = [] := by
          apply List.length_eq_zero.mp
          simp only [List.length_cons, List.length_nil] at hlen
          omega
        subst this
        simp [inorderKids]
      | cons k ks' =>
        simp only [List.take_zero, List.getD_cons_zero, List.length_cons,
          if_pos (by omega : 0 < ks'.length + 1), List.drop_zero,
          List.drop_succ_cons]
        rw [inorderKids, inorderKids]
        simp
  | succ i' ih =>
    intro ks cs hlen hic
    cases cs with
    | nil => simp at hic
    | cons c cs' =>
      cases ks with
      | nil =>
        simp only [List.length_cons, List.length_nil] at hlen
        have : cs' = [] := List.length_eq_zero.mp (by omega)
        subst this
        simp at hic
      | cons k ks' =>
        simp only [List.take_succ_cons, List.getD_cons_succ, List.drop_succ_cons,
          List.length_cons, Nat.add_lt_add_iff_right]
        rw [inorderKids, inorderKids,
          ih ks' cs' (by simpa using hlen) (by simpa using hic)]
        simp

theorem wfKids_takeAligned {w : Nat} {hi : Option Key} :
    ∀ (i : Nat) (ks : List NodeKey) (cs : List BNode) (lo : Option Key)
      (hi' : Option Key),
    wfKids w lo hi ks cs = true → i ≤ ks.length → i ≤ cs.length →
    wfKids w lo hi' (ks.take i) (cs.take i) = true := by
  intro i
  induction i with
  | zero => intro ks cs lo hi' _ _ _; rfl
  | succ i' ih =>
    intro ks cs lo hi' hwalk hik hic
    cases ks with
    | nil => simp at hik
    | cons k ks' =>
      cases cs with
      | nil => simp at hic
      | cons c cs' =>
        rw [wfKids, Bool.and_eq_true] at hwalk
        simp only [List.take_succ_cons]
        rw [wfKids, Bool.and_eq_true]
        exact ⟨hwalk.1, ih ks' cs' _ hi' hwalk.2 (by simpa using hik)
          (by simpa using hic)⟩

theorem wfKids_set {w : Nat} {hi : Option Key} {c' : BNode} :
    ∀ (i : Nat) (ks : List NodeKey) (cs : List BNode) (lo : Option Key),
    cs.length = ks.length + 1 →
    wfKids w lo hi ks cs = true → i < cs.length →
    wfB w (if i = 0 then lo else some ((ks.getD (i - 1) (NodeKey.ofKey [])).value))
      (if i < ks.length then some ((ks.getD i (NodeKey.ofKey [])).value) else hi)
      c' = true →
    wfKids w lo hi ks (cs.set i c') = true := by
  intro i
  induction i with
  | zero =>
    intro ks cs lo hlen hwalk hic hc'
    cases cs with
    | nil => simp at hic
    | cons c cs' =>
      simp only [List.set_cons_zero]
      cases ks with
      | nil =>
        rw [wfKids, Bool.and_eq_true] at hwalk ⊢
        refine ⟨?_, hwalk.2⟩
        simp only [if_pos rfl, List.length_nil, Nat.lt_irrefl,
          if_neg (by omega : ¬(0 < 0))] at hc'
        exact hc'
      | cons k ks' =>
        rw [wfKids, Bool.and_eq_true] at hwalk ⊢
        refine ⟨?_, hwalk.2⟩
        simp only [if_pos rfl, List.length_cons, List.getD_cons_zero,
          if_pos (by omega : 0 < ks'.length + 1)] at hc'
        exact hc'
  | succ i' ih =>
    intro ks cs lo hlen hwalk hic hc'
    cases cs with
    | nil => simp at hic
    | cons c cs' =>
      cases ks with
      | nil =>
        simp only [List.length_cons, List.length_nil] at hlen
        have : cs' = [] := List.length_eq_zero.mp (by omega)
        subst this
        simp at hic
      | cons k ks' =>
        simp only [List.set_cons_succ]
        rw [wfKids, Bool.and_eq_true] at hwalk ⊢
        refine ⟨hwalk.1, ?_⟩
        have e1 : (if i' = 0 then some k.value
            else some ((ks'.getD (i' - 1) (NodeKey.ofKey [])).value)) =
            some (((k :: ks').getD i' (NodeKey.ofKey [])).value) := by
          cases i' with
          | zero => simp
          | succ i'' => simp
        simp only [if_neg (show ¬(i' + 1 = 0) by omega), Nat.add_sub_cancel,
          List.length_cons, Nat.add_lt_add_iff_right,
          List.getD_cons_succ] at hc'
        rw [← e1] at hc'
        exact ih ks' cs' (some k.value) (by simpa using hlen) hwalk.2
          (by simpa using hic) hc'

theorem markLive_append (k : Key) (A B : List NodeKey) :
    markLive k (A ++ B) = markLive k A ++ markLive k B := by
  simp [markLive]

theorem markLive_id {k : Key} {l : List NodeKey} (h : ∀ x ∈ l, x.value ≠ k) :
    markLive k l = l := by
  apply map_id_of
  intro x hx
  rw [if_neg (h x hx)]

theorem insKeyIn_append_lt {k : Key} {A rest : List NodeKey}
    (h : ∀ x ∈ A, cmpKey x.value k = Ordering.lt) :
    insKeyIn k (A ++ rest) = A ++ insKeyIn k rest := by
  induction A with
  | nil => simp
  | cons a A' ih =>
    rw [List.cons_append, insKeyIn, if_pos (h a (List.mem_cons_self _ _)),
      ih fun x hx => h x (List.mem_cons_of_mem _ hx)]
    rfl

theorem insKeyIn_append_ge {k : Key} {B C : List NodeKey}
    (h : ∀ x ∈ C, ¬cmpKey x.value k = Ordering.lt) :
    insKeyIn k (B ++ C) = insKeyIn k B ++ C := by
  induction B with
  | nil =>
    cases C with
    | nil => rfl
    | cons c C' =>
      simp only [List.nil_append, insKeyIn]
      rw [if_neg (h c (List.mem_cons_self _ _))]
      rfl
  | cons b B' ih =>
    rw [List.cons_append, insKeyIn, insKeyIn]
    by_cases hb : cmpKey b.value k = Ordering.lt
    · rw [if_pos hb, if_pos hb, ih]
      rfl
    · rw [if_neg hb, if_neg hb]
      rfl

/-- The slotwise effect of the `_insert` hit branch on a node. -/
theorem hit_unTomb {w : Nat} {lo hi : Option Key} {lf : Bool} {ks : List NodeKey}
    {cs : List BNode} {rb : Bool} {i : Nat} {k : Key}
    (hwf : wfB w lo hi (.mk lf ks cs rb) = true)
    (hik : i < ks.length)
    (hkv : (ks.getD i (NodeKey.ofKey [])).value = k) :
    wfB w lo hi (.mk lf (unTomb ks i) cs rb) = true ∧
    inorder (.mk lf (unTomb ks i) cs rb) = markLive k (inorder (.mk lf ks cs rb)) ∧
    k ∈ (inorder (.mk lf ks cs rb)).map NodeKey.value := by
  have hsort := wfB_sorted hwf
  have hvals : (unTomb ks i).map NodeKey.value = ks.map NodeKey.value := by
    apply List.ext_getElem
    · simp [unTomb]
    · intro n h1 h2
      simp only [unTomb, List.getElem_map, List.getElem_mapIdx]
      by_cases hn : n = i
      · rw [if_pos hn]
      · rw [if_neg hn]
  have hmark : unTomb ks i = ks.map fun nk =>
      if nk.value = k then ⟨k, false⟩ else nk := by
    apply List.ext_getElem
    · simp [unTomb]
    · intro n h1 h2
      simp only [unTomb, List.getElem_map, List.getElem_mapIdx]
      have hn2 : n < ks.length := by simpa [unTomb] using h1
      by_cases hn : n = i
      · subst hn
        have hkv' : ks[n].value = k := by
          rw [← List.getD_eq_getElem _ (NodeKey.ofKey []) hn2]
          exact hkv
        rw [if_pos rfl, if_pos hkv', hkv']
      · rw [if_neg hn, if_neg ?_]
        intro hcon
        rcases Nat.lt_or_ge n i with hni | hni
        · have := sortedKeys_get hsort (l := ks.map NodeKey.value) hni
            (by simpa using hik)
          rw [vals_getD, vals_getD, List.getD_eq_getElem _ _ hn2, hcon, hkv] at this
          rw [cmpKey_self] at this
          simp at this
        · have hni' : i < n := by omega
          have := sortedKeys_get hsort (l := ks.map NodeKey.value) hni'
            (by simpa using hn2)
          rw [vals_getD, vals_getD, List.getD_eq_getElem _ _ hn2, hcon, hkv] at this
          rw [cmpKey_self] at this
          simp at this
  refine ⟨wfB_congr hvals.symm rfl (fun j hj lo₁ hi₁ h => h) hwf, ?_, ?_⟩
  · cases lf with
    | true =>
      simp only [inorder, if_pos rfl, if_true]
      rw [markLive, ← hmark]
    | false =>
      simp only [inorder, if_neg (show ¬(false = true) by simp)]
      obtain ⟨hclen, hwalk⟩ := wfB_walk hwf
      rw [markLive]
      apply inorderKids_map _ ks _ cs _ hmark rfl
      intro j hj
      symm
      apply map_id_of
      intro x hx
      have hwfj := wfKids_get cs ks lo hwalk hclen j hj
      obtain ⟨hxw, hxlo, hxhi⟩ := wf_inorder_betw _ _ _ hwfj x hx
      rcases Nat.lt_or_ge j (i + 1) with hji | hji
      · -- subtree j is left of / at separator i: every key is < k
        have hjk : j < ks.length := by omega
        have hlt : cmpKey x.value k = Ordering.lt := by
          rw [if_pos hjk] at hxhi
          have h1 := hxhi _ rfl
          rcases Nat.eq_or_lt_of_le (show j ≤ i by omega) with heq | hlt2
          · rw [heq, hkv] at h1
            exact h1
          · have h2 := sortedKeys_get hsort (l := ks.map NodeKey.value) hlt2
              (by simpa using hik)
            rw [vals_getD, vals_getD, hkv] at h2
            exact cmpKey_lt_trans h1 h2
        rw [if_neg ?_]
        intro hcon
        rw [hcon, cmpKey_self] at hlt
        simp at hlt
      · -- subtree j is right of separator i: every key is > k
        have hj0 : j ≠ 0 := by omega
        have hjk : j - 1 < ks.length := by
          have hcl := (wfB_walk hwf).1
          omega
        have hgt : cmpKey k x.value = Ordering.lt := by
          rw [if_neg hj0] at hxlo
          have h1 := hxlo _ rfl
          rcases Nat.eq_or_lt_of_le (show i ≤ j - 1 by omega) with heq | hlt2
          · rw [← heq, hkv] at h1
            exact h1
          · have h2 := sortedKeys_get hsort (l := ks.map NodeKey.value) hlt2
              (by simpa using hjk)
            rw [vals_getD, vals_getD, hkv] at h2
            exact cmpKey_lt_trans h2 h1
        rw [if_neg ?_]
        intro hcon
        rw [hcon, cmpKey_self] at hgt
        simp at hgt
  · cases lf with
    | true =>
      simp only [inorder, if_pos rfl, if_true]
      rw [← hkv]
      exact List.mem_map_of_mem _ (getD_mem _ hik)
    | false =>
      simp only [inorder, if_neg (show ¬(false = true) by simp)]
      rw [← hkv]
      apply List.mem_map_of_mem
      exact sep_mem_inorderKids ks cs (wfB_walk hwf).1 (getD_mem _ hik)

theorem wf_set_child {w : Nat} {lo hi : Option Key} {ks : List NodeKey}
    {cs : List BNode} {rb : Bool} {i : Nat} {c' : BNode}
    (hwf : wfB w lo hi (.mk false ks cs rb) = true)
    (hic : i < cs.length)
    (hc' : wfB w
      (if i = 0 then lo else some ((ks.getD (i - 1) (NodeKey.ofKey [])).value))
      (if i < ks.length then some ((ks.getD i (NodeKey.ofKey [])).value) else hi)
      c' = true) :
    wfB w lo hi (.mk false ks (cs.set i c') rb) = true := by
  obtain ⟨hclen, hwalk⟩ := wfB_walk hwf
  rw [wfB, Bool.and_eq_true, Bool.and_eq_true] at hwf ⊢
  refine ⟨hwf.1, ?_⟩
  rw [if_neg (by simp), Bool.and_eq_true]
  refine ⟨by rw [beq_iff_eq, List.length_set]; omega, ?_⟩
  exact wfKids_set i ks cs lo hclen hwalk hic hc'

/-- In-order content of a non-leaf node, decomposed around child `i`. -/
theorem inorder_node_decomp {ks : List NodeKey} {cs : List BNode} {lf : Bool}
    {rb : Bool} {i : Nat} (hlf : lf = false)
    (hclen : cs.length = ks.length + 1) (hic : i < cs.length) :
    inorder (.mk lf ks cs rb) =
      inorderKids (ks.take i) (cs.take i) ++ inorder (cs.getD i (BNode.new true)) ++
        (if i < ks.length then
          (ks.getD i (NodeKey.ofKey [])) ::
            inorderKids (ks.drop (i + 1)) (cs.drop (i + 1))
        else []) := by
  subst hlf
  rw [inorder, if_neg (by simp)]
  exact inorderKids_at_child i ks cs hclen hic

theorem seg_pre_lt {w : Nat} {lo hi : Option Key} {ks : List NodeKey}
    {cs : List BNode} {rb : Bool} {i : Nat} {k : Key}
    (hwf : wfB w lo hi (.mk false ks cs rb) = true)
    (hic : i < cs.length)
    (hklt : ∀ j, j < i → cmpKey ((ks.getD j (NodeKey.ofKey [])).value) k = Ordering.lt) :
    ∀ x ∈ inorderKids (ks.take i) (cs.take i), cmpKey x.value k = Ordering.lt := by
  obtain ⟨hclen, hwalk⟩ := wfB_walk hwf
  have hall := wfB_all hwf
  have hw2 : wfKids w lo (some k) (ks.take i) (cs.take i) = true :=
    wfKids_takeAligned i ks cs lo (some k) hwalk (by omega) (by omega)
  intro x hx
  have := wfKids_inorder_betw lo (cs.take i) (ks.take i) lo
    (fun c hc lo₁ hi₁ hwf₁ => wf_inorder_betw c lo₁ hi₁ hwf₁)
    hw2 ?_ (Or.inl rfl) x hx
  · exact this.2.2 k rfl
  · intro k' hk'
    obtain ⟨j, hj1, hj2, hj3⟩ := mem_take_idx (NodeKey.ofKey []) hk'
    have h1 := hall k' (by rw [← hj3]; exact getD_mem _ hj2)
    refine ⟨h1.1, h1.2.1, ?_⟩
    intro y hy
    rw [Option.mem_some_iff] at hy
    subst hy
    rw [← hj3]
    exact hklt j hj1

theorem seg_tail_gt {w : Nat} {lo hi : Option Key} {ks : List NodeKey}
    {cs : List BNode} {rb : Bool} {i : Nat} {k : Key}
    (hwf : wfB w lo hi (.mk false ks cs rb) = true)
    (hik : i < ks.length)
    (hkgt : ∀ j, i ≤ j → j < ks.length →
      cmpKey k ((ks.getD j (NodeKey.ofKey [])).value) = Ordering.lt) :
    ∀ x ∈ (ks.getD i (NodeKey.ofKey [])) ::
        inorderKids (ks.drop (i + 1)) (cs.drop (i + 1)),
      cmpKey k x.value = Ordering.lt := by
  obtain ⟨hclen, hwalk⟩ := wfB_walk hwf
  have hall := wfB_all hwf
  intro x hx
  rcases List.mem_cons.mp hx with rfl | hx
  · exact hkgt i le_rfl hik
  · have hw2 := wfKids_drop i ks cs lo hwalk hik
    have := wfKids_inorder_betw (some k)
      (cs.drop (i + 1)) (ks.drop (i + 1))
      (some ((ks.getD i (NodeKey.ofKey [])).value))
      (fun c hc lo₁ hi₁ hwf₁ => wf_inorder_betw c lo₁ hi₁ hwf₁)
      hw2 ?_ ?_ x hx
    · exact this.2.1 k rfl
    · intro k' hk'
      obtain ⟨j, hj1, hj2, hj3⟩ := mem_drop_idx (NodeKey.ofKey []) hk'
      have h1 := hall k' (by rw [← hj3]; exact getD_mem _ hj2)
      refine ⟨h1.1, ?_, h1.2.2⟩
      intro y hy
      rw [Option.mem_some_iff] at hy
      subst hy
      rw [← hj3]
      exact hkgt j (by omega) hj2
    · exact Or.inr ⟨_, rfl, fun y hy => by
        rw [Option.mem_some_iff] at hy
        subst hy
        exact hkgt i le_rfl hik⟩

theorem getD_set_self {α : Type} {l : List α} {i : Nat} {x : α} (d : α)
    (h : i < l.length) : (l.set i x).getD i d = x := by
  rw [List.getD_eq_getElem _ _ (by simpa using h), List.getElem_set_self]

/-- Descending into child `i` with `_insert` rewrites the node's content
slot-wise, provided every separator left of `i` is below the inserted key
and every separator from `i` on is above it. -/
theorem insert_step_child {w m : Nat} {k : Key} {fuel : Nat}
    (IH : ∀ (t : BNode) (lo hi : Option Key), heightB t ≤ fuel →
      wfB w lo hi t = true → loLt lo k → hiGt hi k →
      wfB w lo hi (insertLoop m k fuel t) = true ∧
      inorder (insertLoop m k fuel t) =
        (if k ∈ (inorder t).map NodeKey.value then markLive k (inorder t)
         else insKeyIn k (inorder t)))
    {lo hi : Option Key} {ks : List NodeKey} {cs : List BNode} {rb : Bool} {i : Nat}
    (hwf : wfB w lo hi (.mk false ks cs rb) = true)
    (hic : i < cs.length)
    (hklo : loLt lo k) (hkhi : hiGt hi k)
    (hheight : heightB (cs.getD i (BNode.new true)) ≤ fuel)
    (hjlt : ∀ j, j < i → cmpKey ((ks.getD j (NodeKey.ofKey [])).value) k = Ordering.lt)
    (hjgt : ∀ j, i ≤ j → j < ks.length →
      cmpKey k ((ks.getD j (NodeKey.ofKey [])).value) = Ordering.lt) :
    wfB w lo hi
      (.mk false ks (cs.set i (insertLoop m k fuel (cs.getD i (BNode.new true)))) rb)
      = true ∧
    inorder
      (.mk false ks (cs.set i (insertLoop m k fuel (cs.getD i (BNode.new true)))) rb) =
      (if k ∈ (inorder (.mk false ks cs rb)).map NodeKey.value
       then markLive k (inorder (.mk false ks cs rb))
       else insKeyIn k (inorder (.mk false ks cs rb))) := by
  obtain ⟨hclen, hwalk⟩ := wfB_walk hwf
  have hchildwf := wfKids_get cs ks lo hwalk hclen i hic
  have hlok : loLt (if i = 0 then lo
      else some ((ks.getD (i - 1) (NodeKey.ofKey [])).value)) k := by
    by_cases h0 : i = 0
    · rw [if_pos h0]; exact hklo
    · rw [if_neg h0]
      intro y hy
      rw [Option.mem_some_iff] at hy
      subst hy
      exact hjlt (i - 1) (by omega)
  have hhik : hiGt (if i < ks.length
      then some ((ks.getD i (NodeKey.ofKey [])).value) else hi) k := by
    by_cases hikk : i < ks.length
    · rw [if_pos hikk]
      intro y hy
      rw [Option.mem_some_iff] at hy
      subst hy
      exact hjgt i le_rfl hikk
    · rw [if_neg hikk]; exact hkhi
  obtain ⟨cwf, ccontent⟩ := IH (cs.getD i (BNode.new true)) _ _ hheight hchildwf hlok hhik
  refine ⟨wf_set_child hwf hic cwf, ?_⟩
  have hdecomp := @inorder_node_decomp ks cs _ rb _ rfl hclen hic
  have hdecomp' := @inorder_node_decomp ks
    (cs.set i (insertLoop m k fuel (cs.getD i (BNode.new true)))) _ rb _
    rfl (by rw [List.length_set]; exact hclen) (by rw [List.length_set]; exact hic)
  rw [take_set_eq, drop_set_eq, getD_set_self _ hic] at hdecomp'
  have hpre := seg_pre_lt hwf hic hjlt
  have hprene : ∀ x ∈ inorderKids (ks.take i) (cs.take i), x.value ≠ k := by
    intro x hx hcon
    have := hpre x hx
    rw [hcon, cmpKey_self] at this
    simp at this
  rw [hdecomp, hdecomp', ccontent]
  by_cases hikk : i < ks.length
  · rw [if_pos hikk]
    have htail := seg_tail_gt hwf hikk hjgt
    have htailne : ∀ x ∈ (ks.getD i (NodeKey.ofKey [])) ::
        inorderKids (ks.drop (i + 1)) (cs.drop (i + 1)), x.value ≠ k := by
      intro x hx hcon
      have := htail x hx
      rw [hcon, cmpKey_self] at this
      simp at this
    have hmemiff : k ∈ ((inorderKids (ks.take i) (cs.take i) ++
        inorder (cs.getD i (BNode.new true)) ++
        ((ks.getD i (NodeKey.ofKey [])) ::
          inorderKids (ks.drop (i + 1)) (cs.drop (i + 1)))).map NodeKey.value) ↔
        k ∈ (inorder (cs.getD i (BNode.new true))).map NodeKey.value := by
      simp only [List.map_append, List.mem_append, List.map_cons, List.mem_cons]
      constructor
      · rintro ((h | h) | h)
        · obtain ⟨x, hx, rfl⟩ := List.mem_map.mp h
          exact absurd rfl (hprene x hx)
        · exact h
        · rcases h with h | h
          · exact absurd h.symm (htailne _ (List.mem_cons_self _ _))
          · obtain ⟨x, hx, rfl⟩ := List.mem_map.mp h
            exact absurd rfl (htailne x (List.mem_cons_of_mem _ hx))
      · intro h
        exact Or.inl (Or.inr h)
    by_cases hmem : k ∈ (inorder (cs.getD i (BNode.new true))).map NodeKey.value
    · rw [if_pos hmem, if_pos (hmemiff.mpr hmem)]
      rw [markLive_append, markLive_append, markLive_id hprene,
        markLive_id htailne]
    · rw [if_neg hmem, if_neg (fun h => hmem (hmemiff.mp h))]
      rw [List.append_assoc, List.append_assoc,
        insKeyIn_append_lt hpre,
        insKeyIn_append_ge (fun x hx hcon => by
          have := htail x hx
          rw [(cmpKey_gt_iff_lt _ _).mpr this] at hcon
          simp at hcon)]
  · rw [if_neg hikk]
    have hmemiff : k ∈ ((inorderKids (ks.take i) (cs.take i) ++
        inorder (cs.getD i (BNode.new true)) ++ ([] : List NodeKey)).map NodeKey.value) ↔
        k ∈ (inorder (cs.getD i (BNode.new true))).map NodeKey.value := by
      simp only [List.append_nil, List.map_append, List.mem_append]
      constructor
      · rintro (h | h)
        · obtain ⟨x, hx, rfl⟩ := List.mem_map.mp h
          exact absurd rfl (hprene x hx)
        · exact h
      · exact Or.inr
    by_cases hmem : k ∈ (inorder (cs.getD i (BNode.new true))).map NodeKey.value
    · rw [if_pos hmem, if_pos (hmemiff.mpr hmem)]
      rw [List.append_nil, List.append_nil, markLive_append, markLive_id hprene]
    · rw [if_neg hmem, if_neg (fun h => hmem (hmemiff.mp h))]
      rw [List.append_nil, List.append_nil, insKeyIn_append_lt hpre]

theorem getD_insertIdx_lt {α : Type} {l : List α} {i j : Nat} {x : α} (d : α)
    (hi : i ≤ l.length) (hj : j < i) :
    (l.insertIdx i x).getD j d = l.getD j d := by
  have hjl : j < l.length := by omega
  rw [List.getD_eq_getElem _ _ (by rw [List.length_insertIdx _ _ hi]; omega),
    List.getD_eq_getElem _ _ hjl,
    List.getElem_insertIdx_of_lt l x i j hj hjl]

theorem getD_insertIdx_self {α : Type} {l : List α} {i : Nat} {x : α} (d : α)
    (hi : i ≤ l.length) : (l.insertIdx i x).getD i d = x := by
  rw [List.getD_eq_getElem _ _ (by rw [List.length_insertIdx _ _ hi]; omega),
    List.getElem_insertIdx_self l x i hi]

theorem getD_insertIdx_gt {α : Type} {l : List α} {i j : Nat} {x : α} (d : α)
    (hj : i < j) (hjl : j < l.length + 1) :
    (l.insertIdx i x).getD j d = l.getD (j - 1) d := by
  have hi : i ≤ l.length := by omega
  obtain ⟨kk, rfl⟩ : ∃ kk, j = i + kk + 1 := ⟨j - i - 1, by omega⟩
  have h1 : i + kk < l.length := by omega
  rw [List.getD_eq_getElem _ _ (by rw [List.length_insertIdx _ _ hi]; omega),
    List.getD_eq_getElem _ _ (show i + kk + 1 - 1 < l.length by omega)]
  simp only [Nat.add_sub_cancel]
  exact List.getElem_insertIdx_add_succ l x i kk h1

/-- `_insert` on a well-formed subtree preserves the invariant and acts
slot-wise on the node contents: a key already present (live or tombstoned)
has its tombstone cleared, a missing key is placed, live, at its sorted
position. -/
theorem insert_content {w m : Nat} (hm : 2 ≤ m) {k : Key} (hk : k.length = w) :
    ∀ (fuel : Nat) (t : BNode) (lo hi : Option Key),
    heightB t ≤ fuel → wfB w lo hi t = true → loLt lo k → hiGt hi k →
    wfB w lo hi (insertLoop m k fuel t) = true ∧
    inorder (insertLoop m k fuel t) =
      (if k ∈ (inorder t).map NodeKey.value then markLive k (inorder t)
       else insKeyIn k (inorder t)) := by
  intro fuel
  induction fuel with
  | zero =>
    intro t lo hi hf
    exact absurd hf (by have := heightB_pos t; omega)
  | succ fuel ih =>
    intro t lo hi hf hwf hklo hkhi
    rcases t with ⟨lf, ks, cs, rb⟩
    simp only [heightB] at hf
    simp only [insertLoop]
    set ib := bisect_left (ks.map NodeKey.value) k with hib
    have hsort := wfB_sorted hwf
    have hall := wfB_all hwf
    have hilen : ib ≤ ks.length := by
      rw [hib]
      have := bisect_left_len_le (ks.map NodeKey.value) k
      simpa using this
    have hjlt : ∀ j, j < ib →
        cmpKey ((ks.getD j (NodeKey.ofKey [])).value) k = Ordering.lt := by
      intro j hj
      rw [hib] at hj
      have := bisect_left_lt hj
      rwa [vals_getD] at this
    by_cases h1 : ib < ks.length ∧
        cmpKey ((ks.getD ib (NodeKey.ofKey [])).value) k = Ordering.eq
    · rw [if_pos h1]
      have hwid : (ks.getD ib (NodeKey.ofKey [])).value.length = k.length := by
        rw [hk]
        exact (hall _ (getD_mem _ h1.1)).1
      have hkv := cmpKey_eq_of_eq hwid h1.2
      obtain ⟨q1, q2, q3⟩ := hit_unTomb hwf h1.1 hkv
      exact ⟨q1, by rw [q2, if_pos q3]⟩
    · rw [if_neg h1]
      have hjgt : ∀ j, ib ≤ j → j < ks.length →
          cmpKey k ((ks.getD j (NodeKey.ofKey [])).value) = Ordering.lt := by
        have hgi : ib < ks.length →
            cmpKey k ((ks.getD ib (NodeKey.ofKey [])).value) = Ordering.lt := by
          intro hikk
          have hnl := @bisect_left_boundary (ks.map NodeKey.value)
            k (by rw [← hib]; simpa using hikk)
          rw [← hib, vals_getD] at hnl
          have hne : ¬cmpKey ((ks.getD ib (NodeKey.ofKey [])).value) k =
              Ordering.eq := fun he => h1 ⟨hikk, he⟩
          rcases hc : cmpKey ((ks.getD ib (NodeKey.ofKey [])).value) k with _ | _ | _
          · exact absurd hc hnl
          · exact absurd hc hne
          · exact (cmpKey_gt_iff_lt _ _).mp hc
        intro j hij hjl
        rcases Nat.lt_or_ge ib j with hlt | hge
        · have h2 := sortedKeys_get hsort hlt (by simpa using hjl)
          rw [vals_getD, vals_getD] at h2
          exact cmpKey_lt_trans (hgi (by omega)) h2
        · have : j = ib := by omega
          subst this
          exact hgi hjl
      cases lf with
      | true =>
        rw [if_pos rfl]
        have hcs := wfB_shape hwf
        rw [if_pos rfl] at hcs
        have hinle : inorder (BNode.mk true ks cs rb) = ks := by
          rw [inorder, if_pos rfl]
        refine ⟨?_, ?_⟩
        · rw [wfB, Bool.and_eq_true, Bool.and_eq_true]
          refine ⟨⟨?_, ?_⟩, ?_⟩
          · rw [map_insertIdx_comm _ _ _ _ hilen]
            apply sortedKeys_insertIdx hsort (by simpa using hilen)
            · intro j hj
              rw [vals_getD]
              exact hjlt j hj
            · intro j hj1 hj2
              rw [vals_getD]
              exact hjgt j hj1 (by simpa using hj2)
          · rw [List.all_eq_true]
            intro x hx
            rcases (List.mem_insertIdx hilen).mp hx with rfl | hx'
            · rw [Bool.and_eq_true, beq_iff_eq]
              exact ⟨hk, (betwB_iff _ _ _).mpr ⟨hklo, hkhi⟩⟩
            · rw [Bool.and_eq_true, beq_iff_eq]
              obtain ⟨ha, hb, hc⟩ := hall x hx'
              exact ⟨ha, (betwB_iff _ _ _).mpr ⟨hb, hc⟩⟩
          · rw [if_pos rfl, hcs]
            rfl
        · have hnm : ¬ k ∈ (inorder (BNode.mk true ks cs rb)).map NodeKey.value := by
            rw [hinle]
            intro hmem
            obtain ⟨x, hx, hvx⟩ := List.mem_map.mp hmem
            obtain ⟨j, hjl, hxj⟩ := List.getElem_of_mem hx
            have hgd : ks.getD j (NodeKey.ofKey []) = x := by
              rw [List.getD_eq_getElem _ _ hjl]
              exact hxj
            rcases Nat.lt_or_ge j ib with hj | hj
            · have := hjlt j hj
              rw [hgd, hvx, cmpKey_self] at this
              simp at this
            · have := hjgt j hj hjl
              rw [hgd, hvx, cmpKey_self] at this
              simp at this
          rw [if_neg hnm, hinle, inorder, if_pos rfl, insKeyIn_eq_insertIdx, ← hib]
          rfl
      | false =>
        rw [if_neg (show ¬(false = true) by simp)]
        obtain ⟨hclen, hwalk⟩ := wfB_walk hwf
        have hic : ib < cs.length := by omega
        rw [if_pos hic]
        have hmx : maxH cs ≤ fuel := by omega
        by_cases hfull : (cs.getD ib (BNode.new true)).keys.length = 2 * m - 1
        · rw [if_pos hfull]
          have ht'wf := wf_splitChild hm hwf hic hfull
          have ht'in := inorder_splitChild hm hwf hic hfull
          have hhts := @splitChild_children_height m false ks cs rb _ hic
          rcases hch : cs.getD ib (BNode.new true) with ⟨clf, cks, ccs, crb⟩
          rw [hch, BNode.keys] at hfull
          have hspu : splitChild m (BNode.mk false ks cs rb) ib =
              BNode.mk false
                (ks.insertIdx ib (cks.getD (m - 1) (NodeKey.ofKey [])))
                ((cs.set ib (BNode.mk clf (cks.take (m - 1))
                    (if clf then ccs else ccs.take m) crb)).insertIdx (ib + 1)
                  (BNode.mk clf (cks.drop m)
                    (if clf then [] else ccs.drop m) false)) rb := by
            simp only [splitChild, hch]
          rcases hsp2 : splitChild m (BNode.mk false ks cs rb) ib
            with ⟨slf, sks, scs, srb⟩
          have hinj := hspu.symm.trans hsp2
          injection hinj with e1 e2 e3 e4
          subst e1
          subst e4
          rw [hsp2] at ht'wf ht'in hhts
          simp only [BNode.keys, BNode.children, BNode.leaf, BNode.rebalance]
            at hhts ⊢
          have hskslen : sks.length = ks.length + 1 := by
            rw [← e2, List.length_insertIdx _ _ hilen]
          have hscslen : scs.length = cs.length + 1 := by
            rw [← e3, List.length_insertIdx _ _ (by rw [List.length_set]; omega),
              List.length_set]
          have hsksgetib : sks.getD ib (NodeKey.ofKey []) =
              cks.getD (m - 1) (NodeKey.ofKey []) := by
            rw [← e2]
            exact getD_insertIdx_self _ hilen
          have hsksgetlt : ∀ j, j < ib →
              sks.getD j (NodeKey.ofKey []) = ks.getD j (NodeKey.ofKey []) := by
            intro j hj
            rw [← e2]
            exact getD_insertIdx_lt _ hilen hj
          have hsksgetgt : ∀ j, ib < j → j < ks.length + 1 →
              sks.getD j (NodeKey.ofKey []) = ks.getD (j - 1) (NodeKey.ofKey []) := by
            intro j hj1 hj2
            rw [← e2]
            exact getD_insertIdx_gt _ hj1 hj2
          rw [hsksgetib]
          rcases hcmp : cmpKey k ((cks.getD (m - 1) (NodeKey.ofKey [])).value)
            with _ | _ | _
          · have hjlt2 : ∀ j, j < ib →
                cmpKey ((sks.getD j (NodeKey.ofKey [])).value) k = Ordering.lt := by
              intro j hj
              rw [hsksgetlt j hj]
              exact hjlt j hj
            have hjgt2 : ∀ j, ib ≤ j → j < sks.length →
                cmpKey k ((sks.getD j (NodeKey.ofKey [])).value) = Ordering.lt := by
              intro j hj1 hj2
              rw [hskslen] at hj2
              rcases Nat.eq_or_lt_of_le hj1 with rfl | hlt
              · rw [hsksgetib]
                exact hcmp
              · rw [hsksgetgt j hlt hj2]
                exact hjgt (j - 1) (by omega) (by omega)
            have hstep := insert_step_child ih ht'wf
              (show ib < scs.length by rw [hscslen]; omega) hklo hkhi
              (le_trans (hhts _ (getD_mem _ (by rw [hscslen]; omega))) hmx)
              hjlt2 hjgt2
            rw [ht'in] at hstep
            exact hstep
          · have hmedmem : cks.getD (m - 1) (NodeKey.ofKey []) ∈ sks := by
              rw [← hsksgetib]
              exact getD_mem _ (by rw [hskslen]; omega)
            have hmedw := (wfB_all ht'wf _ hmedmem).1
            have hed : cmpKey ((cks.getD (m - 1) (NodeKey.ofKey [])).value) k =
                Ordering.eq := by
              have hsw := cmpKey_swap ((cks.getD (m - 1) (NodeKey.ofKey [])).value) k
              rw [hcmp] at hsw
              rcases h2 : cmpKey ((cks.getD (m - 1) (NodeKey.ofKey [])).value) k
                with _ | _ | _
              · rw [h2] at hsw
                simp [Ordering.swap] at hsw
              · rfl
              · rw [h2] at hsw
                simp [Ordering.swap] at hsw
            have hkv2 : (sks.getD ib (NodeKey.ofKey [])).value = k := by
              rw [hsksgetib]
              exact cmpKey_eq_of_eq (by rw [hmedw, hk]) hed
            obtain ⟨q1, q2, q3⟩ := hit_unTomb ht'wf
              (show ib < sks.length by rw [hskslen]; omega) hkv2
            rw [ht'in] at q2 q3
            exact ⟨q1, by rw [q2, if_pos q3]⟩
          · have hjlt2 : ∀ j, j < ib + 1 →
                cmpKey ((sks.getD j (NodeKey.ofKey [])).value) k = Ordering.lt := by
              intro j hj
              rcases Nat.lt_or_ge j ib with h2 | h2
              · rw [hsksgetlt j h2]
                exact hjlt j h2
              · have : j = ib := by omega
                subst this
                rw [hsksgetib]
                exact (cmpKey_gt_iff_lt _ _).mp hcmp
            have hjgt2 : ∀ j, ib + 1 ≤ j → j < sks.length →
                cmpKey k ((sks.getD j (NodeKey.ofKey [])).value) = Ordering.lt := by
              intro j hj1 hj2
              rw [hskslen] at hj2
              rw [hsksgetgt j (by omega) hj2]
              exact hjgt (j - 1) (by omega) (by omega)
            have hstep := insert_step_child ih ht'wf
              (show ib + 1 < scs.length by rw [hscslen]; omega) hklo hkhi
              (le_trans (hhts _ (getD_mem _ (by rw [hscslen]; omega))) hmx)
              hjlt2 hjgt2
            rw [ht'in] at hstep
            exact hstep
        · rw [if_neg hfull]
          exact insert_step_child ih hwf hic hklo hkhi
            (le_trans (heightB_le_maxH (getD_mem _ hic)) hmx) hjlt hjgt

theorem wf_root_wrap {w : Nat} {t : BNode} (h : wfB w none none t = true) :
    wfB w none none (BNode.mk false [] [t] false) = true := by
  rw [wfB]
  simp only [List.map_nil, List.all_nil, Bool.and_true,
    if_neg (show ¬(false = true) by simp)]
  rw [show wfKids w none none [] [t] =
      (wfB w none none t && wfKids w none none [] []) from rfl]
  rw [h]
  rfl

/-- `BTreeInstance::insert` acts slot-wise on the tree contents: the
invariant is preserved, a present key is un-tombstoned, a missing key is
placed, live, at its sorted position. -/
theorem insertBT_content {w m : Nat} (hm : 2 ≤ m) {k : Key} (hk : k.length = w)
    {t : BNode} (hwf : wfT w t = true) :
    wfT w (insertBT m t k) = true ∧
    inorder (insertBT m t k) =
      (if k ∈ (inorder t).map NodeKey.value then markLive k (inorder t)
       else insKeyIn k (inorder t)) := by
  have hnone1 : loLt none k := by intro x hx; simp at hx
  have hnone2 : hiGt none k := by intro x hx; simp at hx
  rw [wfT] at hwf
  rw [wfT, insertBT]
  by_cases hfull : t.keys.length = 2 * m - 1
  · rw [if_pos hfull]
    have hwrap := wf_root_wrap hwf
    have hfull' : (([t] : List BNode).getD 0 (BNode.new true)).keys.length =
        2 * m - 1 := hfull
    have hroot := wf_splitChild hm hwrap
      (show 0 < ([t] : List BNode).length by simp) hfull'
    have hrin := inorder_splitChild hm hwrap
      (show 0 < ([t] : List BNode).length by simp) hfull'
    have hwrapin : inorder (BNode.mk false [] [t] false) = inorder t := by
      rw [inorder, if_neg (show ¬(false = true) by simp)]
      rw [show inorderKids [] [t] = inorder t ++ inorderKids [] [] from rfl]
      simp [inorderKids]
    rw [hwrapin] at hrin
    obtain ⟨q1, q2⟩ := insert_content hm hk
      (heightB (splitChild m (BNode.mk false [] [t] false) 0)) _ none none
      le_rfl hroot hnone1 hnone2
    rw [hrin] at q2
    exact ⟨q1, q2⟩
  · rw [if_neg hfull]
    exact insert_content hm hk (heightB t) t none none le_rfl hwf hnone1 hnone2

theorem bisect_left_range_nil (vals : List Key) : bisect_left_range [] vals = 0 := by
  rw [bisect_left_range]
  cases vals with
  | nil => rfl
  | cons v vs =>
    rw [List.takeWhile_cons_of_neg (p := fun k => belowStart [] k)
      (show ¬(belowStart [] v = true) by simp [belowStart])]
    rfl

theorem bisect_right_range_nil (vals : List Key) :
    bisect_right_range [] vals = vals.length := by
  rw [bisect_right_range]
  induction vals with
  | nil => rfl
  | cons v vs ih =>
    rw [List.takeWhile_cons_of_pos (p := fun k => !aboveEnd [] k)
      (show (!aboveEnd [] v) = true by simp [aboveEnd])]
    simp [ih]

theorem flatMap_range'_shift {α : Type} (f : Nat → List α) :
    ∀ (n s : Nat), (List.range' (s + 1) n).flatMap f =
      (List.range' s n).flatMap (fun j => f (j + 1)) := by
  intro n
  induction n with
  | zero => intro s; rfl
  | succ n ihn =>
    intro s
    rw [List.range'_succ (s + 1) n 1, List.range'_succ s n 1,
      List.flatMap_cons, List.flatMap_cons, ihn (s + 1)]

theorem keyYield_cons_succ (k0 : NodeKey) (ks : List NodeKey) (j : Nat) :
    keyYield (k0 :: ks) (j + 1) = keyYield ks j := by
  rw [keyYield, keyYield, List.getD_cons_succ]

theorem keyYield_cons_zero (k0 : NodeKey) (ks : List NodeKey) :
    keyYield (k0 :: ks) 0 = if k0.deleted then [] else [k0.value] := by
  rw [keyYield, List.getD_cons_zero]
  rcases k0 with ⟨v, d⟩
  cases d <;> rfl

/-- The interleaving produced by `_slice` over the unbounded window equals
the live in-order contents, child by child. -/
theorem slice_flat :
    ∀ (ks : List NodeKey) (cs : List BNode), cs.length = ks.length + 1 →
    (∀ c ∈ cs, sliceF BTreeRange.dflt c =
      ((inorder c).filter (fun nk => !nk.deleted)).map NodeKey.value) →
    ((List.range' 0 ks.length).flatMap fun i =>
        (sliceAllF BTreeRange.dflt cs).getD i [] ++ keyYield ks i)
      ++ (sliceAllF BTreeRange.dflt cs).getD ks.length [] =
    ((inorderKids ks cs).filter (fun nk => !nk.deleted)).map NodeKey.value := by
  intro ks
  induction ks with
  | nil =>
    intro cs hlen hc
    rcases cs with _ | ⟨c, cs'⟩
    · simp at hlen
    · have hcs' : cs' = [] := by
        simp only [List.length_cons, List.length_nil] at hlen
        exact List.length_eq_zero.mp (by omega)
      subst hcs'
      rw [show inorderKids [] [c] = inorder c ++ inorderKids [] [] from rfl,
        show inorderKids ([] : List NodeKey) ([] : List BNode) = [] from rfl,
        List.append_nil, sliceAllF_eq_map]
      simp only [List.map_cons, List.map_nil, List.length_nil, List.getD_cons_zero]
      rw [show List.range' 0 0 = [] from rfl, List.flatMap_nil, List.nil_append]
      exact hc c (List.mem_cons_self _ _)
  | cons k0 ks' ihk =>
    intro cs hlen hc
    rcases cs with _ | ⟨c, cs'⟩
    · simp at hlen
    have hlen' : cs'.length = ks'.length + 1 := by simpa using hlen
    rw [show inorderKids (k0 :: ks') (c :: cs') =
      inorder c ++ k0 :: inorderKids ks' cs' from rfl]
    rw [sliceAllF_eq_map, List.map_cons]
    simp only [List.length_cons]
    rw [List.range'_succ 0 ks'.length 1, List.flatMap_cons, flatMap_range'_shift]
    have hfun : (fun j =>
        (sliceF BTreeRange.dflt c :: cs'.map (sliceF BTreeRange.dflt)).getD (j + 1) []
          ++ keyYield (k0 :: ks') (j + 1)) =
        (fun j => (cs'.map (sliceF BTreeRange.dflt)).getD j [] ++ keyYield ks' j) := by
      funext j
      rw [List.getD_cons_succ, keyYield_cons_succ]
    rw [hfun, List.getD_cons_succ, List.getD_cons_zero, keyYield_cons_zero]
    have ihh := ihk cs' hlen' (fun x hx => hc x (List.mem_cons_of_mem _ hx))
    rw [sliceAllF_eq_map] at ihh
    rw [List.append_assoc, ihh, List.filter_append, List.map_append,
      hc c (List.mem_cons_self _ _), List.append_assoc]
    congr 1
    rcases k0 with ⟨v0, d0⟩
    cases d0
    · simp [List.filter_cons]
    · simp [List.filter_cons]

/-- `_slice` over the unbounded range on a well-formed subtree yields
exactly the live keys of the in-order contents. -/
theorem sliceF_unbounded {w : Nat} :
    ∀ (t : BNode) (lo hi : Option Key), wfB w lo hi t = true →
    sliceF BTreeRange.dflt t =
      ((inorder t).filter (fun nk => !nk.deleted)).map NodeKey.value := by
  intro t
  induction t using BNode.strongInd with
  | _ lf ks cs rb ih =>
    intro lo hi hwf
    simp only [sliceF, BTreeRange.dflt]
    rw [bisect_left_range_nil, bisect_right_range_nil, List.length_map]
    cases lf with
    | true =>
      rw [if_pos rfl, inorder, if_pos rfl]
      rw [if_neg (show ¬(0 = ks.length ∧ 0 < ks.length) by omega)]
      simp
    | false =>
      rw [if_neg (show ¬(false = true) by simp), inorder,
        if_neg (show ¬(false = true) by simp)]
      obtain ⟨hclen, hwalk⟩ := wfB_walk hwf
      have hslice : ∀ c ∈ cs, sliceF BTreeRange.dflt c =
          ((inorder c).filter (fun nk => !nk.deleted)).map NodeKey.value := by
        intro c hcmem
        obtain ⟨j, hj, hcj⟩ := List.getElem_of_mem hcmem
        have hgd : cs.getD j (BNode.new true) = c := by
          rw [List.getD_eq_getElem _ _ hj]
          exact hcj
        have hcwf := wfKids_get cs ks lo hwalk hclen j hj
        rw [hgd] at hcwf
        exact ih c hcmem _ _ hcwf
      have := slice_flat ks cs hclen hslice
      simpa using this

/-- The walk invariant makes the interleaved in-order key sequence
strictly sorted. -/
theorem wfKids_sorted {w : Nat} :
    ∀ (ks : List NodeKey) (cs : List BNode) (lo hi : Option Key),
    cs.length = ks.length + 1 → wfKids w lo hi ks cs = true →
    (∀ c ∈ cs, sortedKeys ((inorder c).map NodeKey.value) = true) →
    (∀ k ∈ ks, k.value.length = w ∧ loLt lo k.value ∧ hiGt hi k.value) →
    sortedKeys (ks.map NodeKey.value) = true →
    sortedKeys ((inorderKids ks cs).map NodeKey.value) = true := by
  intro ks
  induction ks with
  | nil =>
    intro cs lo hi hlen hwalk hs hsep hsrt
    rcases cs with _ | ⟨c, cs'⟩
    · simp at hlen
    · have hcs' : cs' = [] := by
        simp only [List.length_cons, List.length_nil] at hlen
        exact List.length_eq_zero.mp (by omega)
      subst hcs'
      rw [show inorderKids [] [c] = inorder c ++ inorderKids [] [] from rfl,
        show inorderKids ([] : List NodeKey) ([] : List BNode) = [] from rfl,
        List.append_nil]
      exact hs c (List.mem_cons_self _ _)
  | cons k0 ks' ihk =>
    intro cs lo hi hlen hwalk hs hsep hsrt
    rcases cs with _ | ⟨c, cs'⟩
    · simp at hlen
    have hlen' : cs'.length = ks'.length + 1 := by simpa using hlen
    rw [show wfKids w lo hi (k0 :: ks') (c :: cs') =
      (wfB w lo (some k0.value) c && wfKids w (some k0.value) hi ks' cs') from rfl,
      Bool.and_eq_true] at hwalk
    obtain ⟨hcwf, hwalk'⟩ := hwalk
    obtain ⟨hsrt', hk0lt⟩ := sortedKeys_cons (by simpa using hsrt)
    have hsep' : ∀ k ∈ ks', k.value.length = w ∧
        loLt (some k0.value) k.value ∧ hiGt hi k.value := by
      intro k hkm
      refine ⟨(hsep k (List.mem_cons_of_mem _ hkm)).1, ?_,
        (hsep k (List.mem_cons_of_mem _ hkm)).2.2⟩
      intro x hx
      rw [Option.mem_some_iff] at hx
      subst hx
      exact hk0lt _ (List.mem_map.mpr ⟨k, hkm, rfl⟩)
    have htail : ∀ y ∈ (inorderKids ks' cs').map NodeKey.value,
        cmpKey k0.value y = Ordering.lt := by
      intro y hy
      obtain ⟨x, hx, rfl⟩ := List.mem_map.mp hy
      have hbetw := wfKids_inorder_betw (some k0.value) cs' ks'
        (some k0.value) (fun c' _ lo₁ hi₁ h => wf_inorder_betw c' lo₁ hi₁ h)
        hwalk' hsep' (Or.inl rfl) x hx
      exact hbetw.2.1 _ (Option.mem_some_iff.mpr rfl)
    have hleft : ∀ x ∈ (inorder c).map NodeKey.value,
        cmpKey x k0.value = Ordering.lt := by
      intro x hx
      obtain ⟨nk, hnk, rfl⟩ := List.mem_map.mp hx
      exact (wf_inorder_betw c lo (some k0.value) hcwf nk hnk).2.2 _
        (Option.mem_some_iff.mpr rfl)
    rw [show inorderKids (k0 :: ks') (c :: cs') =
      inorder c ++ k0 :: inorderKids ks' cs' from rfl]
    rw [List.map_append, sortedKeys_iff_pairwise, List.pairwise_append]
    refine ⟨?_, ?_, ?_⟩
    · rw [← sortedKeys_iff_pairwise]
      exact hs c (List.mem_cons_self _ _)
    · rw [List.map_cons, List.pairwise_cons]
      refine ⟨htail, ?_⟩
      rw [← sortedKeys_iff_pairwise]
      exact ihk cs' (some k0.value) hi hlen' hwalk'
        (fun c' hc' => hs c' (List.mem_cons_of_mem _ hc')) hsep' hsrt'
    · intro x hx y hy
      rw [List.map_cons, List.mem_cons] at hy
      rcases hy with rfl | hy
      · exact hleft x hx
      · exact cmpKey_lt_trans (hleft x hx) (htail y hy)

/-- The in-order key sequence of a well-formed subtree is strictly
sorted. -/
theorem wf_inorder_sorted {w : Nat} :
    ∀ (t : BNode) (lo hi : Option Key), wfB w lo hi t = true →
    sortedKeys ((inorder t).map NodeKey.value) = true := by
  intro t
  induction t using BNode.strongInd with
  | _ lf ks cs rb ih =>
    intro lo hi hwf
    have hsort := wfB_sorted hwf
    have hall := wfB_all hwf
    cases lf with
    | true =>
      rw [inorder, if_pos rfl]
      exact hsort
    | false =>
      obtain ⟨hclen, hwalk⟩ := wfB_walk hwf
      rw [inorder, if_neg (show ¬(false = true) by simp)]
      apply wfKids_sorted ks cs lo hi hclen hwalk ?_ ?_ hsort
      · intro c hcmem
        obtain ⟨j, hj, hcj⟩ := List.getElem_of_mem hcmem
        have hgd : cs.getD j (BNode.new true) = c := by
          rw [List.getD_eq_getElem _ _ hj]
          exact hcj
        have hcwf := wfKids_get cs ks lo hwalk hclen j hj
        rw [hgd] at hcwf
        exact ih c hcmem _ _ hcwf
      · intro k hkm
        exact hall k hkm

/-- **C3.** `BTreeFile::insert` is idempotent on present keys: for a key
already stored in a well-formed tree, insertion clears its tombstones
(slot-wise `markLive`), after which the key is yielded by the full-range
stream; when every slot holding the key is already live, the tree contents
are unchanged.  Concretely: after insert `5`, delete range `[5, 5]`, the
full stream is empty; after re-inserting `5` it is `[5]`. -/
theorem claim_C3 {w m : Nat} (hm : 2 ≤ m) {k : Key} (hk : k.length = w)
    {t : BNode} (hwf : wfT w t = true)
    (hmem : k ∈ (inorder t).map NodeKey.value) :
    inorder (insertBT m t k) = markLive k (inorder t) ∧
    k ∈ streamBT (insertBT m t k) BTreeRange.dflt false ∧
    ((∀ nk ∈ inorder t, nk.value = k → nk.deleted = false) →
      inorder (insertBT m t k) = inorder t) ∧
    streamBT (deleteBT (insertBT 2 (BNode.new true) [5]) (BTreeRange.ofKey [5]))
      BTreeRange.dflt false = [] ∧
    streamBT (insertBT 2 (deleteBT (insertBT 2 (BNode.new true) [5])
      (BTreeRange.ofKey [5])) [5]) BTreeRange.dflt false = [[5]] := by
  obtain ⟨hwfr, hcont⟩ := insertBT_content hm hk hwf
  rw [if_pos hmem] at hcont
  refine ⟨hcont, ?_, ?_, by decide, by decide⟩
  · rw [wfT] at hwfr
    rw [streamBT, if_neg (show ¬(false = true) by simp),
      sliceF_unbounded _ none none hwfr]
    obtain ⟨x, hx, hvx⟩ := List.mem_map.mp hmem
    have hkin : (⟨k, false⟩ : NodeKey) ∈ inorder (insertBT m t k) := by
      rw [hcont]
      exact List.mem_map.mpr ⟨x, hx, by rw [if_pos hvx]⟩
    exact List.mem_map.mpr ⟨⟨k, false⟩, List.mem_filter.mpr ⟨hkin, rfl⟩, rfl⟩
  · intro hlive
    rw [hcont]
    apply map_id_of
    intro nk hnk
    by_cases hv : nk.value = k
    · rcases nk with ⟨v, d⟩
      have hd := hlive _ hnk hv
      simp only at hv hd
      subst hv
      subst hd
      rw [if_pos rfl]
    · rw [if_neg hv]

theorem claim_C3_witness :
    inorder (insertBT 2 (BNode.mk true [⟨[5], true⟩] [] false) [5]) =
      markLive [5] (inorder (BNode.mk true [⟨[5], true⟩] [] false)) ∧
    [5] ∈ streamBT (insertBT 2 (BNode.mk true [⟨[5], true⟩] [] false) [5])
      BTreeRange.dflt false ∧
    ((∀ nk ∈ inorder (BNode.mk true [⟨[5], true⟩] [] false), nk.value = [5] →
        nk.deleted = false) →
      inorder (insertBT 2 (BNode.mk true [⟨[5], true⟩] [] false) [5]) =
        inorder (BNode.mk true [⟨[5], true⟩] [] false)) ∧
    streamBT (deleteBT (insertBT 2 (BNode.new true) [5]) (BTreeRange.ofKey [5]))
      BTreeRange.dflt false = [] ∧
    streamBT (insertBT 2 (deleteBT (insertBT 2 (BNode.new true) [5])
      (BTreeRange.ofKey [5])) [5]) BTreeRange.dflt false = [[5]] :=
  claim_C3 (w := 1) (m := 2) (k := [5])
    (t := BNode.mk true [⟨[5], true⟩] [] false)
    (by decide) (by decide) (by decide) (by decide)

theorem markLive_values (k : Key) (l : List NodeKey) :
    (markLive k l).map NodeKey.value = l.map NodeKey.value := by
  induction l with
  | nil => rfl
  | cons x rest ih =>
    rw [show markLive k (x :: rest) =
      (if x.value = k then ⟨k, false⟩ else x) :: markLive k rest from rfl]
    rw [List.map_cons, List.map_cons, ih]
    congr 1
    by_cases hv : x.value = k
    · rw [if_pos hv]
      exact hv.symm
    · rw [if_neg hv]

/-- Folding `insert` over a key sequence: the invariant and all-live state
are preserved and the stored key set grows by exactly the inserted keys. -/
theorem insert_fold {w m : Nat} (hm : 2 ≤ m) :
    ∀ (S : List Key) (t : BNode), wfT w t = true →
    (∀ k ∈ S, k.length = w) →
    (∀ nk ∈ inorder t, nk.deleted = false) →
    wfT w (S.foldl (insertBT m) t) = true ∧
    (∀ nk ∈ inorder (S.foldl (insertBT m) t), nk.deleted = false) ∧
    (∀ k, k ∈ (inorder (S.foldl (insertBT m) t)).map NodeKey.value ↔
      (k ∈ (inorder t).map NodeKey.value ∨ k ∈ S)) := by
  intro S
  induction S with
  | nil =>
    intro t hwf hS hlive
    refine ⟨hwf, hlive, fun k => ?_⟩
    simp
  | cons k0 S' ih =>
    intro t hwf hS hlive
    simp only [List.foldl_cons]
    have hk0 : k0.length = w := hS k0 (List.mem_cons_self _ _)
    obtain ⟨hwf1, hcont1⟩ := insertBT_content hm hk0 hwf
    have hble : bisect_left ((inorder t).map NodeKey.value) k0 ≤
        (inorder t).length := by
      have := bisect_left_len_le ((inorder t).map NodeKey.value) k0
      simpa using this
    have hlive1 : ∀ nk ∈ inorder (insertBT m t k0), nk.deleted = false := by
      intro nk hnk
      rw [hcont1] at hnk
      by_cases hmem : k0 ∈ (inorder t).map NodeKey.value
      · rw [if_pos hmem] at hnk
        obtain ⟨x, hx, hfx⟩ := List.mem_map.mp hnk
        by_cases hv : x.value = k0
        · rw [if_pos hv] at hfx
          rw [← hfx]
        · rw [if_neg hv] at hfx
          rw [← hfx]
          exact hlive x hx
      · rw [if_neg hmem, insKeyIn_eq_insertIdx] at hnk
        rcases (List.mem_insertIdx hble).mp hnk with rfl | hnk'
        · rfl
        · exact hlive _ hnk'
    have hvals1 : ∀ k, k ∈ (inorder (insertBT m t k0)).map NodeKey.value ↔
        (k ∈ (inorder t).map NodeKey.value ∨ k = k0) := by
      intro k
      rw [hcont1]
      by_cases hmem : k0 ∈ (inorder t).map NodeKey.value
      · rw [if_pos hmem, markLive_values]
        constructor
        · exact Or.inl
        · rintro (h | rfl)
          · exact h
          · exact hmem
      · rw [if_neg hmem, insKeyIn_eq_insertIdx,
          map_insertIdx_comm _ _ _ _ hble,
          List.mem_insertIdx (by simpa using hble)]
        exact or_comm
    obtain ⟨q1, q2, q3⟩ := ih (insertBT m t k0) hwf1
      (fun x hx => hS x (List.mem_cons_of_mem _ hx)) hlive1
    refine ⟨q1, q2, fun k => ?_⟩
    rw [q3 k, hvals1 k, List.mem_cons]
    tauto

/-- **C4.** Inserting any sequence of keys of the schema's width into a
fresh `BTreeFile` and streaming the unbounded range forward yields a
strictly collator-sorted sequence whose members are exactly the inserted
keys (hence the distinct keys, in order).  Concretely, after inserting
`[3, 1, 4, 1, 5, 9, 2, 6]` into a single-integer-column index the forward
stream is `[1, 2, 3, 4, 5, 6, 9]`, the reverse stream is
`[9, 6, 5, 4, 3, 2, 1]`, and `len` over the inclusive range `[2, 6]`
is 5. -/
theorem claim_C4 {w m : Nat} (hm : 2 ≤ m) (S : List Key)
    (hS : ∀ k ∈ S, k.length = w) :
    sortedKeys (streamBT (S.foldl (insertBT m) (BNode.new true))
      BTreeRange.dflt false) = true ∧
    (∀ k, k ∈ streamBT (S.foldl (insertBT m) (BNode.new true))
      BTreeRange.dflt false ↔ k ∈ S) ∧
    streamBT (([[3], [1], [4], [1], [5], [9], [2], [6]] : List Key).foldl
      (insertBT 28) (BNode.new true)) BTreeRange.dflt false =
      [[1], [2], [3], [4], [5], [6], [9]] ∧
    streamBT (([[3], [1], [4], [1], [5], [9], [2], [6]] : List Key).foldl
      (insertBT 28) (BNode.new true)) BTreeRange.dflt true =
      [[9], [6], [5], [4], [3], [2], [1]] ∧
    lenBT (([[3], [1], [4], [1], [5], [9], [2], [6]] : List Key).foldl
      (insertBT 28) (BNode.new true))
      ⟨[Bound.include_ 2], [Bound.include_ 6]⟩ = 5 := by
  have hwfe : wfT w (BNode.new true) = true := rfl
  have hempty : inorder (BNode.new true) = [] := rfl
  obtain ⟨q1, q2, q3⟩ := insert_fold hm S (BNode.new true) hwfe hS
    (by intro nk h; rw [hempty] at h; simp at h)
  rw [wfT] at q1
  refine ⟨?_, ?_, by decide, by decide, by decide⟩
  · rw [streamBT, if_neg (show ¬(false = true) by simp),
      sliceF_unbounded _ none none q1]
    apply sortedKeys_sublist _ (wf_inorder_sorted _ none none q1)
    exact (List.filter_sublist _).map _
  · intro k
    rw [streamBT, if_neg (show ¬(false = true) by simp),
      sliceF_unbounded _ none none q1]
    constructor
    · intro h
      obtain ⟨x, hx, rfl⟩ := List.mem_map.mp h
      have hx' := (List.mem_filter.mp hx).1
      rcases (q3 x.value).mp (List.mem_map.mpr ⟨x, hx', rfl⟩) with h2 | h2
      · rw [hempty] at h2
        simp at h2
      · exact h2
    · intro hkS
      obtain ⟨x, hx, hvx⟩ := List.mem_map.mp ((q3 k).mpr (Or.inr hkS))
      refine List.mem_map.mpr ⟨x, List.mem_filter.mpr ⟨hx, ?_⟩, hvx⟩
      rw [q2 x hx]
      rfl

theorem claim_C4_witness :
    sortedKeys (streamBT ((([[3], [1]] : List Key)).foldl (insertBT 2)
      (BNode.new true)) BTreeRange.dflt false) = true ∧
    (∀ k, k ∈ streamBT ((([[3], [1]] : List Key)).foldl (insertBT 2)
      (BNode.new true)) BTreeRange.dflt false ↔ k ∈ ([[3], [1]] : List Key)) ∧
    streamBT (([[3], [1], [4], [1], [5], [9], [2], [6]] : List Key).foldl
      (insertBT 28) (BNode.new true)) BTreeRange.dflt false =
      [[1], [2], [3], [4], [5], [6], [9]] ∧
    streamBT (([[3], [1], [4], [1], [5], [9], [2], [6]] : List Key).foldl
      (insertBT 28) (BNode.new true)) BTreeRange.dflt true =
      [[9], [6], [5], [4], [3], [2], [1]] ∧
    lenBT (([[3], [1], [4], [1], [5], [9], [2], [6]] : List Key).foldl
      (insertBT 28) (BNode.new true))
      ⟨[Bound.include_ 2], [Bound.include_ 6]⟩ = 5 :=
  claim_C4 (w := 1) (m := 2) (by decide) [[3], [1]] (by decide)

/-- C9 counterexample: `BTreeFile::insert` performs no key validation —
the body goes straight from the root block to `_insert` — so inserting the
two-column key `[1, 2]` into a one-column index stores it and streams it
back, with no `BadRequest` and a changed tree, even though `validate_key`
rejects the key. -/
theorem claim_C9_counterexample :
    validate_key 1 [1, 2] = Except.error TCError.badRequest ∧
    inorder (insertBT 2 (BNode.new true) [1, 2]) ≠ inorder (BNode.new true) ∧
    [1, 2] ∈ (inorder (insertBT 2 (BNode.new true) [1, 2])).map NodeKey.value ∧
    streamBT (insertBT 2 (BNode.new true) [1, 2]) BTreeRange.dflt false =
      [[1, 2]] := by
  refine ⟨rfl, by decide, by decide, by decide⟩

/-- **C9 (amended).** Key validation lives in `insert_from` (and
`try_insert_from`), not in `insert`: a key whose width does not conform to
the schema makes the `insert_from` step fail with `BadRequest` and leaves
the tree unchanged, while a conforming key is inserted with an `Ok`
result; `BTreeFile::insert` itself stores its key unvalidated. -/
theorem claim_C9_amended {w m : Nat} {k : Key} (hk : ¬k.length = w)
    (t : BNode) (r : Except TCError Unit) :
    insert_from_step m w (t, r) k = (t, Except.error TCError.badRequest) ∧
    insert_from m w t [k] = (t, Except.error TCError.badRequest) ∧
    (∀ k', k'.length = w →
      insert_from_step m w (t, r) k' = (insertBT m t k', Except.ok ())) := by
  have h2 : insert_from_step m w (t, Except.ok ()) k =
      (t, Except.error TCError.badRequest) := by
    simp only [insert_from_step, validate_key, if_neg hk]
  refine ⟨by simp only [insert_from_step, validate_key, if_neg hk], ?_, ?_⟩
  · rw [insert_from, List.foldl_cons, h2, List.foldl_nil]
  · intro k' hk'
    simp only [insert_from_step, validate_key, if_pos hk']

/-- Witness for the amended C9 at a one-column index and the two-column
key `[1, 2]`. -/
theorem claim_C9_amended_witness :
    insert_from_step 2 1 (BNode.new true, Except.ok ()) [1, 2] =
      (BNode.new true, Except.error TCError.badRequest) ∧
    insert_from 2 1 (BNode.new true) [[1, 2]] =
      (BNode.new true, Except.error TCError.badRequest) ∧
    (∀ k', k'.length = 1 →
      insert_from_step 2 1 (BNode.new true, Except.ok ()) k' =
        (insertBT 2 (BNode.new true) k', Except.ok ())) :=
  claim_C9_amended (w := 1) (m := 2) (k := [1, 2]) (by decide)
    (BNode.new true) (Except.ok ())

theorem mem_inorderKids :
    ∀ (ks : List NodeKey) (cs : List BNode) (nk : NodeKey),
    nk ∈ inorderKids ks cs → nk ∈ ks ∨ ∃ c ∈ cs, nk ∈ inorder c := by
  intro ks
  induction ks with
  | nil =>
    intro cs nk h
    induction cs with
    | nil => exact Or.inl h
    | cons c cs' ihc =>
      rw [show inorderKids [] (c :: cs') = inorder c ++ inorderKids [] cs'
        from rfl] at h
      rcases List.mem_append.mp h with h | h
      · exact Or.inr ⟨c, List.mem_cons_self _ _, h⟩
      · rcases ihc h with h2 | ⟨c', hc', h3⟩
        · exact Or.inl h2
        · exact Or.inr ⟨c', List.mem_cons_of_mem _ hc', h3⟩
  | cons k0 ks' ih =>
    intro cs nk h
    rcases cs with _ | ⟨c, cs'⟩
    · exact Or.inl h
    · rw [show inorderKids (k0 :: ks') (c :: cs') =
        inorder c ++ k0 :: inorderKids ks' cs' from rfl] at h
      rcases List.mem_append.mp h with h | h
      · exact Or.inr ⟨c, List.mem_cons_self _ _, h⟩
      · rcases List.mem_cons.mp h with rfl | h
        · exact Or.inl (List.mem_cons_self _ _)
        · rcases ih cs' nk h with h2 | ⟨c', hc', h3⟩
          · exact Or.inl (List.mem_cons_of_mem _ h2)
          · exact Or.inr ⟨c', List.mem_cons_of_mem _ hc', h3⟩

/-- A `[l, r)` window cut of a list equals the filter by any predicate that
holds exactly on the window positions. -/
theorem take_drop_filter {p : NodeKey → Bool} :
    ∀ (ks : List NodeKey) (l r : Nat),
    (∀ i, i < ks.length →
      (p (ks.getD i (NodeKey.ofKey [])) = true ↔ (l ≤ i ∧ i < r))) →
    (ks.drop l).take (r - l) = ks.filter p := by
  intro ks
  induction ks with
  | nil => intro l r _; simp
  | cons x rest ih =>
    intro l r h
    have h0 := h 0 (by simp)
    rw [List.getD_cons_zero] at h0
    cases l with
    | zero =>
      cases r with
      | zero =>
        rw [List.drop_zero, Nat.sub_zero, List.take_zero]
        symm
        rw [List.filter_eq_nil_iff]
        intro a ha hpa
        obtain ⟨i, hi, hai⟩ := List.getElem_of_mem ha
        have h2 := h i hi
        rw [List.getD_eq_getElem _ _ hi, hai] at h2
        have := h2.mp hpa
        omega
      | succ r' =>
        have hpx : p x = true := h0.mpr ⟨Nat.zero_le _, Nat.succ_pos _⟩
        rw [List.drop_zero, Nat.sub_zero, List.take_succ_cons,
          List.filter_cons, if_pos hpx]
        congr 1
        have hres := ih 0 r' ?_
        · rw [List.drop_zero, Nat.sub_zero] at hres
          exact hres
        · intro i hi
          have h2 := h (i + 1) (by simp only [List.length_cons]; omega)
          rw [List.getD_cons_succ] at h2
          rw [h2]
          omega
    | succ l' =>
      have hpx : ¬p x = true := fun hb => absurd (h0.mp hb) (by omega)
      rw [List.drop_succ_cons, List.filter_cons, if_neg hpx,
        show r - (l' + 1) = (r - 1) - l' by omega]
      apply ih l' (r - 1)
      intro i hi
      have h2 := h (i + 1) (by simp only [List.length_cons]; omega)
      rw [List.getD_cons_succ] at h2
      rw [h2]
      omega

/-- Windowed interleaving: `_slice` visits children `[l, r]` and yields
separators in `[l, r)`, which under the window characterisation equals the
filter of the interleaved contents by range membership. -/
theorem slice_flat_win (rg : BTreeRange) :
    ∀ (ks : List NodeKey) (cs : List BNode) (l r : Nat),
    cs.length = ks.length + 1 →
    r ≤ ks.length →
    (∀ c ∈ cs, sliceF rg c = ((inorder c).filter
      (fun nk => !nk.deleted && containsKey rg nk.value)).map NodeKey.value) →
    (∀ i, i < ks.length →
      (containsKey rg ((ks.getD i (NodeKey.ofKey [])).value) = true ↔
        (l ≤ i ∧ i < r))) →
    (∀ j, j ≤ ks.length → j < l →
      ∀ nk ∈ inorder (cs.getD j (BNode.new true)),
        containsKey rg nk.value = false) →
    (∀ j, j ≤ ks.length → r < j →
      ∀ nk ∈ inorder (cs.getD j (BNode.new true)),
        containsKey rg nk.value = false) →
    ((List.range' l (r - l)).flatMap fun i =>
        (sliceAllF rg cs).getD i [] ++ keyYield ks i) ++
      (sliceAllF rg cs).getD r [] =
    ((inorderKids ks cs).filter
      (fun nk => !nk.deleted && containsKey rg nk.value)).map NodeKey.value := by
  intro ks
  induction ks with
  | nil =>
    intro cs l r hclen hr hc hchar hbelow habove
    rcases cs with _ | ⟨c, cs'⟩
    · simp at hclen
    have hcs' : cs' = [] := by
      simp only [List.length_cons, List.length_nil] at hclen
      exact List.length_eq_zero.mp (by omega)
    subst hcs'
    have hr0 : r = 0 := by
      simp only [List.length_nil] at hr
      omega
    subst hr0
    rw [Nat.zero_sub, show List.range' l 0 = ([] : List Nat) from rfl,
      List.flatMap_nil, List.nil_append, sliceAllF_eq_map]
    simp only [List.map_cons, List.map_nil, List.getD_cons_zero]
    rw [show inorderKids [] [c] = inorder c ++ inorderKids [] [] from rfl,
      show inorderKids ([] : List NodeKey) ([] : List BNode) = [] from rfl,
      List.append_nil]
    exact hc c (List.mem_cons_self _ _)
  | cons k0 ks' ihk =>
    intro cs l r hclen hr hc hchar hbelow habove
    rcases cs with _ | ⟨c, cs'⟩
    · simp at hclen
    have hlen' : cs'.length = ks'.length + 1 := by simpa using hclen
    have hchar0 := hchar 0 (by simp)
    rw [List.getD_cons_zero] at hchar0
    rw [show inorderKids (k0 :: ks') (c :: cs') =
      inorder c ++ k0 :: inorderKids ks' cs' from rfl]
    rw [sliceAllF_eq_map, List.map_cons]
    cases r with
    | zero =>
      rw [Nat.zero_sub, show List.range' l 0 = ([] : List Nat) from rfl,
        List.flatMap_nil, List.nil_append, List.getD_cons_zero]
      rw [List.filter_append, List.map_append, hc c (List.mem_cons_self _ _)]
      have hrest : List.filter (fun nk => !nk.deleted && containsKey rg nk.value)
          (k0 :: inorderKids ks' cs') = [] := by
        rw [List.filter_eq_nil_iff]
        intro a ha hpa
        rw [Bool.and_eq_true] at hpa
        rcases List.mem_cons.mp ha with rfl | ha'
        · have := hchar0.mp hpa.2
          omega
        · rcases mem_inorderKids ks' cs' a ha' with hks | ⟨c', hc', hin⟩
          · obtain ⟨i, hi, hai⟩ := List.getElem_of_mem hks
            have h2 := hchar (i + 1) (by simp only [List.length_cons]; omega)
            rw [List.getD_cons_succ, List.getD_eq_getElem _ _ hi, hai] at h2
            have := h2.mp hpa.2
            omega
          · obtain ⟨j, hj, hcj⟩ := List.getElem_of_mem hc'
            have hmem : a ∈ inorder ((c :: cs').getD (j + 1) (BNode.new true)) := by
              rw [List.getD_cons_succ, List.getD_eq_getElem _ _ hj, hcj]
              exact hin
            have h2 := habove (j + 1) (by simp only [List.length_cons]; omega)
              (by omega) a hmem
            rw [h2] at hpa
            exact absurd hpa.2 (by simp)
      rw [hrest, List.map_nil, List.append_nil]
    | succ r' =>
      cases l with
      | zero =>
        have hpk0 : containsKey rg k0.value = true := hchar0.mpr (by omega)
        rw [Nat.sub_zero, List.range'_succ 0 r' 1, List.flatMap_cons,
          flatMap_range'_shift]
        have hfun : (fun j => (sliceF rg c :: cs'.map (sliceF rg)).getD (j + 1) []
            ++ keyYield (k0 :: ks') (j + 1)) =
            (fun j => (cs'.map (sliceF rg)).getD j [] ++ keyYield ks' j) := by
          funext j
          rw [List.getD_cons_succ, keyYield_cons_succ]
        rw [hfun, List.getD_cons_succ, List.getD_cons_zero, keyYield_cons_zero]
        have ihh := ihk cs' 0 r' hlen' (by simp only [List.length_cons] at hr; omega)
          (fun x hx => hc x (List.mem_cons_of_mem _ hx)) ?_ ?_ ?_
        · rw [sliceAllF_eq_map] at ihh
          rw [show (r' - 0) = r' from rfl] at ihh
          rw [List.append_assoc, ihh, List.filter_append, List.map_append,
            hc c (List.mem_cons_self _ _), List.append_assoc]
          congr 1
          rcases k0 with ⟨v0, d0⟩
          cases d0
          · simp [List.filter_cons, hpk0]
          · simp [List.filter_cons, hpk0]
        · intro i hi
          have h2 := hchar (i + 1) (by simp only [List.length_cons]; omega)
          rw [List.getD_cons_succ] at h2
          rw [h2]
          omega
        · intro j _ hj _ _
          omega
        · intro j hjle hjr nk hnk
          refine habove (j + 1) (by simp only [List.length_cons]; omega)
            (by omega) nk ?_
          rw [List.getD_cons_succ]
          exact hnk
      | succ l' =>
        have hck0 : containsKey rg k0.value = false := by
          rcases hb : containsKey rg k0.value
          · rfl
          · have := hchar0.mp hb
            omega
        have hc0 : ∀ nk ∈ inorder c, containsKey rg nk.value = false := by
          intro nk hnk
          refine hbelow 0 (by omega) (by omega) nk ?_
          rw [List.getD_cons_zero]
          exact hnk
        have hfilc : ((inorder c).filter
            (fun nk => !nk.deleted && containsKey rg nk.value)) = [] := by
          rw [List.filter_eq_nil_iff]
          intro a ha hpa
          rw [Bool.and_eq_true, hc0 a ha] at hpa
          exact absurd hpa.2 (by simp)
        rw [Nat.succ_sub_succ, flatMap_range'_shift]
        have hfun : (fun j => (sliceF rg c :: cs'.map (sliceF rg)).getD (j + 1) []
            ++ keyYield (k0 :: ks') (j + 1)) =
            (fun j => (cs'.map (sliceF rg)).getD j [] ++ keyYield ks' j) := by
          funext j
          rw [List.getD_cons_succ, keyYield_cons_succ]
        rw [hfun, List.getD_cons_succ]
        have ihh := ihk cs' l' r' hlen' (by simp only [List.length_cons] at hr; omega)
          (fun x hx => hc x (List.mem_cons_of_mem _ hx)) ?_ ?_ ?_
        · rw [sliceAllF_eq_map] at ihh
          rw [ihh, List.filter_append, List.map_append, hfilc, List.map_nil,
            List.nil_append, List.filter_cons,
            if_neg (show ¬((!k0.deleted && containsKey rg k0.value) = true) by
              rw [hck0]; simp)]
        · intro i hi
          have h2 := hchar (i + 1) (by simp only [List.length_cons]; omega)
          rw [List.getD_cons_succ] at h2
          rw [h2]
          omega
        · intro j hjle hjl nk hnk
          refine hbelow (j + 1) (by simp only [List.length_cons]; omega)
            (by omega) nk ?_
          rw [List.getD_cons_succ]
          exact hnk
        · intro j hjle hjr nk hnk
          refine habove (j + 1) (by simp only [List.length_cons]; omega)
            (by omega) nk ?_
          rw [List.getD_cons_succ]
          exact hnk

/-- `_slice` on a well-formed subtree yields exactly the live keys whose
values lie in the range, in order. -/
theorem sliceF_range {w : Nat} (rg : BTreeRange) :
    ∀ (t : BNode) (lo hi : Option Key), wfB w lo hi t = true →
    sliceF rg t = ((inorder t).filter
      (fun nk => !nk.deleted && containsKey rg nk.value)).map NodeKey.value := by
  intro t
  induction t using BNode.strongInd with
  | _ lf ks cs rb ih =>
    intro lo hi hwf
    have hsort := wfB_sorted hwf
    have hall := wfB_all hwf
    have hwids : ∀ k ∈ ks, k.value.length = w := fun k hk => (hall k hk).1
    have hwmap : ∀ v ∈ ks.map NodeKey.value, v.length = w := by
      intro v hv
      obtain ⟨k, hk, rfl⟩ := List.mem_map.mp hv
      exact hwids k hk
    have hchar : ∀ i, i < ks.length →
        (containsKey rg ((ks.getD i (NodeKey.ofKey [])).value) = true ↔
          (bisect_left_range rg.start (ks.map NodeKey.value) ≤ i ∧
           i < bisect_right_range rg.stop (ks.map NodeKey.value))) :=
      fun i hi => (window_iff_contains hsort hwids hi).symm
    simp only [sliceF]
    cases lf with
    | true =>
      rw [if_pos rfl, inorder, if_pos rfl]
      by_cases hspec : bisect_left_range rg.start (ks.map NodeKey.value) =
          bisect_right_range rg.stop (ks.map NodeKey.value) ∧
          bisect_left_range rg.start (ks.map NodeKey.value) < ks.length
      · rw [if_pos hspec]
        obtain ⟨heq, hlt⟩ := hspec
        rcases hgd : ks.getD (bisect_left_range rg.start (ks.map NodeKey.value))
          (NodeKey.ofKey []) with ⟨v, d⟩
        have hcv : containsKey rg v = false := by
          have h2 := hchar _ hlt
          rw [hgd] at h2
          rcases hb : containsKey rg v
          · rfl
          · have := h2.mp hb
            omega
        simp only [hgd]
        rw [if_neg (show ¬((!d && containsKey rg v) = true) by rw [hcv]; simp)]
        have hfil : ks.filter (fun nk => !nk.deleted && containsKey rg nk.value)
            = [] := by
          rw [List.filter_eq_nil_iff]
          intro a ha hpa
          rw [Bool.and_eq_true] at hpa
          obtain ⟨i, hi, hai⟩ := List.getElem_of_mem ha
          have h2 := hchar i hi
          rw [List.getD_eq_getElem _ _ hi, hai] at h2
          have := h2.mp hpa.2
          omega
        rw [hfil, List.map_nil]
      · rw [if_neg hspec]
        have hwin := take_drop_filter (p := fun nk => containsKey rg nk.value) ks
          (bisect_left_range rg.start (ks.map NodeKey.value))
          (bisect_right_range rg.stop (ks.map NodeKey.value)) hchar
        rw [hwin, List.filter_filter]
    | false =>
      rw [if_neg (show ¬(false = true) by simp), inorder,
        if_neg (show ¬(false = true) by simp)]
      obtain ⟨hclen, hwalk⟩ := wfB_walk hwf
      have hr : bisect_right_range rg.stop (ks.map NodeKey.value) ≤ ks.length := by
        have := takeWhile_len_le (fun k => !aboveEnd rg.stop k) (ks.map NodeKey.value)
        simp only [bisect_right_range]
        simpa using this
      have hslice : ∀ c ∈ cs, sliceF rg c = ((inorder c).filter
          (fun nk => !nk.deleted && containsKey rg nk.value)).map NodeKey.value := by
        intro c hcmem
        obtain ⟨j, hj, hcj⟩ := List.getElem_of_mem hcmem
        have hgd : cs.getD j (BNode.new true) = c := by
          rw [List.getD_eq_getElem _ _ hj]
          exact hcj
        have hcwf := wfKids_get cs ks lo hwalk hclen j hj
        rw [hgd] at hcwf
        exact ih c hcmem _ _ hcwf
      have hbelow : ∀ j, j ≤ ks.length →
          j < bisect_left_range rg.start (ks.map NodeKey.value) →
          ∀ nk ∈ inorder (cs.getD j (BNode.new true)),
            containsKey rg nk.value = false := by
        intro j hjle hjl nk hnk
        have hlb : bisect_left_range rg.start (ks.map NodeKey.value) ≤
            ks.length := by
          have := takeWhile_len_le (fun k => belowStart rg.start k)
            (ks.map NodeKey.value)
          simp only [bisect_left_range]
          simpa using this
        have hjk : j < ks.length := by omega
        have hcwf := wfKids_get cs ks lo hwalk hclen j (by omega)
        rw [if_pos hjk] at hcwf
        have hsep : belowStart rg.start ((ks.getD j (NodeKey.ofKey [])).value)
            = true := by
          have := window_below hjl
          rwa [vals_getD] at this
        exact inorder_out_below rg hcwf (hwids _ (getD_mem _ hjk)) hsep nk hnk
      have habove : ∀ j, j ≤ ks.length →
          bisect_right_range rg.stop (ks.map NodeKey.value) < j →
          ∀ nk ∈ inorder (cs.getD j (BNode.new true)),
            containsKey rg nk.value = false := by
        intro j hjle hjr nk hnk
        have hj0 : ¬j = 0 := by omega
        have hcwf := wfKids_get cs ks lo hwalk hclen j (by omega)
        rw [if_neg hj0] at hcwf
        have hsep : aboveEnd rg.stop ((ks.getD (j - 1) (NodeKey.ofKey [])).value)
            = true := by
          have := window_above (w := w) hsort hwmap
            (show bisect_right_range rg.stop (ks.map NodeKey.value) ≤ j - 1
              by omega)
            (show j - 1 < (ks.map NodeKey.value).length
              by simp only [List.length_map]; omega)
          rwa [vals_getD] at this
        exact inorder_out_above rg hcwf (hwids _ (getD_mem _ (by omega))) hsep nk hnk
      exact slice_flat_win rg ks cs _ _ hclen hr hslice hchar hbelow habove

theorem containsKey_dflt (v : Key) : containsKey BTreeRange.dflt v = true := by
  simp [containsKey, BTreeRange.dflt, belowStart, aboveEnd]

/-- A key range built from a key tuple (`From<Key> for BTreeRange`)
contains exactly the tuples extending it: both bounds are the tuple's
values, inclusive, and the collator compares only the shared prefix. -/
theorem containsKey_ofKey_take :
    ∀ (k r : Key), k.length ≤ r.length →
    (containsKey (BTreeRange.ofKey k) r = true ↔ r.take k.length = k) := by
  intro k
  induction k with
  | nil =>
    intro r _
    constructor
    · intro _
      rfl
    · intro _
      simp [containsKey, BTreeRange.ofKey, belowStart, aboveEnd]
  | cons x k' ih =>
    intro r hlen
    cases r with
    | nil => simp at hlen
    | cons y r' =>
      have hlen' : k'.length ≤ r'.length := by simpa using hlen
      have hb : belowStart ((x :: k').map Bound.include_) (y :: r') =
          (match compare y x with
           | Ordering.lt => true
           | Ordering.gt => false
           | Ordering.eq => belowStart (k'.map Bound.include_) r') := by
        simp [belowStart]
      have ha : aboveEnd ((x :: k').map Bound.include_) (y :: r') =
          (match compare y x with
           | Ordering.gt => true
           | Ordering.lt => false
           | Ordering.eq => aboveEnd (k'.map Bound.include_) r') := by
        simp [aboveEnd]
      rw [show containsKey (BTreeRange.ofKey (x :: k')) (y :: r') =
        (!belowStart ((x :: k').map Bound.include_) (y :: r') &&
         !aboveEnd ((x :: k').map Bound.include_) (y :: r')) from rfl]
      rw [hb, ha]
      rcases hcmp : compare y x with _ | _ | _
      · have hne : y ≠ x := ne_of_lt (compare_lt_iff_lt.mp hcmp)
        constructor
        · intro hcon
          simp at hcon
        · intro htake
          rw [List.length_cons, List.take_succ_cons] at htake
          injection htake with h1 _
          exact absurd h1 hne
      · have hyx : y = x := compare_eq_iff_eq.mp hcmp
        subst hyx
        have hiff := ih r' hlen'
        rw [show containsKey (BTreeRange.ofKey k') r' =
          (!belowStart (k'.map Bound.include_) r' &&
           !aboveEnd (k'.map Bound.include_) r') from rfl] at hiff
        dsimp only
        rw [hiff, List.length_cons, List.take_succ_cons]
        constructor
        · intro h
          rw [h]
        · intro h
          have h2 := congrArg List.tail h
          simpa using h2
      · have hne : y ≠ x := ne_of_gt (compare_gt_iff_gt.mp hcmp)
        constructor
        · intro hcon
          simp at hcon
        · intro htake
          rw [List.length_cons, List.take_succ_cons] at htake
          injection htake with h1 _
          exact absurd h1 hne

/-- The live key values of a slot list. -/
def liveL (l : List NodeKey) : List Key :=
  (l.filter (fun nk => !nk.deleted)).map NodeKey.value

/-- The live key values of a subtree, in order (what the full-range
stream yields). -/
def liveVals (t : BNode) : List Key := liveL (inorder t)

theorem liveL_append (A B : List NodeKey) :
    liveL (A ++ B) = liveL A ++ liveL B := by
  simp [liveL]

theorem liveL_cons_live (k : Key) (B : List NodeKey) :
    liveL (⟨k, false⟩ :: B) = k :: liveL B := rfl

theorem liveL_cons_dead (k : Key) (B : List NodeKey) :
    liveL (⟨k, true⟩ :: B) = liveL B := rfl

theorem filter_live_comm (q : Key → Bool) :
    ∀ (l : List NodeKey),
    ((l.filter (fun nk => !nk.deleted && q nk.value)).map NodeKey.value) =
      (liveL l).filter q := by
  intro l
  induction l with
  | nil => rfl
  | cons x rest ih =>
    simp only [liveL] at ih ⊢
    rcases x with ⟨xv, xd⟩
    cases xd <;> by_cases hq : q xv = true <;>
      simp [List.filter_cons, hq, ih]

theorem sortedKeys_nodup {l : List Key} (h : sortedKeys l = true) : l.Nodup := by
  rw [sortedKeys_iff_pairwise] at h
  exact h.imp fun hab hcon => by
    subst hcon
    rw [cmpKey_self] at hab
    simp at hab

theorem slot_unique {l : List NodeKey} (hnd : (l.map NodeKey.value).Nodup)
    {a b : NodeKey} (ha : a ∈ l) (hb : b ∈ l) (hv : a.value = b.value) : a = b := by
  obtain ⟨i, hi, hia⟩ := List.getElem_of_mem ha
  obtain ⟨j, hj, hjb⟩ := List.getElem_of_mem hb
  have hmi : i < (l.map NodeKey.value).length := by simpa using hi
  have hmj : j < (l.map NodeKey.value).length := by simpa using hj
  have hmv : (l.map NodeKey.value)[i] = (l.map NodeKey.value)[j] := by
    simp only [List.getElem_map]
    rw [hia, hjb, hv]
  have hij := hnd.getElem_inj_iff.mp hmv
  subst hij
  rw [← hia, ← hjb]

/-- The marking pass of `_delete` removes exactly the in-range values from
the live list. -/
theorem mark_filter_live (rg : BTreeRange) :
    ∀ (l : List NodeKey),
    liveL (l.map (fun nk => if containsKey rg nk.value then
        (⟨nk.value, true⟩ : NodeKey) else nk)) =
      (liveL l).filter (fun v => !containsKey rg v) := by
  intro l
  induction l with
  | nil => rfl
  | cons x rest ih =>
    simp only [liveL] at ih ⊢
    rcases x with ⟨xv, xd⟩
    cases xd <;> by_cases hc : containsKey rg xv = true <;>
      simp [List.filter_cons, hc, ih]

/-- Slot-wise effect of `_delete` on the live key list: the in-range
values are removed. -/
theorem liveVals_delete {w : Nat} (rg : BTreeRange) {t : BNode}
    {lo hi : Option Key} (hwf : wfB w lo hi t = true) :
    liveVals (delA rg t) = (liveVals t).filter (fun v => !containsKey rg v) := by
  rw [liveVals, liveVals, del_content rg t lo hi hwf]
  exact mark_filter_live rg (inorder t)

/-- Multiset effect of `insert` on the live keys: an already-live key
changes nothing, otherwise the key is added (possibly by clearing its
tombstone). -/
theorem liveM_insert {w m : Nat} (hm : 2 ≤ m) {k : Key} (hk : k.length = w)
    {t : BNode} (hwf : wfT w t = true) :
    (↑(liveVals (insertBT m t k)) : Multiset Key) =
      (if k ∈ liveVals t then (↑(liveVals t) : Multiset Key)
       else k ::ₘ (↑(liveVals t) : Multiset Key)) := by
  obtain ⟨hwf2, hcont⟩ := insertBT_content hm hk hwf
  have hnd : ((inorder t).map NodeKey.value).Nodup := by
    rw [wfT] at hwf
    exact sortedKeys_nodup (wf_inorder_sorted t none none hwf)
  by_cases hmem : k ∈ (inorder t).map NodeKey.value
  · rw [if_pos hmem] at hcont
    by_cases hlive : k ∈ liveVals t
    · rw [if_pos hlive]
      rw [liveVals, liveL] at hlive
      have hid : markLive k (inorder t) = inorder t := by
        apply map_id_of
        intro nk hnk
        by_cases hv : nk.value = k
        · obtain ⟨x, hxm, hxv⟩ := List.mem_map.mp hlive
          have hx2 := List.mem_filter.mp hxm
          have hxe : nk = x := slot_unique hnd hnk hx2.1 (by rw [hv, hxv])
          have hdel : nk.deleted = false := by
            rw [hxe]
            have := hx2.2
            simpa using this
          rw [if_pos hv]
          rcases nk with ⟨nv, nd⟩
          simp only at hv hdel
          rw [hv, hdel]
        · rw [if_neg hv]
      rw [liveVals, hcont, hid]
      rfl
    · rw [if_neg hlive]
      obtain ⟨x, hxm, hxv⟩ := List.mem_map.mp hmem
      have hxd : x.deleted = true := by
        rcases hb : x.deleted
        · exfalso
          apply hlive
          show k ∈ liveVals t
          rw [liveVals, liveL]
          exact List.mem_map.mpr ⟨x,
            List.mem_filter.mpr ⟨hxm, by rw [hb]; rfl⟩, hxv⟩
        · rfl
      have hxeq : x = ⟨k, true⟩ := by
        rcases x with ⟨xv, xd⟩
        simp only at hxv hxd
        rw [hxv, hxd]
      rw [hxeq] at hxm
      obtain ⟨pre, post, hsplit⟩ := List.append_of_mem hxm
      have hndm : ((pre.map NodeKey.value) ++ k :: (post.map NodeKey.value)).Nodup := by
        rw [hsplit] at hnd
        simpa using hnd
      have hknotin := (List.nodup_cons.mp (List.nodup_middle.mp hndm)).1
      have hkpre : ∀ y ∈ pre, y.value ≠ k := by
        intro y hy hcon
        exact hknotin (by
          rw [← hcon]
          exact List.mem_append.mpr (Or.inl (List.mem_map.mpr ⟨y, hy, rfl⟩)))
      have hkpost : ∀ y ∈ post, y.value ≠ k := by
        intro y hy hcon
        exact hknotin (by
          rw [← hcon]
          exact List.mem_append.mpr (Or.inr (List.mem_map.mpr ⟨y, hy, rfl⟩)))
      have hmark : markLive k (inorder t) = pre ++ ⟨k, false⟩ :: post := by
        rw [hsplit, markLive_append]
        rw [show markLive k ((⟨k, true⟩ : NodeKey) :: post) =
          (⟨k, false⟩ : NodeKey) :: markLive k post from by
            rw [show markLive k ((⟨k, true⟩ : NodeKey) :: post) =
              (if (⟨k, true⟩ : NodeKey).value = k then (⟨k, false⟩ : NodeKey)
                else ⟨k, true⟩) :: markLive k post from rfl]
            rw [if_pos rfl]]
        rw [markLive_id hkpre, markLive_id hkpost]
      rw [liveVals, hcont, hmark, liveL_append, liveL_cons_live]
      rw [show liveVals t = liveL pre ++ liveL post from by
        rw [liveVals, hsplit, liveL_append, liveL_cons_dead]]
      simp
  · rw [if_neg hmem] at hcont
    have hlive : ¬ k ∈ liveVals t := by
      intro h
      apply hmem
      rw [liveVals, liveL] at h
      obtain ⟨x, hx, hv⟩ := List.mem_map.mp h
      exact List.mem_map.mpr ⟨x, (List.mem_filter.mp hx).1, hv⟩
    rw [if_neg hlive]
    have hble : bisect_left ((inorder t).map NodeKey.value) k ≤
        (inorder t).length := by
      have := bisect_left_len_le ((inorder t).map NodeKey.value) k
      simpa using this
    rw [liveVals, hcont, insKeyIn_eq_insertIdx,
      insertIdx_decomp _ _ _ hble, liveL_append, liveL_cons_live]
    rw [show liveVals t = liveL ((inorder t).take
        (bisect_left ((inorder t).map NodeKey.value) k)) ++
        liveL ((inorder t).drop
        (bisect_left ((inorder t).map NodeKey.value) k)) from by
      rw [← liveL_append, List.take_append_drop]
      rfl]
    simp

theorem liveVals_width {w : Nat} {t : BNode} (hwf : wfT w t = true) :
    ∀ r ∈ liveVals t, r.length = w := by
  intro r hr
  rw [liveVals, liveL] at hr
  obtain ⟨x, hx, hv⟩ := List.mem_map.mp hr
  rw [wfT] at hwf
  have := wf_inorder_betw t none none hwf x (List.mem_filter.mp hx).1
  rw [← hv]
  exact this.1

theorem liveVals_nodup {w : Nat} {t : BNode} (hwf : wfT w t = true) :
    (liveVals t).Nodup := by
  rw [wfT] at hwf
  have hnd : ((inorder t).map NodeKey.value).Nodup :=
    sortedKeys_nodup (wf_inorder_sorted t none none hwf)
  exact hnd.sublist ((List.filter_sublist _).map _)

/-- The forward stream over any range on a well-formed tree is the live
key list restricted to the range. -/
theorem stream_range {w : Nat} {t : BNode} (hwf : wfT w t = true)
    (rg : BTreeRange) :
    streamBT t rg false = (liveVals t).filter (fun v => containsKey rg v) := by
  rw [streamBT, if_neg (show ¬(false = true) by simp)]
  rw [wfT] at hwf
  rw [sliceF_range rg t none none hwf]
  exact filter_live_comm _ (inorder t)

/-! ### The table: a primary index plus auxiliary indexes

`TableIndex` from `table/index.rs`.  A column is identified by its
position in the primary tuple (key columns then value columns); an
auxiliary index is its column-position list (its schema's columns in
order) together with its B-tree over the projected tuples.  A validated
`Row` (column-name → value map over exactly the primary columns) is its
full primary tuple; the prototype's schema helpers (`values_from_row`,
`row_from_key_values`, `validate_key`, `validate_row`) are not under
`src/` and are modelled from the spec §4.G: `values_from_row` on a
validated row is the positional projection, `row_from_key_values`
concatenates key and values checking the widths. -/

structure TableIndex where
  order : Nat
  pkLen : Nat
  width : Nat
  primary : BNode
  aux : List (List Nat × BNode)

/-- `IndexSchema::values_from_row` on a validated full row: the
positional projection onto the index's columns. -/
def projRow (proj : List Nat) (r : Key) : Key := proj.map fun i => r.getD i 0

/-- `TableIndex::get` (= `Index::get` on the primary): validate the key
width, then take the first element of the forward stream over the key's
prefix range. -/
def tblGet (T : TableIndex) (key : Key) : Except TCError (Option Key) :=
  if key.length = T.pkLen then
    Except.ok ((streamBT T.primary (BTreeRange.ofKey key) false).head?)
  else Except.error TCError.badRequest

/-- `TableIndex::delete_row` after row validation: delete the row's
projection from every auxiliary and the full tuple from the primary. -/
def tblDeleteRowRaw (T : TableIndex) (row : Key) : TableIndex :=
  TableIndex.mk T.order T.pkLen T.width
    (deleteBT T.primary (BTreeRange.ofKey row))
    (T.aux.map fun p =>
      (p.1, deleteBT p.2 (BTreeRange.ofKey (projRow p.1 row))))

/-- `TableIndex::delete_row`: `validate_row` (the row must assign every
primary column, with its column's type) then the raw deletion. -/
def tblDeleteRow (T : TableIndex) (row : Key) :
    TableIndex × Except TCError Unit :=
  if row.length = T.width then (tblDeleteRowRaw T row, Except.ok ())
  else (T, Except.error TCError.badRequest)

/-- The insertion fan-out of `upsert`: insert the row into the primary
and its projection into every auxiliary. -/
def tblInsertRowRaw (T : TableIndex) (row : Key) : TableIndex :=
  TableIndex.mk T.order T.pkLen T.width
    (insertBT T.order T.primary row)
    (T.aux.map fun p => (p.1, insertBT T.order p.2 (projRow p.1 row)))

/-- `TableIndex::upsert`: `get` the existing row under the key (this
validates the key); delete it from every index when present; then build
the new row from key and values (`row_from_key_values`, which checks both
widths) and insert it into every index. -/
def tblUpsert (T : TableIndex) (key values : Key) :
    TableIndex × Except TCError Unit :=
  match tblGet T key with
  | Except.error e => (T, Except.error e)
  | Except.ok optrow =>
    let T1 := match optrow with
      | some row => tblDeleteRowRaw T row
      | none => T
    if key.length = T.pkLen ∧ key.length + values.length = T.width then
      (tblInsertRowRaw T1 (key ++ values), Except.ok ())
    else (T1, Except.error TCError.badRequest)

/-- `TableIndex::insert`: fail with `BadRequest` when `get` finds a row
under the key, otherwise defer to `upsert` (which performs the same
`get` again). -/
def tblInsert (T : TableIndex) (key values : Key) :
    TableIndex × Except TCError Unit :=
  match tblGet T key with
  | Except.error e => (T, Except.error e)
  | Except.ok (some _) => (T, Except.error TCError.badRequest)
  | Except.ok none => tblUpsert T key values

/-- `TableIndex::delete`: delete the unbounded range from the primary
and from every auxiliary. -/
def tblDelete (T : TableIndex) : TableIndex :=
  TableIndex.mk T.order T.pkLen T.width
    (deleteBT T.primary BTreeRange.dflt)
    (T.aux.map fun p => (p.1, deleteBT p.2 BTreeRange.dflt))

/-- Apply a partial update (column position ↦ new value) to a full row
tuple (`row.extend(update)` on a validated row). -/
def patchRow (upd : List (Nat × Int)) (r : Key) : Key :=
  r.mapIdx fun i v =>
    match upd.lookup i with
    | some wv => wv
    | none => v

/-- One `update_row` call: delete the old row, then `insert` the patched
row split into key and values (`key_values_from_row`). -/
def update_row_step (upd : List (Nat × Int))
    (acc : TableIndex × Except TCError Unit) (row : Key) :
    TableIndex × Except TCError Unit :=
  match acc with
  | (T, Except.error e) => (T, Except.error e)
  | (T, Except.ok _) =>
    match tblDeleteRow T row with
    | (T1, Except.ok _) =>
      tblInsert T1 ((patchRow upd row).take T.pkLen)
        ((patchRow upd row).drop T.pkLen)
    | (_, Except.error e) => (T, Except.error e)

/-- `TableIndex::update`: reject updates that touch a primary-key column,
then apply `update_row` to every row of the primary.  The source consumes
the row stream lazily (buffering 2) while mutating; the embedding
snapshots the full-range stream first and folds `update_row` over it. -/
def tblUpdate (T : TableIndex) (upd : List (Nat × Int)) :
    TableIndex × Except TCError Unit :=
  if upd.any (fun p => p.1 < T.pkLen) then (T, Except.error TCError.badRequest)
  else (streamBT T.primary BTreeRange.dflt false).foldl (update_row_step upd)
    (T, Except.ok ())

theorem tblGet_ok_some {T : TableIndex} (hwf : wfT T.width T.primary = true)
    (hpw : T.pkLen ≤ T.width)
    {key r : Key} (h : tblGet T key = Except.ok (some r)) :
    r ∈ liveVals T.primary ∧ r.take key.length = key ∧ key.length = T.pkLen := by
  rw [tblGet] at h
  by_cases hk : key.length = T.pkLen
  · rw [if_pos hk] at h
    injection h with h2
    have hmem : r ∈ streamBT T.primary (BTreeRange.ofKey key) false :=
      List.mem_of_mem_head? (by simp [h2])
    rw [stream_range hwf] at hmem
    have h3 := List.mem_filter.mp hmem
    refine ⟨h3.1, ?_, hk⟩
    have hwid : r.length = T.width := liveVals_width hwf r h3.1
    exact (containsKey_ofKey_take key r (by omega)).mp h3.2
  · rw [if_neg hk] at h
    exact absurd h (by simp)

theorem tblGet_ok_none {T : TableIndex} (hwf : wfT T.width T.primary = true)
    (hpw : T.pkLen ≤ T.width)
    {key : Key} (h : tblGet T key = Except.ok none) :
    key.length = T.pkLen ∧
    ∀ r ∈ liveVals T.primary, ¬ r.take key.length = key := by
  rw [tblGet] at h
  by_cases hk : key.length = T.pkLen
  · rw [if_pos hk] at h
    injection h with h2
    have hnil : streamBT T.primary (BTreeRange.ofKey key) false = [] :=
      List.head?_eq_none_iff.mp h2
    rw [stream_range hwf] at hnil
    refine ⟨hk, ?_⟩
    intro r hr hcon
    have hmem : r ∈ ([] : List Key) := by
      rw [← hnil]
      refine List.mem_filter.mpr ⟨hr, ?_⟩
      have hwid := liveVals_width hwf r hr
      exact (containsKey_ofKey_take key r (by omega)).mpr hcon
    simp at hmem
  · rw [if_neg hk] at h
    exact absurd h (by simp)

/-- **C7.** `TableIndex::insert` fails with `BadRequest` when `get` finds
a row under the key — a live primary row whose key columns equal the key —
and leaves every index unchanged in that case; when `get` finds none (so
no live primary row has that key) `insert` is exactly `upsert`. -/
theorem claim_C7 (T : TableIndex) (hwf : wfT T.width T.primary = true)
    (hpw : T.pkLen ≤ T.width) (key values : Key) :
    (∀ r, tblGet T key = Except.ok (some r) →
      tblInsert T key values = (T, Except.error TCError.badRequest) ∧
      r ∈ liveVals T.primary ∧ r.take T.pkLen = key) ∧
    (tblGet T key = Except.ok none →
      tblInsert T key values = tblUpsert T key values ∧
      ∀ r ∈ liveVals T.primary, ¬ r.take T.pkLen = key) := by
  constructor
  · intro r hget
    obtain ⟨h1, h2, h3⟩ := tblGet_ok_some hwf hpw hget
    refine ⟨by simp only [tblInsert, hget], h1, ?_⟩
    rw [← h3]
    exact h2
  · intro hget
    obtain ⟨h1, h2⟩ := tblGet_ok_none hwf hpw hget
    refine ⟨by simp only [tblInsert, hget], ?_⟩
    rw [← h1]
    exact h2

theorem claim_C7_witness :
    (∀ r, tblGet (TableIndex.mk 2 1 2 (BNode.mk true [⟨[1, 5], false⟩] [] false)
        [([0], BNode.mk true [⟨[1], false⟩] [] false)]) [1] =
        Except.ok (some r) →
      tblInsert (TableIndex.mk 2 1 2 (BNode.mk true [⟨[1, 5], false⟩] [] false)
        [([0], BNode.mk true [⟨[1], false⟩] [] false)]) [1] [9] =
        (TableIndex.mk 2 1 2 (BNode.mk true [⟨[1, 5], false⟩] [] false)
          [([0], BNode.mk true [⟨[1], false⟩] [] false)],
         Except.error TCError.badRequest) ∧
      r ∈ liveVals (TableIndex.mk 2 1 2
        (BNode.mk true [⟨[1, 5], false⟩] [] false)
        [([0], BNode.mk true [⟨[1], false⟩] [] false)]).primary ∧
      r.take 1 = [1]) ∧
    (tblGet (TableIndex.mk 2 1 2 (BNode.mk true [⟨[1, 5], false⟩] [] false)
        [([0], BNode.mk true [⟨[1], false⟩] [] false)]) [1] = Except.ok none →
      tblInsert (TableIndex.mk 2 1 2 (BNode.mk true [⟨[1, 5], false⟩] [] false)
        [([0], BNode.mk true [⟨[1], false⟩] [] false)]) [1] [9] =
        tblUpsert (TableIndex.mk 2 1 2 (BNode.mk true [⟨[1, 5], false⟩] [] false)
          [([0], BNode.mk true [⟨[1], false⟩] [] false)]) [1] [9] ∧
      ∀ r ∈ liveVals (TableIndex.mk 2 1 2
        (BNode.mk true [⟨[1, 5], false⟩] [] false)
        [([0], BNode.mk true [⟨[1], false⟩] [] false)]).primary,
        ¬ r.take 1 = [1]) :=
  claim_C7 (TableIndex.mk 2 1 2 (BNode.mk true [⟨[1, 5], false⟩] [] false)
    [([0], BNode.mk true [⟨[1], false⟩] [] false)]) (by decide) (by decide) [1] [9]

/-! ### The primary/auxiliary synchronisation invariant -/

/-- No two live primary rows share their key columns. -/
@[reducible] def pkUniq (T : TableIndex) : Prop :=
  ∀ r1 ∈ liveVals T.primary, ∀ r2 ∈ liveVals T.primary,
    r1.take T.pkLen = r2.take T.pkLen → r1 = r2

/-- Structural schema facts: every auxiliary's columns are primary
positions and include every primary-key column (`create_index` keys every
auxiliary by the requested columns plus the remaining key columns). -/
@[reducible] def auxSchemaOK (T : TableIndex) : Prop :=
  ∀ p ∈ T.aux, (∀ i ∈ p.1, i < T.width) ∧ ∀ j, j < T.pkLen → j ∈ p.1

/-- The synchronisation invariant: each auxiliary's live rows are, with
multiplicity, exactly the projections of the primary's live rows. -/
@[reducible] def tblSync (T : TableIndex) : Prop :=
  ∀ p ∈ T.aux, (↑(liveVals p.2) : Multiset Key) =
    Multiset.map (projRow p.1) (↑(liveVals T.primary) : Multiset Key)

/-- The full table invariant: well-formed trees of the right widths, the
schema facts, key uniqueness and synchronisation. -/
@[reducible] def tblInv (T : TableIndex) : Prop :=
  2 ≤ T.order ∧ T.pkLen ≤ T.width ∧
  wfT T.width T.primary = true ∧
  (∀ p ∈ T.aux, wfT p.1.length p.2 = true) ∧
  auxSchemaOK T ∧ pkUniq T ∧ tblSync T

theorem projRow_length (proj : List Nat) (r : Key) :
    (projRow proj r).length = proj.length := List.length_map _ _

theorem containsKey_ofKey_eq {a v : Key} (hlen : v.length = a.length) :
    containsKey (BTreeRange.ofKey a) v = true ↔ v = a := by
  rw [containsKey_ofKey_take a v (by omega), ← hlen, List.take_length]

theorem take_eq_of_proj_eq {proj : List Nat} {r1 r2 : Key} {n : Nat}
    (hpk : ∀ j, j < n → j ∈ proj)
    (h : projRow proj r1 = projRow proj r2)
    (h1 : n ≤ r1.length) (h2 : n ≤ r2.length) :
    r1.take n = r2.take n := by
  apply List.ext_getElem
  · rw [List.length_take, List.length_take]
    omega
  · intro j hj1 hj2
    have hjn : j < n := by
      rw [List.length_take] at hj1
      omega
    obtain ⟨idx, hidx, hpj⟩ := List.getElem_of_mem (hpk j hjn)
    have hcomp := congrArg (fun l => l.getD idx (0 : Int)) h
    simp only [projRow] at hcomp
    rw [List.getD_eq_getElem _ _ (by simpa using hidx),
      List.getD_eq_getElem _ _ (by simpa using hidx),
      List.getElem_map, List.getElem_map, hpj] at hcomp
    rw [List.getElem_take, List.getElem_take]
    rw [List.getD_eq_getElem _ _ (by omega), List.getD_eq_getElem _ _ (by omega)]
      at hcomp
    exact hcomp

theorem lookup_none {upd : List (Nat × Int)} {i : Nat}
    (h : ∀ q ∈ upd, ¬q.1 = i) : upd.lookup i = none := by
  induction upd with
  | nil => rfl
  | cons q rest ih =>
    rcases q with ⟨qk, qv⟩
    have hbeq : (i == qk) = false := beq_eq_false_iff_ne.mpr
      fun hb => h (qk, qv) (List.mem_cons_self _ _) hb.symm
    rw [show List.lookup i ((qk, qv) :: rest) =
      (match i == qk with
       | true => some qv
       | false => List.lookup i rest) from rfl]
    rw [hbeq]
    exact ih fun q hq => h q (List.mem_cons_of_mem _ hq)

theorem patchRow_length (upd : List (Nat × Int)) (r : Key) :
    (patchRow upd r).length = r.length := by
  rw [patchRow, List.length_mapIdx]

theorem patchRow_take {upd : List (Nat × Int)} {n : Nat}
    (hupd : ∀ q ∈ upd, ¬q.1 < n) (r : Key) :
    (patchRow upd r).take n = r.take n := by
  apply List.ext_getElem
  · rw [List.length_take, List.length_take, patchRow_length]
  · intro j hj1 hj2
    have hjn : j < n := by
      rw [List.length_take, patchRow_length] at hj1
      omega
    have hjr : j < r.length := by
      rw [List.length_take, patchRow_length] at hj1
      omega
    rw [List.getElem_take, List.getElem_take]
    simp only [patchRow, List.getElem_mapIdx]
    rw [lookup_none (fun q hq hc => hupd q hq (by omega))]

theorem liveVals_delete_dflt {w : Nat} {t : BNode} (hwf : wfT w t = true) :
    liveVals (deleteBT t BTreeRange.dflt) = [] := by
  rw [show deleteBT t BTreeRange.dflt = delA BTreeRange.dflt t from rfl,
    liveVals_delete BTreeRange.dflt (show wfB w none none t = true from hwf)]
  rw [List.filter_eq_nil_iff]
  intro a _ hpa
  rw [containsKey_dflt] at hpa
  simp at hpa

/-- `TableIndex::delete` preserves the invariant: every index becomes
empty. -/
theorem tblInv_delete {T : TableIndex} (h : tblInv T) : tblInv (tblDelete T) := by
  obtain ⟨ho, hpw, hwP, hwA, hsch, huq, hsync⟩ := h
  have hlP : liveVals (tblDelete T).primary = [] := liveVals_delete_dflt hwP
  refine ⟨ho, hpw, ?_, ?_, ?_, ?_, ?_⟩
  · show wfT T.width (deleteBT T.primary BTreeRange.dflt) = true
    rw [wfT]
    exact del_wf BTreeRange.dflt T.primary none none hwP
  · intro p hp
    obtain ⟨q, hq, rfl⟩ := List.mem_map.mp hp
    show wfT q.1.length (deleteBT q.2 BTreeRange.dflt) = true
    rw [wfT]
    exact del_wf BTreeRange.dflt q.2 none none (hwA q hq)
  · intro p hp
    obtain ⟨q, hq, rfl⟩ := List.mem_map.mp hp
    exact hsch q hq
  · intro r1 h1 r2 h2 _
    rw [hlP] at h1
    simp at h1
  · intro p hp
    obtain ⟨q, hq, rfl⟩ := List.mem_map.mp hp
    show (↑(liveVals (deleteBT q.2 BTreeRange.dflt)) : Multiset Key) = _
    rw [liveVals_delete_dflt (hwA q hq), hlP]
    simp

/-- `delete_row` of a live primary row preserves the invariant; the
primary loses exactly that row. -/
theorem tblInv_deleteRowRaw {T : TableIndex} (h : tblInv T) {row : Key}
    (hrow : row ∈ liveVals T.primary) :
    tblInv (tblDeleteRowRaw T row) ∧
    (∀ v, v ∈ liveVals (tblDeleteRowRaw T row).primary ↔
      (v ∈ liveVals T.primary ∧ ¬v = row)) := by
  obtain ⟨ho, hpw, hwP, hwA, hsch, huq, hsync⟩ := h
  have hroww : row.length = T.width := liveVals_width hwP row hrow
  have hlP : liveVals (tblDeleteRowRaw T row).primary =
      (liveVals T.primary).filter
        (fun v => !containsKey (BTreeRange.ofKey row) v) := by
    show liveVals (deleteBT T.primary (BTreeRange.ofKey row)) = _
    exact liveVals_delete (BTreeRange.ofKey row) hwP
  have hchar : ∀ v ∈ liveVals T.primary,
      (containsKey (BTreeRange.ofKey row) v = true ↔ v = row) := by
    intro v hv
    exact containsKey_ofKey_eq (by rw [liveVals_width hwP v hv, hroww])
  have hmemP : ∀ v, v ∈ liveVals (tblDeleteRowRaw T row).primary ↔
      (v ∈ liveVals T.primary ∧ ¬v = row) := by
    intro v
    rw [hlP, List.mem_filter]
    constructor
    · rintro ⟨hv, hc⟩
      refine ⟨hv, fun hcon => ?_⟩
      have := (hchar v hv).mpr hcon
      rw [this] at hc
      simp at hc
    · rintro ⟨hv, hne⟩
      refine ⟨hv, ?_⟩
      rcases hb : containsKey (BTreeRange.ofKey row) v
      · rfl
      · exact absurd ((hchar v hv).mp hb) hne
  refine ⟨⟨ho, hpw, ?_, ?_, ?_, ?_, ?_⟩, hmemP⟩
  · show wfT T.width (deleteBT T.primary (BTreeRange.ofKey row)) = true
    rw [wfT]
    exact del_wf (BTreeRange.ofKey row) T.primary none none hwP
  · intro p hp
    obtain ⟨q, hq, rfl⟩ := List.mem_map.mp hp
    show wfT q.1.length (deleteBT q.2 (BTreeRange.ofKey (projRow q.1 row))) = true
    rw [wfT]
    exact del_wf _ q.2 none none (hwA q hq)
  · intro p hp
    obtain ⟨q, hq, rfl⟩ := List.mem_map.mp hp
    exact hsch q hq
  · intro r1 h1 r2 h2 htake
    exact huq r1 ((hmemP r1).mp h1).1 r2 ((hmemP r2).mp h2).1 htake
  · intro p hp
    obtain ⟨q, hq, rfl⟩ := List.mem_map.mp hp
    show (↑(liveVals (deleteBT q.2
      (BTreeRange.ofKey (projRow q.1 row)))) : Multiset Key) = _
    rw [show deleteBT q.2 (BTreeRange.ofKey (projRow q.1 row)) =
      delA (BTreeRange.ofKey (projRow q.1 row)) q.2 from rfl]
    rw [liveVals_delete _ (hwA q hq)]
    rw [show (↑((liveVals q.2).filter
        (fun v => !containsKey (BTreeRange.ofKey (projRow q.1 row)) v)) :
        Multiset Key) =
      Multiset.filter
        (fun v => (!containsKey (BTreeRange.ofKey (projRow q.1 row)) v) = true)
        (↑(liveVals q.2) : Multiset Key) from by simp [Multiset.filter_coe]]
    rw [hsync q hq, Multiset.filter_map]
    show _ = Multiset.map (projRow q.1) (↑(liveVals (tblDeleteRowRaw T row).primary))
    rw [hlP]
    rw [show (↑((liveVals T.primary).filter
        (fun v => !containsKey (BTreeRange.ofKey row) v)) : Multiset Key) =
      Multiset.filter
        (fun v => (!containsKey (BTreeRange.ofKey row) v) = true)
        (↑(liveVals T.primary) : Multiset Key) from by simp [Multiset.filter_coe]]
    congr 1
    apply Multiset.filter_congr
    intro v hv
    rw [Multiset.mem_coe] at hv
    have hvw : v.length = T.width := liveVals_width hwP v hv
    have hiff : projRow q.1 v = projRow q.1 row ↔ v = row := by
      constructor
      · intro hpe
        apply huq v hv row hrow
        exact take_eq_of_proj_eq (hsch q hq).2 hpe (by omega) (by omega)
      · intro hvr
        rw [hvr]
    show ((!containsKey (BTreeRange.ofKey (projRow q.1 row)) (projRow q.1 v))
        = true) ↔ _
    constructor
    · intro h1
      rcases hb : containsKey (BTreeRange.ofKey row) v
      · rfl
      · exfalso
        have hvrow := (hchar v hv).mp hb
        rw [hvrow] at h1
        rw [(containsKey_ofKey_eq rfl).mpr rfl] at h1
        simp at h1
    · intro h1
      rcases hb : containsKey (BTreeRange.ofKey (projRow q.1 row)) (projRow q.1 v)
      · rfl
      · exfalso
        have hpe := (containsKey_ofKey_eq
          (by rw [projRow_length, projRow_length])).mp hb
        have hvrow := hiff.mp hpe
        have := (hchar v hv).mpr hvrow
        rw [this] at h1
        simp at h1

/-- The insertion fan-out of `upsert` preserves the invariant when no
live primary row shares the new row's key columns: the row joins the
primary and its projections join each auxiliary. -/
theorem tblInv_insertRowRaw {T : TableIndex} (h : tblInv T) {row : Key}
    (hroww : row.length = T.width)
    (hfresh : ∀ r ∈ liveVals T.primary, ¬r.take T.pkLen = row.take T.pkLen) :
    tblInv (tblInsertRowRaw T row) ∧
    (↑(liveVals (tblInsertRowRaw T row).primary) : Multiset Key) =
      row ::ₘ ↑(liveVals T.primary) := by
  obtain ⟨ho, hpw, hwP, hwA, hsch, huq, hsync⟩ := h
  have hrownotin : ¬row ∈ liveVals T.primary := fun hc => hfresh row hc rfl
  have hMP : (↑(liveVals (tblInsertRowRaw T row).primary) : Multiset Key) =
      row ::ₘ ↑(liveVals T.primary) := by
    show (↑(liveVals (insertBT T.order T.primary row)) : Multiset Key) = _
    rw [liveM_insert ho hroww hwP, if_neg hrownotin]
  have hwP' : wfT T.width (tblInsertRowRaw T row).primary = true := by
    show wfT T.width (insertBT T.order T.primary row) = true
    exact (insertBT_content ho hroww hwP).1
  have hmem : ∀ v, v ∈ liveVals (tblInsertRowRaw T row).primary ↔
      (v = row ∨ v ∈ liveVals T.primary) := by
    intro v
    rw [← Multiset.mem_coe, hMP, Multiset.mem_cons, Multiset.mem_coe]
  refine ⟨⟨ho, hpw, hwP', ?_, ?_, ?_, ?_⟩, hMP⟩
  · intro p hp
    obtain ⟨q, hq, rfl⟩ := List.mem_map.mp hp
    show wfT q.1.length (insertBT T.order q.2 (projRow q.1 row)) = true
    exact (insertBT_content ho (projRow_length q.1 row) (hwA q hq)).1
  · intro p hp
    obtain ⟨q, hq, rfl⟩ := List.mem_map.mp hp
    exact hsch q hq
  · intro r1 h1 r2 h2 htake
    rcases (hmem r1).mp h1 with rfl | h1'
    · rcases (hmem r2).mp h2 with rfl | h2'
      · rfl
      · exact absurd htake.symm (hfresh r2 h2')
    · rcases (hmem r2).mp h2 with rfl | h2'
      · exact absurd htake (hfresh r1 h1')
      · exact huq r1 h1' r2 h2' htake
  · intro p hp
    obtain ⟨q, hq, rfl⟩ := List.mem_map.mp hp
    show (↑(liveVals (insertBT T.order q.2 (projRow q.1 row))) : Multiset Key) = _
    rw [liveM_insert ho (projRow_length q.1 row) (hwA q hq)]
    have hprojfresh : ¬projRow q.1 row ∈ liveVals q.2 := by
      intro hc
      rw [← Multiset.mem_coe, hsync q hq] at hc
      obtain ⟨v, hvm, hpe⟩ := Multiset.mem_map.mp hc
      rw [Multiset.mem_coe] at hvm
      have hvw := liveVals_width hwP v hvm
      have := take_eq_of_proj_eq (hsch q hq).2 hpe (by omega) (by omega)
      exact hfresh v hvm this
    rw [if_neg hprojfresh]
    show _ = Multiset.map (projRow q.1)
      (↑(liveVals (tblInsertRowRaw T row).primary) : Multiset Key)
    rw [hMP, Multiset.map_cons, hsync q hq]

/-- `TableIndex::upsert` preserves the invariant. -/
theorem tblInv_upsert {T : TableIndex} (h : tblInv T) (key values : Key) :
    tblInv (tblUpsert T key values).1 := by
  obtain ⟨ho, hpw, hwP, hwA, hsch, huq, hsync⟩ := h
  rcases hget : tblGet T key with e | optrow
  · simp only [tblUpsert, hget]
    exact ⟨ho, hpw, hwP, hwA, hsch, huq, hsync⟩
  · rcases optrow with _ | r
    · simp only [tblUpsert, hget]
      by_cases hcond : key.length = T.pkLen ∧ key.length + values.length = T.width
      · rw [if_pos hcond]
        show tblInv (tblInsertRowRaw T (key ++ values))
        obtain ⟨hk1, hnone⟩ := tblGet_ok_none hwP hpw hget
        refine (tblInv_insertRowRaw ⟨ho, hpw, hwP, hwA, hsch, huq, hsync⟩
          (by rw [List.length_append]; omega) ?_).1
        intro r hr hcon
        apply hnone r hr
        rw [← hk1] at hcon
        rw [List.take_left] at hcon
        exact hcon
      · rw [if_neg hcond]
        exact ⟨ho, hpw, hwP, hwA, hsch, huq, hsync⟩
    · simp only [tblUpsert, hget]
      obtain ⟨hrlive, hrtake, hk1⟩ := tblGet_ok_some hwP hpw hget
      obtain ⟨hinv1, hmem1⟩ := tblInv_deleteRowRaw
        ⟨ho, hpw, hwP, hwA, hsch, huq, hsync⟩ hrlive
      by_cases hcond : key.length = T.pkLen ∧ key.length + values.length = T.width
      · rw [if_pos hcond]
        show tblInv (tblInsertRowRaw (tblDeleteRowRaw T r) (key ++ values))
        refine (tblInv_insertRowRaw hinv1
          (show (key ++ values).length = T.width by
            rw [List.length_append]; omega)
          (show ∀ v ∈ liveVals (tblDeleteRowRaw T r).primary,
            ¬v.take T.pkLen = (key ++ values).take T.pkLen from ?_)).1
        intro v hv hcon
        have hv2 := (hmem1 v).mp hv
        have hkeq : (key ++ values).take T.pkLen = key := by
          rw [← hk1]
          exact List.take_left key values
        rw [hkeq] at hcon
        have hrk : r.take T.pkLen = key := by
          rw [← hk1]
          exact hrtake
        exact hv2.2 (huq v hv2.1 r hrlive (by rw [hcon, hrk]))
      · rw [if_neg hcond]
        exact hinv1

/-- `TableIndex::insert` preserves the invariant. -/
theorem tblInv_insert {T : TableIndex} (h : tblInv T) (key values : Key) :
    tblInv (tblInsert T key values).1 := by
  rcases hget : tblGet T key with e | optrow
  · simp only [tblInsert, hget]
    exact h
  · rcases optrow with _ | r
    · simp only [tblInsert, hget]
      exact tblInv_upsert h key values
    · simp only [tblInsert, hget]
      exact h

/-- `delete_row` with a validated row preserves the invariant when the
row is live in the primary (as in every internal call). -/
theorem tblInv_deleteRow {T : TableIndex} (h : tblInv T) {row : Key}
    (hrow : row ∈ liveVals T.primary) :
    tblInv (tblDeleteRow T row).1 := by
  have hroww : row.length = T.width := liveVals_width h.2.2.1 row hrow
  rw [tblDeleteRow, if_pos hroww]
  exact (tblInv_deleteRowRaw h hrow).1

/-- One `update_row` on a live row: the old row is deleted everywhere and
the patched row inserted everywhere; the invariant is preserved and every
other live row stays live. -/
theorem update_row_step_ok {T : TableIndex} (h : tblInv T)
    {upd : List (Nat × Int)} (hupd : ∀ q ∈ upd, ¬q.1 < T.pkLen)
    {row : Key} (hrow : row ∈ liveVals T.primary) :
    update_row_step upd (T, Except.ok ()) row =
      (tblInsertRowRaw (tblDeleteRowRaw T row) (patchRow upd row),
        Except.ok ()) ∧
    tblInv (tblInsertRowRaw (tblDeleteRowRaw T row) (patchRow upd row)) ∧
    (∀ v ∈ liveVals T.primary, ¬v = row →
      v ∈ liveVals (tblInsertRowRaw (tblDeleteRowRaw T row)
        (patchRow upd row)).primary) := by
  obtain ⟨ho, hpw, hwP, hwA, hsch, huq, hsync⟩ := h
  have hroww : row.length = T.width := liveVals_width hwP row hrow
  obtain ⟨hinv1, hmem1⟩ := tblInv_deleteRowRaw
    ⟨ho, hpw, hwP, hwA, hsch, huq, hsync⟩ hrow
  have hwfT1 : wfT T.width (tblDeleteRowRaw T row).primary = true := hinv1.2.2.1
  have hpatchlen : (patchRow upd row).length = T.width := by
    rw [patchRow_length, hroww]
  have hklen : ((patchRow upd row).take T.pkLen).length = T.pkLen := by
    rw [List.length_take, hpatchlen]
    omega
  have hptake : (patchRow upd row).take T.pkLen = row.take T.pkLen :=
    patchRow_take hupd row
  have hfresh : ∀ v ∈ liveVals (tblDeleteRowRaw T row).primary,
      ¬v.take T.pkLen = row.take T.pkLen := by
    intro v hv hcon
    have hv2 := (hmem1 v).mp hv
    exact hv2.2 (huq v hv2.1 row hrow hcon)
  have hstream : streamBT (tblDeleteRowRaw T row).primary
      (BTreeRange.ofKey ((patchRow upd row).take T.pkLen)) false = [] := by
    rw [stream_range hwfT1]
    rw [List.filter_eq_nil_iff]
    intro v hv hc
    have hvw : v.length = T.width :=
      liveVals_width hwfT1 v hv
    have hpre := (containsKey_ofKey_take _ v (by rw [hklen]; omega)).mp hc
    rw [hklen, hptake] at hpre
    exact hfresh v hv hpre
  have hgetnone : tblGet (tblDeleteRowRaw T row)
      ((patchRow upd row).take T.pkLen) = Except.ok none := by
    rw [tblGet, if_pos (show ((patchRow upd row).take T.pkLen).length =
      (tblDeleteRowRaw T row).pkLen from hklen), hstream]
    rfl
  have hcond : ((patchRow upd row).take T.pkLen).length =
      (tblDeleteRowRaw T row).pkLen ∧
      ((patchRow upd row).take T.pkLen).length +
      ((patchRow upd row).drop T.pkLen).length = (tblDeleteRowRaw T row).width := by
    refine ⟨hklen, ?_⟩
    show _ + _ = T.width
    rw [hklen, List.length_drop, hpatchlen]
    omega
  have hstep : update_row_step upd (T, Except.ok ()) row =
      tblInsert (tblDeleteRowRaw T row) ((patchRow upd row).take T.pkLen)
        ((patchRow upd row).drop T.pkLen) := by
    rw [show update_row_step upd (T, Except.ok ()) row =
      (match tblDeleteRow T row with
       | (T1, Except.ok _) => tblInsert T1 ((patchRow upd row).take T.pkLen)
           ((patchRow upd row).drop T.pkLen)
       | (_, Except.error e) => (T, Except.error e)) from rfl]
    rw [show tblDeleteRow T row = (tblDeleteRowRaw T row, Except.ok ()) from by
      rw [tblDeleteRow, if_pos hroww]]
  have hins : tblInsert (tblDeleteRowRaw T row)
      ((patchRow upd row).take T.pkLen) ((patchRow upd row).drop T.pkLen) =
      (tblInsertRowRaw (tblDeleteRowRaw T row) (patchRow upd row),
        Except.ok ()) := by
    simp only [tblInsert, tblUpsert, hgetnone]
    rw [if_pos hcond, List.take_append_drop]
  have hfresh2 : ∀ v ∈ liveVals (tblDeleteRowRaw T row).primary,
      ¬v.take (tblDeleteRowRaw T row).pkLen =
        (patchRow upd row).take (tblDeleteRowRaw T row).pkLen := by
    intro v hv hcon
    rw [show (tblDeleteRowRaw T row).pkLen = T.pkLen from rfl, hptake] at hcon
    exact hfresh v hv hcon
  obtain ⟨hinv2, hMP2⟩ := tblInv_insertRowRaw hinv1
    (show (patchRow upd row).length = (tblDeleteRowRaw T row).width
      from hpatchlen) hfresh2
  refine ⟨hstep.trans hins, hinv2, ?_⟩
  intro v hv hne
  have hv1 : v ∈ liveVals (tblDeleteRowRaw T row).primary :=
    (hmem1 v).mpr ⟨hv, hne⟩
  rw [← Multiset.mem_coe, hMP2, Multiset.mem_cons]
  exact Or.inr (Multiset.mem_coe.mpr hv1)

/-- Folding `update_row` over distinct live rows preserves the
invariant. -/
theorem tblInv_update_fold {upd : List (Nat × Int)} :
    ∀ (rows : List Key) (T : TableIndex), tblInv T →
    (∀ q ∈ upd, ¬q.1 < T.pkLen) →
    (∀ r ∈ rows, r ∈ liveVals T.primary) → rows.Nodup →
    tblInv (rows.foldl (update_row_step upd) (T, Except.ok ())).1 := by
  intro rows
  induction rows with
  | nil =>
    intro T h _ _ _
    exact h
  | cons r rest ih =>
    intro T h hupd hlive hnd
    rw [List.foldl_cons]
    obtain ⟨hstep, hinv2, hkeep⟩ := update_row_step_ok h hupd
      (hlive r (List.mem_cons_self _ _))
    rw [hstep]
    refine ih _ hinv2 hupd ?_ (List.Nodup.of_cons hnd)
    intro r' hr'
    refine hkeep r' (hlive r' (List.mem_cons_of_mem _ hr')) ?_
    intro hcon
    subst hcon
    exact (List.nodup_cons.mp hnd).1 hr'

/-- `TableIndex::update` preserves the invariant. -/
theorem tblInv_update {T : TableIndex} (h : tblInv T)
    (upd : List (Nat × Int)) : tblInv (tblUpdate T upd).1 := by
  rw [tblUpdate]
  by_cases hg : upd.any (fun p => p.1 < T.pkLen) = true
  · rw [if_pos hg]
    exact h
  · rw [if_neg hg]
    have hwP := h.2.2.1
    have hs := stream_range hwP BTreeRange.dflt
    apply tblInv_update_fold _ _ h
    · intro q hq hlt
      exact hg (List.any_eq_true.mpr ⟨q, hq, by simpa using hlt⟩)
    · intro r hr
      rw [hs] at hr
      exact (List.mem_filter.mp hr).1
    · rw [hs]
      exact (liveVals_nodup hwP).filter _

/-- C8 counterexample: `delete_row` with a schema-valid row that is NOT in
the table can desynchronise the indexes.  For a table with primary key
`[id]`, values `[x]`, and an auxiliary on `[id]` alone, deleting the
absent row `(1, 7)` deletes nothing from the primary (no tuple `[1, 7]`)
but tombstones the auxiliary entry `[1]` — the projection of the live row
`(1, 5)` — leaving a live primary row with no matching auxiliary row. -/
theorem claim_C8_counterexample :
    tblInv (TableIndex.mk 2 1 2 (BNode.mk true [⟨[1, 5], false⟩] [] false)
      [([0], BNode.mk true [⟨[1], false⟩] [] false)]) ∧
    (tblDeleteRow (TableIndex.mk 2 1 2 (BNode.mk true [⟨[1, 5], false⟩] [] false)
      [([0], BNode.mk true [⟨[1], false⟩] [] false)]) [1, 7]).2 =
      Except.ok () ∧
    liveVals (tblDeleteRow (TableIndex.mk 2 1 2
      (BNode.mk true [⟨[1, 5], false⟩] [] false)
      [([0], BNode.mk true [⟨[1], false⟩] [] false)]) [1, 7]).1.primary =
      [[1, 5]] ∧
    ((tblDeleteRow (TableIndex.mk 2 1 2 (BNode.mk true [⟨[1, 5], false⟩] [] false)
      [([0], BNode.mk true [⟨[1], false⟩] [] false)]) [1, 7]).1.aux.map
      fun p => liveVals p.2) = [[]] ∧
    ¬tblSync (tblDeleteRow (TableIndex.mk 2 1 2
      (BNode.mk true [⟨[1, 5], false⟩] [] false)
      [([0], BNode.mk true [⟨[1], false⟩] [] false)]) [1, 7]).1 := by
  refine ⟨by decide, by rfl, by decide, by decide, by decide⟩

/-- **C8 (amended).** The primary/auxiliary synchronisation invariant —
each auxiliary's live rows are, with multiplicity, exactly the projections
of the primary's live rows, together with the structural schema facts,
key-uniqueness and well-formedness — is preserved by `insert`, `upsert`,
`delete` and `update` for all arguments, and by `delete_row` whenever the
deleted row is live in the primary (which covers every internal call);
`delete_row` on an absent row can desynchronise (see the
counterexample). -/
theorem claim_C8_amended {T : TableIndex} (h : tblInv T) :
    (∀ key values, tblInv (tblInsert T key values).1) ∧
    (∀ key values, tblInv (tblUpsert T key values).1) ∧
    (∀ row, row ∈ liveVals T.primary → tblInv (tblDeleteRow T row).1) ∧
    tblInv (tblDelete T) ∧
    (∀ upd, tblInv (tblUpdate T upd).1) :=
  ⟨fun key values => tblInv_insert h key values,
   fun key values => tblInv_upsert h key values,
   fun row hrow => tblInv_deleteRow h hrow,
   tblInv_delete h,
   fun upd => tblInv_update h upd⟩

/-- Witness for the amended C8 at a two-column table with one auxiliary
index. -/
theorem claim_C8_amended_witness :
    (∀ key values, tblInv (tblInsert (TableIndex.mk 2 1 2
      (BNode.mk true [⟨[1, 5], false⟩] [] false)
      [([0], BNode.mk true [⟨[1], false⟩] [] false)]) key values).1) ∧
    (∀ key values, tblInv (tblUpsert (TableIndex.mk 2 1 2
      (BNode.mk true [⟨[1, 5], false⟩] [] false)
      [([0], BNode.mk true [⟨[1], false⟩] [] false)]) key values).1) ∧
    (∀ row, row ∈ liveVals (TableIndex.mk 2 1 2
      (BNode.mk true [⟨[1, 5], false⟩] [] false)
      [([0], BNode.mk true [⟨[1], false⟩] [] false)]).primary →
      tblInv (tblDeleteRow (TableIndex.mk 2 1 2
        (BNode.mk true [⟨[1, 5], false⟩] [] false)
        [([0], BNode.mk true [⟨[1], false⟩] [] false)]) row).1) ∧
    tblInv (tblDelete (TableIndex.mk 2 1 2
      (BNode.mk true [⟨[1, 5], false⟩] [] false)
      [([0], BNode.mk true [⟨[1], false⟩] [] false)])) ∧
    (∀ upd, tblInv (tblUpdate (TableIndex.mk 2 1 2
      (BNode.mk true [⟨[1, 5], false⟩] [] false)
      [([0], BNode.mk true [⟨[1], false⟩] [] false)]) upd).1) :=
  claim_C8_amended (by decide)
